import Mathlib

/-!
# bssm: particle filters and importance-sampling corrected adaptive MCMC

A shallow embedding of the sampler `ung_amcmc::approx_mcmc` (src/src/amcmc.cpp), of the
particle filters `ssm_mng::psi_filter` and `ssm_mng::bsf_filter` (src/src/model_ssm_mng.cpp),
of `psd_chol` (src/src/psd_chol.cpp) and of the importance-sampling correction entry points
`ung_amcmc::is_correction_*` (src/src/amcmc.cpp) with the workers of their `omp parallel`
blocks, of `svm_loglik` (src/src/R_svm.cpp), and of the members `update_model`,
`approximate`, `log_likelihood`, `update_scales`, `laplace_iter`, `log_weights` and
`log_obs_density` of `ssm_mng` (src/src/model_ssm_mng.cpp).

Conventions of the embedding.
* A C++ `double` is a `Dbl`: the IEEE special values NaN, -inf, +inf are kept apart and a
  finite value is a rational. Sums and differences of finite values are exact and the sign
  of zero is not modelled; `std::exp` and `std::log` on finite arguments and the quotient
  of two finite values (which rounds, and can underflow to zero) are parameters.
* `unsigned int` values are natural numbers below `2^32`; a subtraction that can wrap is
  written `usub` or guarded explicitly, and the loop counters do not reach `2^32`.
* Armadillo vectors are lists or functions on indices; an array that the code preallocates
  is a function on slot indices together with a ghost record of the slots accessed. The
  storage arrays of the sampler have the capacity `n_samples`: an access beyond it is
  recorded and changes no allocated slot.
* Calls into the model classes (`set_theta`, `approximate`, ...), into `ramcmc::adapt_S`,
  `arma::chol` and the random engine are parameters of the definitions.
* The numerical kernels of `ssm_mng` are stated over an ordered field, with the functions
  of `<cmath>` as parameters; statements about derivatives take the field of real numbers
  and the real exponential and logarithm.
-/

namespace Bssm

/-! ## Doubles -/

/-- C++ `double` with the IEEE special values explicit and finite values exact. -/
inductive Dbl where
  | nan : Dbl
  | ninf : Dbl
  | pinf : Dbl
  | fin (q : ℚ) : Dbl
deriving DecidableEq

namespace Dbl

/-- The double `0.0`. -/
def zero : Dbl := fin 0

/-- The double `1.0`. -/
def one : Dbl := fin 1

/-- Conversion of an `unsigned int` to `double`. -/
def ofNat (k : Nat) : Dbl := fin (k : ℚ)

/-- Result of `std::isfinite` / `arma::is_finite`. -/
def isFinite : Dbl → Bool
  | fin _ => true
  | _ => false

/-- Unary minus. -/
def neg : Dbl → Dbl
  | nan => nan
  | ninf => pinf
  | pinf => ninf
  | fin q => fin (-q)

/-- IEEE addition: NaN propagates and `inf + (-inf)` is NaN. -/
def add : Dbl → Dbl → Dbl
  | nan, _ => nan
  | _, nan => nan
  | pinf, ninf => nan
  | ninf, pinf => nan
  | pinf, _ => pinf
  | _, pinf => pinf
  | ninf, _ => ninf
  | _, ninf => ninf
  | fin a, fin b => fin (a + b)

/-- IEEE subtraction `a - b`. -/
def sub (a b : Dbl) : Dbl := add a (neg b)

/-- IEEE division (the sign of a zero divisor is not modelled: it counts as `+0`);
`divFin a b` is the double that the quotient of the finite values `a` and `b ≠ 0` rounds
to, which is zero for a quotient too small to be represented. -/
def div (divFin : ℚ → ℚ → Dbl) : Dbl → Dbl → Dbl
  | nan, _ => nan
  | _, nan => nan
  | fin a, fin b =>
    if b = 0 then (if a = 0 then nan else if 0 < a then pinf else ninf) else divFin a b
  | fin _, _ => fin 0
  | pinf, fin b => if 0 ≤ b then pinf else ninf
  | ninf, fin b => if 0 ≤ b then ninf else pinf
  | _, _ => nan

/-- The comparison `a < b` of two doubles: false as soon as one side is NaN. -/
def lt : Dbl → Dbl → Bool
  | nan, _ => false
  | _, nan => false
  | ninf, ninf => false
  | ninf, _ => true
  | _, ninf => false
  | pinf, _ => false
  | fin _, pinf => true
  | fin a, fin b => decide (a < b)

/-- The comparison `a > b`, that is `b < a`. -/
def gt (a b : Dbl) : Bool := lt b a

/-- The comparison `a <= b` of two doubles: false as soon as one side is NaN. -/
def le : Dbl → Dbl → Bool
  | nan, _ => false
  | _, nan => false
  | ninf, _ => true
  | _, pinf => true
  | pinf, _ => false
  | _, ninf => false
  | fin a, fin b => decide (a ≤ b)

/-- The function `std::min(a, b)`, which is `(b < a) ? b : a`. -/
def stdMin (a b : Dbl) : Dbl := if lt b a then b else a

/-- The function `std::max(a, b)`, which is `(a < b) ? b : a`. -/
def stdMax (a b : Dbl) : Dbl := if lt a b then b else a

/-- The function `std::exp`; `expFin` is its value on finite arguments. -/
def exp (expFin : ℚ → Dbl) : Dbl → Dbl
  | nan => nan
  | ninf => fin 0
  | pinf => pinf
  | fin q => expFin q

/-- The function `std::log`; `logPos` is its value on positive finite arguments. -/
def log (logPos : ℚ → ℚ) : Dbl → Dbl
  | nan => nan
  | ninf => nan
  | pinf => pinf
  | fin q => if 0 < q then fin (logPos q) else if q = 0 then ninf else nan

/-- The function `arma::accu` on a vector: the sum of the entries from `0.0`. -/
def accu (v : List Dbl) : Dbl := v.foldl add zero

/-- A double that is finite or `+inf`. -/
def good (x : Dbl) : Prop := x = pinf ∨ ∃ q, x = fin q

/-- A division of finite doubles without rounding: the quotient itself. -/
def exactDiv (a b : ℚ) : Dbl := fin (a / b)

/-- The smallest positive double, `2^-1074`. -/
def minDouble : ℚ := 1 / ((2 ^ 1074 : Nat) : ℚ)

/-- A division of finite doubles that underflows as round-to-nearest-even does: a quotient
of magnitude at most `2^-1075`, half the smallest positive double, becomes zero. Other
quotients are left unrounded. -/
def underflowDiv (a b : ℚ) : Dbl :=
  if |a / b| ≤ minDouble / 2 then fin 0 else fin (a / b)

end Dbl

/-! ## The sampler `ung_amcmc::approx_mcmc` -/

/-- Subtraction of two `unsigned int` values, which wraps modulo `2^32`. -/
def usub (a b : Nat) : Nat := (a + 4294967296 - b) % 4294967296

/-- Update of one slot of a preallocated array. -/
def setSlot {α : Type} (a : Nat → α) (i : Nat) (v : α) : Nat → α :=
  fun j => if j = i then v else a j

/-- Calls of the sampler into its collaborators, recorded in order (ghost state). -/
inductive Call where
  | set_theta : Call
  | approximate (max_iter : Nat) : Call
  | adapt_S (i : Nat) (acceptance_prob : Dbl) : Call
deriving DecidableEq

/-- Accesses to the storage arrays, recorded in order (ghost state): `store k` is the block
of writes to slot `k` of every array, `bump k` the increment of `count_storage(k)`, and
`underflow` the evaluation of `count_storage(n_stored - 1)` with `n_stored = 0`. -/
inductive Access where
  | store (slot : Nat) : Access
  | bump (slot : Nat) : Access
  | underflow : Access
deriving DecidableEq

/-- The collaborators of `approx_mcmc`: `Θ` parameter vectors, `U` standard normal draws,
`SM` proposal matrices, `M` the model object, `A` the Gaussian surrogate. -/
structure Ops (Θ U SM M A : Type) where
  /-- Value of `std::exp` on finite arguments. -/
  expFin : ℚ → Dbl
  /-- Value of the quotient of two finite doubles, the divisor not zero. -/
  divFin : ℚ → ℚ → Dbl
  /-- The call `log_prior_pdf(theta)`. -/
  log_prior_pdf : Θ → Dbl
  /-- The expression `theta + S * u`. -/
  propose : Θ → SM → U → Θ
  /-- The call `model.get_theta()`. -/
  get_theta : M → Θ
  /-- The call `model.set_theta(theta_prop)`. -/
  set_theta : M → Θ → M
  /-- The call `model.approximate(mode_estimate, max_iter, conv_tol)` that builds a surrogate. -/
  approximate_new : M → List Dbl → Nat → Dbl → M × A × List Dbl
  /-- The call `model.approximate(approx_model, mode_estimate, max_iter, conv_tol)`. -/
  approximate : M → A → List Dbl → Nat → Dbl → M × A × List Dbl
  /-- The call `model.scaling_factors(approx_model, mode_estimate)`. -/
  scaling_factors : M → A → List Dbl → List Dbl
  /-- The call `compute_const_term(model, approx_model)`. -/
  compute_const_term : M → A → Dbl
  /-- The call `approx_model.log_likelihood()`. -/
  log_likelihood : A → Dbl
  /-- The member `approx_model.y`. -/
  approx_y : A → List Dbl
  /-- The member `approx_model.H`. -/
  approx_H : A → List Dbl
  /-- The call `ramcmc::adapt_S(S, u, acceptance_prob, target_acceptance, i, gamma)`. -/
  adapt_S : SM → U → Dbl → Dbl → Nat → Dbl → SM

/-- Constructor arguments of the sampler and arguments of `approx_mcmc`. -/
structure Config where
  n_iter : Nat
  n_burnin : Nat
  n_thin : Nat
  target_acceptance : Dbl
  gamma : Dbl
  end_ram : Bool
  local_approx : Bool
  initial_mode : List Dbl
  max_iter : Nat
  conv_tol : Dbl

/-- What one pass of the loop body consumes from outside: the standard normal vector `u`,
the value `unif(model.engine)` would return, and whether `Rcpp::checkUserInterrupt()`
would throw. -/
structure Draw (U : Type) where
  u : U
  r : Dbl
  interrupt : Bool

/-- The members of the `ung_amcmc` object that `approx_mcmc` reads or writes. -/
structure Members (Θ SM : Type) where
  S : SM
  acceptance_rate : Dbl
  n_stored : Nat
  theta_storage : Nat → Θ
  count_storage : Nat → Nat
  approx_loglik_storage : Nat → Dbl
  prior_storage : Nat → Dbl
  y_storage : Nat → List Dbl
  H_storage : Nat → List Dbl
  scales_storage : Nat → List Dbl

/-- The members together with the local variables of `approx_mcmc` and the ghost records. -/
structure Sampler (Θ SM M A : Type) extends Members Θ SM where
  model : M
  theta : Θ
  logprior : Dbl
  mode_estimate : List Dbl
  approx_model : A
  gaussian_loglik : Dbl
  scales : List Dbl
  sum_scales : Dbl
  const_term : Dbl
  approx_loglik : Dbl
  acceptance_prob : Dbl
  counts : Nat
  scales_prop : List Dbl
  approx_y : List Dbl
  approx_H : List Dbl
  calls : List Call
  accesses : List Access

variable {Θ U SM M A : Type}

/-- Lines 58-88 of amcmc.cpp: the state on entry to the loop. -/
def init (ops : Ops Θ U SM M A) (cfg : Config) (model : M) (obj : Members Θ SM) :
    Sampler Θ SM M A :=
  let theta := ops.get_theta model
  let built := ops.approximate_new model cfg.initial_mode cfg.max_iter cfg.conv_tol
  let model1 := built.1
  let approx_model := built.2.1
  let mode_estimate := built.2.2
  let gaussian_loglik := ops.log_likelihood approx_model
  let scales := ops.scaling_factors model1 approx_model mode_estimate
  let sum_scales := Dbl.accu scales
  let const_term := ops.compute_const_term model1 approx_model
  { toMembers := obj
    model := model1
    theta := theta
    logprior := ops.log_prior_pdf theta
    mode_estimate := mode_estimate
    approx_model := approx_model
    gaussian_loglik := gaussian_loglik
    scales := scales
    sum_scales := sum_scales
    const_term := const_term
    approx_loglik := Dbl.add (Dbl.add gaussian_loglik const_term) sum_scales
    acceptance_prob := Dbl.zero
    counts := 0
    scales_prop := scales
    approx_y := ops.approx_y approx_model
    approx_H := ops.approx_H approx_model
    calls := []
    accesses := [] }

/-- Lines 107-125: the state after `set_theta` and the refresh of the surrogate. -/
def rebuild (ops : Ops Θ U SM M A) (cfg : Config) (theta_prop : Θ)
    (st : Sampler Θ SM M A) : Sampler Θ SM M A :=
  let model1 := ops.set_theta st.model theta_prop
  if cfg.local_approx then
    let r := ops.approximate model1 st.approx_model cfg.initial_mode cfg.max_iter cfg.conv_tol
    let scales_prop := ops.scaling_factors r.1 r.2.1 r.2.2
    { st with
      model := r.1
      approx_model := r.2.1
      mode_estimate := r.2.2
      scales_prop := scales_prop
      sum_scales := Dbl.accu scales_prop
      const_term := ops.compute_const_term r.1 r.2.1
      gaussian_loglik := ops.log_likelihood r.2.1
      calls := st.calls ++ [Call.set_theta, Call.approximate cfg.max_iter] }
  else
    let r := ops.approximate model1 st.approx_model st.mode_estimate 0 cfg.conv_tol
    { st with
      model := r.1
      approx_model := r.2.1
      mode_estimate := r.2.2
      gaussian_loglik := ops.log_likelihood r.2.1
      calls := st.calls ++ [Call.set_theta, Call.approximate 0] }

/-- Line 125: `approx_loglik_prop = gaussian_loglik + const_term + sum_scales`. -/
def approx_loglik_prop (st : Sampler Θ SM M A) : Dbl :=
  Dbl.add (Dbl.add st.gaussian_loglik st.const_term) st.sum_scales

/-- Lines 127-128: `std::min(1.0, exp(approx_loglik_prop - approx_loglik + logprior_prop
- logprior))`, evaluated in the state after the rebuild. -/
def metropolis (ops : Ops Θ U SM M A) (logprior_prop : Dbl) (st : Sampler Θ SM M A) : Dbl :=
  Dbl.stdMin Dbl.one
    (Dbl.exp ops.expFin
      (Dbl.sub (Dbl.add (Dbl.sub (approx_loglik_prop st) st.approx_loglik) logprior_prop)
        st.logprior))

/-- Lines 101-140: proposal, acceptance probability and accept/reject decision. -/
def propose_step (ops : Ops Θ U SM M A) (cfg : Config) (i : Nat) (d : Draw U)
    (st : Sampler Θ SM M A) : Sampler Θ SM M A :=
  let theta_prop := ops.propose st.theta st.S d.u
  let logprior_prop := ops.log_prior_pdf theta_prop
  if Dbl.gt logprior_prop Dbl.ninf then
    let st1 := rebuild ops cfg theta_prop st
    let acc := metropolis ops logprior_prop st1
    let st2 := { st1 with acceptance_prob := acc }
    if Dbl.lt d.r acc then
      { st2 with
        acceptance_rate :=
          if i > cfg.n_burnin then Dbl.add st2.acceptance_rate Dbl.one else st2.acceptance_rate
        approx_loglik := approx_loglik_prop st1
        logprior := logprior_prop
        theta := theta_prop
        scales := st1.scales_prop
        approx_y := ops.approx_y st1.approx_model
        approx_H := ops.approx_H st1.approx_model
        counts := 0 }
    else st2
  else { st with acceptance_prob := Dbl.zero }

/-- Whether the proposal of iteration `i` is accepted from state `st`: both tests of
lines 106 and 130 succeed. -/
def accepts (ops : Ops Θ U SM M A) (cfg : Config) (d : Draw U) (st : Sampler Θ SM M A) :
    Bool :=
  let theta_prop := ops.propose st.theta st.S d.u
  let logprior_prop := ops.log_prior_pdf theta_prop
  Dbl.gt logprior_prop Dbl.ninf &&
    Dbl.lt d.r (metropolis ops logprior_prop (rebuild ops cfg theta_prop st))

/-- Modelled from the spec: the capacity `n_samples` of the storage arrays, the number of
slots that the constructor (lines 22-26) allocates in each of them. The member is set by the
constructor of the base class `mcmc`, which is not in the sources; its value
`floor((n_iter - n_burnin) / n_thin)` is the one computed in R_svm.cpp line 62. -/
def n_samples (cfg : Config) : Nat := usub cfg.n_iter cfg.n_burnin / cfg.n_thin

/-- Whether an access touches an allocated slot of arrays with `cap` slots. -/
def Access.within (cap : Nat) : Access → Bool
  | Access.store k => decide (k < cap)
  | Access.bump k => decide (k < cap)
  | Access.underflow => false

/-- Lines 142-158: thinning and run-length compression of the stored chain. The storage
arrays have `n_samples` slots. A write to slot `n_stored` with `n_stored < n_samples`, or an
increment of slot `n_stored - 1 < n_samples`, changes that slot. An access to a slot at or
beyond `n_samples` is outside the allocated arrays: it is recorded in `accesses`, the
allocated slots keep their values, and `n_stored` (a plain member) is incremented as the
source does; the values of the slots at or beyond `n_samples` have no meaning. -/
def store_step (cfg : Config) (i : Nat) (st : Sampler Θ SM M A) : Sampler Θ SM M A :=
  if i > cfg.n_burnin then
    let st1 := { st with counts := st.counts + 1 }
    if (i - cfg.n_burnin - 1) % cfg.n_thin = 0 then
      if st1.counts ≤ cfg.n_thin then
        if st1.n_stored < n_samples cfg then
          { st1 with
            approx_loglik_storage :=
              setSlot st1.approx_loglik_storage st1.n_stored st1.approx_loglik
            theta_storage := setSlot st1.theta_storage st1.n_stored st1.theta
            y_storage := setSlot st1.y_storage st1.n_stored st1.approx_y
            H_storage := setSlot st1.H_storage st1.n_stored st1.approx_H
            prior_storage := setSlot st1.prior_storage st1.n_stored st1.logprior
            scales_storage := setSlot st1.scales_storage st1.n_stored st1.scales
            count_storage := setSlot st1.count_storage st1.n_stored 1
            n_stored := st1.n_stored + 1
            accesses := st1.accesses ++ [Access.store st1.n_stored] }
        else
          { st1 with
            n_stored := st1.n_stored + 1
            accesses := st1.accesses ++ [Access.store st1.n_stored] }
      else if st1.n_stored = 0 then
        { st1 with accesses := st1.accesses ++ [Access.underflow] }
      else if st1.n_stored - 1 < n_samples cfg then
        { st1 with
          count_storage :=
            setSlot st1.count_storage (st1.n_stored - 1) (st1.count_storage (st1.n_stored - 1) + 1)
          accesses := st1.accesses ++ [Access.bump (st1.n_stored - 1)] }
      else
        { st1 with accesses := st1.accesses ++ [Access.bump (st1.n_stored - 1)] }
    else st1
  else st

/-- Lines 160-162: adaptation of the proposal matrix. -/
def adapt_step (ops : Ops Θ U SM M A) (cfg : Config) (i : Nat) (d : Draw U)
    (st : Sampler Θ SM M A) : Sampler Θ SM M A :=
  if !cfg.end_ram || decide (i ≤ cfg.n_burnin) then
    { st with
      S := ops.adapt_S st.S d.u st.acceptance_prob cfg.target_acceptance i cfg.gamma
      calls := st.calls ++ [Call.adapt_S i st.acceptance_prob] }
  else st

/-- Lines 95-162: the loop body after the interruption check. -/
def iteration (ops : Ops Θ U SM M A) (cfg : Config) (i : Nat) (d : Draw U)
    (st : Sampler Θ SM M A) : Sampler Θ SM M A :=
  adapt_step ops cfg i d (store_step cfg i (propose_step ops cfg i d st))

/-- State after the loop passes `1..k`, when none of them is interrupted. -/
def run_to (ops : Ops Θ U SM M A) (cfg : Config) (draws : Nat → Draw U)
    (st : Sampler Θ SM M A) : Nat → Sampler Θ SM M A
  | 0 => st
  | k + 1 => iteration ops cfg (k + 1) (draws (k + 1)) (run_to ops cfg draws st k)

/-- Whether the proposal of loop pass `k` is accepted in the uninterrupted run from `st`. -/
def accepted_at (ops : Ops Θ U SM M A) (cfg : Config) (draws : Nat → Draw U)
    (st : Sampler Θ SM M A) (k : Nat) : Bool :=
  accepts ops cfg (draws k) (run_to ops cfg draws st (k - 1))

/-- Lines 89-163: `k` further passes of the loop from counter value `i`; `.error` carries
the state at the moment `Rcpp::checkUserInterrupt()` throws. -/
def loop (ops : Ops Θ U SM M A) (cfg : Config) (draws : Nat → Draw U) :
    Nat → Nat → Sampler Θ SM M A → Except (Sampler Θ SM M A) (Sampler Θ SM M A)
  | 0, _, st => .ok st
  | k + 1, i, st =>
    if i % 16 = 0 ∧ (draws i).interrupt = true then .error st
    else loop ops cfg draws k (i + 1) (iteration ops cfg i (draws i) st)

/-- Lines 165-166: `trim_storage()` leaves the first `n_stored` slots as they are, and
`acceptance_rate /= (n_iter - n_burnin)`. -/
def finish (ops : Ops Θ U SM M A) (cfg : Config) (st : Sampler Θ SM M A) :
    Sampler Θ SM M A :=
  { st with
    acceptance_rate :=
      Dbl.div ops.divFin st.acceptance_rate (Dbl.ofNat (usub cfg.n_iter cfg.n_burnin)) }

/-- The function `ung_amcmc::approx_mcmc`: `.ok` is the state on normal return, `.error`
the state when the interruption check throws. -/
def approx_mcmc (ops : Ops Θ U SM M A) (cfg : Config) (draws : Nat → Draw U) (model : M)
    (obj : Members Θ SM) : Except (Sampler Θ SM M A) (Sampler Θ SM M A) :=
  match loop ops cfg draws cfg.n_iter 1 (init ops cfg model obj) with
  | .ok st => .ok (finish ops cfg st)
  | .error st => .error st

/-- Sum of the repeat counts of the stored entries, `sum(count_storage)` after trimming. -/
def count_sum (st : Sampler Θ SM M A) : Nat :=
  Finset.sum (Finset.range st.n_stored) st.count_storage

/-- The post-burn-in iterations that survive thinning. -/
def thinned (cfg : Config) (i : Nat) : Prop :=
  cfg.n_burnin < i ∧ (i - cfg.n_burnin - 1) % cfg.n_thin = 0

instance (cfg : Config) (i : Nat) : Decidable (thinned cfg i) := by
  unfold thinned; infer_instance

/-- Number of post-burn-in thinned iterations among `1..k`. -/
def thinned_upto (cfg : Config) (k : Nat) : Nat :=
  ((Finset.range (k + 1)).filter (thinned cfg)).card


/-! ## The particle filters `ssm_mng::psi_filter` and `ssm_mng::bsf_filter` -/

/-- The members of an `ssm_mng` model that the filters read or write directly; `core`
stands for the rest (system matrices, surrogate model, mode estimate, random engine). -/
structure SsmMng (K : Type) where
  n : Nat
  p : Nat
  y : Nat → Nat → Dbl
  approx_state : Int
  approx_loglik : Dbl
  scales : Nat → Dbl
  core : K

/-- The collaborators of the filters; `P` is the particle cube `alpha`. The random draws
of a time step are part of the operation that consumes them. -/
structure FilterOps (K P : Type) where
  /-- Value of `std::exp` on finite arguments. -/
  expFin : ℚ → Dbl
  /-- Value of `std::log` on positive finite arguments. -/
  logPos : ℚ → ℚ
  /-- Value of the quotient of two finite doubles, the divisor not zero. -/
  divFin : ℚ → ℚ → Dbl
  /-- The statements `mode_estimate = initial_mode; approximate();`. -/
  approximate : SsmMng K → SsmMng K
  /-- The call `approx_model.log_likelihood()`. -/
  gaussian_loglik : SsmMng K → Dbl
  /-- The call `update_scales()`. -/
  update_scales : SsmMng K → SsmMng K
  /-- The call `compute_const_term()`. -/
  compute_const_term : SsmMng K → Dbl
  /-- The call `log_weights(t, alpha)`. -/
  log_weights : SsmMng K → Nat → P → List Dbl
  /-- The call `log_obs_density(t, alpha)`. -/
  log_obs_density : SsmMng K → Nat → P → List Dbl
  /-- The member function `max()` of a weight column. -/
  vec_max : List Dbl → Dbl
  /-- Lines 423-437: smoothing of the surrogate and draw of the particles of column 0. -/
  psi_initial : SsmMng K → Nat → P → P
  /-- Lines 465-477: particles of column `t + 1` from the resampled ones of column `t`. -/
  psi_propagate : SsmMng K → Nat → Nat → List Nat → P → P
  /-- Lines 501-514: draw of the particles of column 0 from the initial distribution. -/
  bsf_initial : SsmMng K → Nat → P → P
  /-- Lines 545-557: particles of column `t + 1` from the resampled ones of column `t`. -/
  bsf_propagate : SsmMng K → Nat → Nat → List Nat → P → P
  /-- The call `stratified_sample(normalized_weights, r, nsim)` with the uniforms of step `t`. -/
  stratified_sample : Nat → List Dbl → Nat → List Nat
  /-- Lines 576-599: the distribution-specific constants added to `loglik`, in order. -/
  log_consts : SsmMng K → List Dbl

/-- What a weighting stage did at a time step (ghost state): the step and, when the step
was observed, the sum of its weights. -/
structure Weighing where
  t : Nat
  sum_weights : Option Dbl
deriving DecidableEq

/-- The arguments `alpha`, `weights`, `indices` passed by reference, the local variables
of a filter, and the ghost record of the weighting stages. -/
structure FilterState (P : Type) where
  alpha : P
  weights : Nat → List Dbl
  indices : Nat → List Nat
  normalized_weights : List Dbl
  loglik : Dbl
  steps : List Weighing

/-- Value of `arma::find_nonfinite(y.col(t)).n_elem`. -/
def n_nonfinite {K : Type} (mdl : SsmMng K) (t : Nat) : Nat :=
  ((List.range mdl.p).filter (fun j => !(mdl.y j t).isFinite)).length

/-- The column `ones()` of length `nsim`. -/
def ones (nsim : Nat) : List Dbl := List.replicate nsim Dbl.one

/-- The vector `fill(1.0 / nsim)` of length `nsim`. -/
def uniform (divFin : ℚ → ℚ → Dbl) (nsim : Nat) : List Dbl :=
  List.replicate nsim (Dbl.div divFin Dbl.one (Dbl.ofNat nsim))

/-- The else-branches of the weighting stages: `weights.col(t).ones()` and
`normalized_weights.fill(1.0 / nsim)`. -/
def skip_weighting {P : Type} (divFin : ℚ → ℚ → Dbl) (nsim t : Nat) (st : FilterState P) :
    FilterState P :=
  { st with
    weights := setSlot st.weights t (ones nsim)
    normalized_weights := uniform divFin nsim
    steps := st.steps ++ [{ t := t, sum_weights := none }] }

/-- Lines 408-421 of model_ssm_mng.cpp: refresh of a stale approximation. -/
def psi_prelude {K P : Type} (ops : FilterOps K P) (mdl : SsmMng K) : SsmMng K :=
  if mdl.approx_state ≠ 1 then
    let m1 := ops.approximate mdl
    let gaussian_loglik := ops.gaussian_loglik m1
    let m2 := ops.update_scales m1
    let const_term := ops.compute_const_term m2
    { m2 with
      approx_loglik :=
        Dbl.add (Dbl.add gaussian_loglik const_term)
          (Dbl.accu ((List.range m2.n).map m2.scales)) }
  else mdl

/-- The psi-filter weights of column `t`: `exp(log_weights(t, alpha) - scales(t))`. -/
def psi_weights {K P : Type} (ops : FilterOps K P) (mdl : SsmMng K) (t : Nat) (alpha : P) :
    List Dbl :=
  (ops.log_weights mdl t alpha).map (fun w => Dbl.exp ops.expFin (Dbl.sub w (mdl.scales t)))

/-- Lines 440-456: the weighting stage of column 0 in `psi_filter`; `.error` is the state
at `return -inf`. -/
def psi_first {K P : Type} (ops : FilterOps K P) (mdl : SsmMng K) (nsim : Nat)
    (st : FilterState P) : Except (FilterState P) (FilterState P) :=
  if n_nonfinite mdl 0 < mdl.p then
    let w := psi_weights ops mdl 0 st.alpha
    let sum_weights := Dbl.accu w
    let st1 := { st with
      weights := setSlot st.weights 0 w
      steps := st.steps ++ [{ t := 0, sum_weights := some sum_weights }] }
    if Dbl.gt sum_weights Dbl.zero then
      .ok { st1 with
        normalized_weights := w.map (fun x => Dbl.div ops.divFin x sum_weights)
        loglik :=
          Dbl.add mdl.approx_loglik (Dbl.log ops.logPos (Dbl.div ops.divFin sum_weights (Dbl.ofNat nsim))) }
    else .error st1
  else .ok { skip_weighting ops.divFin nsim 0 st with loglik := mdl.approx_loglik }

/-- Lines 459-492: pass `t` of the loop of `psi_filter`; `.error` is the state at
`return -inf`. -/
def psi_iter {K P : Type} (ops : FilterOps K P) (mdl : SsmMng K) (nsim t : Nat)
    (st : FilterState P) : Except (FilterState P) (FilterState P) :=
  let ind := ops.stratified_sample t st.normalized_weights nsim
  let st1 := { st with
    indices := setSlot st.indices t ind
    alpha := ops.psi_propagate mdl nsim t ind st.alpha }
  if t < mdl.n - 1 ∧ n_nonfinite mdl (t + 1) < mdl.p then
    let w := psi_weights ops mdl (t + 1) st1.alpha
    let sum_weights := Dbl.accu w
    let st2 := { st1 with
      weights := setSlot st1.weights (t + 1) w
      steps := st1.steps ++ [{ t := t + 1, sum_weights := some sum_weights }] }
    if Dbl.gt sum_weights Dbl.zero then
      .ok { st2 with
        normalized_weights := w.map (fun x => Dbl.div ops.divFin x sum_weights)
        loglik :=
          Dbl.add st2.loglik (Dbl.log ops.logPos (Dbl.div ops.divFin sum_weights (Dbl.ofNat nsim))) }
    else .error st2
  else .ok (skip_weighting ops.divFin nsim (t + 1) st1)

/-- State of `psi_filter` after the stage of column 0 and the loop passes `0..k-1`. -/
def psi_run {K P : Type} (ops : FilterOps K P) (mdl : SsmMng K) (nsim : Nat)
    (st : FilterState P) : Nat → Except (FilterState P) (FilterState P)
  | 0 => psi_first ops mdl nsim st
  | k + 1 =>
    match psi_run ops mdl nsim st k with
    | .ok s => psi_iter ops mdl nsim k s
    | .error s => .error s

/-- The state in which the body of a filter starts: the arguments as passed, `loglik = 0.0`,
and the particles of column 0 drawn. -/
def filter_start {P : Type} (alpha0 : P) (weights : Nat → List Dbl) (indices : Nat → List Nat) :
    FilterState P :=
  { alpha := alpha0
    weights := weights
    indices := indices
    normalized_weights := []
    loglik := Dbl.zero
    steps := [] }

/-- The function `ssm_mng::psi_filter`: the model after the prelude, the returned value,
and the final state of the arguments. -/
def psi_filter {K P : Type} (ops : FilterOps K P) (mdl : SsmMng K) (nsim : Nat) (alpha : P)
    (weights : Nat → List Dbl) (indices : Nat → List Nat) : SsmMng K × Dbl × FilterState P :=
  let mdl1 := psi_prelude ops mdl
  match psi_run ops mdl1 nsim
      (filter_start (ops.psi_initial mdl1 nsim alpha) weights indices) mdl1.n with
  | .ok s => (mdl1, s.loglik, s)
  | .error s => (mdl1, Dbl.ninf, s)

/-- The bootstrap-filter weights of column `t` and their maximum: the log-densities
`log_obs_density(t, alpha)`, then `exp(weights.col(t) - max_weight)`. -/
def bsf_weights {K P : Type} (ops : FilterOps K P) (mdl : SsmMng K) (t : Nat) (alpha : P) :
    Dbl × List Dbl :=
  let lw := ops.log_obs_density mdl t alpha
  let max_weight := ops.vec_max lw
  (max_weight, lw.map (fun w => Dbl.exp ops.expFin (Dbl.sub w max_weight)))

/-- Lines 516-535: the weighting stage of column 0 in `bsf_filter`. -/
def bsf_first {K P : Type} (ops : FilterOps K P) (mdl : SsmMng K) (nsim : Nat)
    (st : FilterState P) : Except (FilterState P) (FilterState P) :=
  if n_nonfinite mdl 0 < mdl.p then
    let mw := bsf_weights ops mdl 0 st.alpha
    let sum_weights := Dbl.accu mw.2
    let st1 := { st with
      weights := setSlot st.weights 0 mw.2
      steps := st.steps ++ [{ t := 0, sum_weights := some sum_weights }] }
    if Dbl.gt sum_weights Dbl.zero then
      .ok { st1 with
        normalized_weights := mw.2.map (fun x => Dbl.div ops.divFin x sum_weights)
        loglik := Dbl.add mw.1 (Dbl.log ops.logPos (Dbl.div ops.divFin sum_weights (Dbl.ofNat nsim))) }
    else .error st1
  else .ok (skip_weighting ops.divFin nsim 0 st)

/-- Lines 536-575: pass `t` of the loop of `bsf_filter`. -/
def bsf_iter {K P : Type} (ops : FilterOps K P) (mdl : SsmMng K) (nsim t : Nat)
    (st : FilterState P) : Except (FilterState P) (FilterState P) :=
  let ind := ops.stratified_sample t st.normalized_weights nsim
  let st1 := { st with
    indices := setSlot st.indices t ind
    alpha := ops.bsf_propagate mdl nsim t ind st.alpha }
  if t < mdl.n - 1 ∧ n_nonfinite mdl (t + 1) < mdl.p then
    let mw := bsf_weights ops mdl (t + 1) st1.alpha
    let sum_weights := Dbl.accu mw.2
    let st2 := { st1 with
      weights := setSlot st1.weights (t + 1) mw.2
      steps := st1.steps ++ [{ t := t + 1, sum_weights := some sum_weights }] }
    if Dbl.gt sum_weights Dbl.zero then
      .ok { st2 with
        normalized_weights := mw.2.map (fun x => Dbl.div ops.divFin x sum_weights)
        loglik :=
          Dbl.add st2.loglik
            (Dbl.add mw.1 (Dbl.log ops.logPos (Dbl.div ops.divFin sum_weights (Dbl.ofNat nsim)))) }
    else .error st2
  else .ok (skip_weighting ops.divFin nsim (t + 1) st1)

/-- State of `bsf_filter` after the stage of column 0 and the loop passes `0..k-1`. -/
def bsf_run {K P : Type} (ops : FilterOps K P) (mdl : SsmMng K) (nsim : Nat)
    (st : FilterState P) : Nat → Except (FilterState P) (FilterState P)
  | 0 => bsf_first ops mdl nsim st
  | k + 1 =>
    match bsf_run ops mdl nsim st k with
    | .ok s => bsf_iter ops mdl nsim k s
    | .error s => .error s

/-- The function `ssm_mng::bsf_filter`: the returned value and the final state of the
arguments. -/
def bsf_filter {K P : Type} (ops : FilterOps K P) (mdl : SsmMng K) (nsim : Nat) (alpha : P)
    (weights : Nat → List Dbl) (indices : Nat → List Nat) : Dbl × FilterState P :=
  match bsf_run ops mdl nsim
      (filter_start (ops.bsf_initial mdl nsim alpha) weights indices) mdl.n with
  | .ok s => ((ops.log_consts mdl).foldl Dbl.add s.loglik, s)
  | .error s => (Dbl.ninf, s)

/-- A weighting stage records a non-positive weight sum: the test `sum_weights > 0.0` fails. -/
def Weighing.failing (w : Weighing) : Prop :=
  ∃ s, w.sum_weights = some s ∧ Dbl.gt s Dbl.zero = false

/-- A weighting stage was skipped or records a positive weight sum. -/
def Weighing.passing (w : Weighing) : Prop :=
  ∀ s, w.sum_weights = some s → Dbl.gt s Dbl.zero = true

/-- The value `base + log(s_1 / nsim) + ... + log(s_k / nsim)` accumulated in `loglik` over
the observed steps of a record, added in the order of the steps. -/
def loglik_sum (logPos : ℚ → ℚ) (divFin : ℚ → ℚ → Dbl) (nsim : Nat) (base : Dbl)
    (steps : List Weighing) : Dbl :=
  (steps.filterMap (fun w => w.sum_weights)).foldl
    (fun acc s => Dbl.add acc (Dbl.log logPos (Dbl.div divFin s (Dbl.ofNat nsim)))) base

/-! ## The utility `psd_chol` -/

/-- An Armadillo matrix with entries in an ordered field `F` (exact arithmetic). -/
structure Mat (F : Type) where
  n_rows : Nat
  n_cols : Nat
  entry : Nat → Nat → F

/-- The matrix `arma::mat(r, c, arma::fill::zeros)`. -/
def Mat.zeros {F : Type} [Zero F] (r c : Nat) : Mat F :=
  { n_rows := r, n_cols := c, entry := fun _ _ => 0 }

/-- The vector `x.diag()`. -/
def Mat.diag {F : Type} (x : Mat F) : List F :=
  (List.range (min x.n_rows x.n_cols)).map (fun i => x.entry i i)

/-- The member function `max()` of a vector; an empty vector raises an error. -/
def vec_max {F : Type} [LinearOrder F] : List F → Option F
  | [] => none
  | a :: l => some (l.foldl (fun acc v => if acc < v then v else acc) a)

/-- The threshold `std::max(eps, eps * x.n_cols * x.diag().max())`. -/
def chol_threshold {F : Type} [LinearOrderedField F] (eps : F) (x : Mat F) (dmax : F) : F :=
  if eps < eps * (x.n_cols : F) * dmax then eps * (x.n_cols : F) * dmax else eps

/-- The index vector `arma::find(x.diag() > threshold)`, in increasing order. -/
def nonzero_idx {F : Type} [LinearOrderedField F] (eps : F) (x : Mat F) (dmax : F) : List Nat :=
  (List.range (min x.n_rows x.n_cols)).filter
    (fun i => decide (chol_threshold eps x dmax < x.entry i i))

/-- The matrix `x.submat(rows, cols)` for index vectors `rows` and `cols`. -/
def Mat.submat {F : Type} (x : Mat F) (rows cols : List Nat) : Mat F :=
  { n_rows := rows.length
    n_cols := cols.length
    entry := fun a b => x.entry (rows.getD a 0) (cols.getD b 0) }

/-- The assignment `z.submat(rows, cols) = v`; the sizes have to agree. -/
def Mat.set_submat {F : Type} (z : Mat F) (rows cols : List Nat) (v : Mat F) : Option (Mat F) :=
  if v.n_rows = rows.length ∧ v.n_cols = cols.length then
    some { z with
      entry := fun i j =>
        if i ∈ rows ∧ j ∈ cols then v.entry (rows.indexOf i) (cols.indexOf j)
        else z.entry i j }
  else none

/-- The function `psd_chol`; `chol` stands for `arma::chol(., "lower")`, with `none` for a
failed decomposition, and `eps` for `arma::datum::eps`. The result is `none` when an
Armadillo call raises an error. -/
def psd_chol {F : Type} [LinearOrderedField F] (chol : Mat F → Option (Mat F)) (eps : F)
    (x : Mat F) : Option (Mat F) :=
  match vec_max x.diag with
  | none => none
  | some dmax =>
    let nonzero := nonzero_idx eps x dmax
    let k := nonzero.length
    let cholx : Mat F := Mat.zeros x.n_cols x.n_cols
    if k > 0 then
      match chol (x.submat nonzero nonzero) with
      | none => none
      | some l => cholx.set_submat nonzero nonzero l
    else some cholx

/-- The entry `(i, j)` of the product of `l` with its transpose. -/
def Mat.mul_transpose {F : Type} [Semiring F] (l : Mat F) (i j : Nat) : F :=
  Finset.sum (Finset.range l.n_cols) (fun c => l.entry i c * l.entry j c)

/-- A matrix is lower triangular: the entries above the diagonal are zero. -/
def Mat.lower {F : Type} [Zero F] (l : Mat F) : Prop :=
  ∀ i j, i < j → j < l.n_cols → l.entry i j = 0

/-- What a successful `arma::chol(a, "lower")` guarantees: the factor has the size of `a`,
is lower triangular with a positive diagonal, and its product with its transpose is `a`. -/
def CholContract {F : Type} [LinearOrderedField F] (chol : Mat F → Option (Mat F)) : Prop :=
  ∀ a l, chol a = some l →
    l.n_rows = a.n_rows ∧ l.n_cols = a.n_cols ∧ l.lower ∧
    (∀ i, i < a.n_rows → 0 < l.entry i i) ∧
    (∀ i j, i < a.n_rows → j < a.n_rows → l.mul_transpose i j = a.entry i j)

/-- The index set `I` of `psd_chol`: the diagonal entry exceeds the threshold. -/
def in_block {F : Type} [LinearOrderedField F] (eps : F) (x : Mat F) (i : Nat) : Prop :=
  ∃ dmax, vec_max x.diag = some dmax ∧ i ∈ nonzero_idx eps x dmax

/-- The 2 x 2 matrix of ones: symmetric, positive semidefinite, of rank 1. -/
def onesMat : Mat ℚ := { n_rows := 2, n_cols := 2, entry := fun _ _ => 1 }

/-- The matrix `diag(4, 0)`. -/
def diagMat : Mat ℚ :=
  { n_rows := 2, n_cols := 2, entry := fun i j => if i = 0 ∧ j = 0 then 4 else 0 }

/-- A factorization routine that knows the 1 x 1 matrix `(4)` only. -/
def toyChol (a : Mat ℚ) : Option (Mat ℚ) :=
  if a.n_rows = 1 ∧ a.n_cols = 1 ∧ a.entry 0 0 = 4 then
    some { n_rows := 1, n_cols := 1, entry := fun i j => if i = 0 ∧ j = 0 then 2 else 0 }
  else none

/-! ## The importance-sampling correction `ung_amcmc::is_correction_*` -/

/-- The members of the `ung_amcmc` object used by the correction stage, after
`trim_storage()`; `AL` is a sampled trajectory, one slice of `alpha_storage`. -/
structure Chain (Θ AL : Type) where
  n_stored : Nat
  theta_storage : Nat → Θ
  count_storage : Nat → Nat
  approx_loglik_storage : Nat → Dbl
  prior_storage : Nat → Dbl
  y_storage : Nat → List Dbl
  H_storage : Nat → List Dbl
  scales_storage : Nat → List Dbl
  alpha_storage : Nat → AL
  weight_storage : Nat → Dbl
  posterior_storage : Nat → Dbl

/-- The collaborators of the correction stage; `MD` is the model object, which the
samplers receive by value and update from draw to draw. -/
structure CorrOps (Θ AL MD : Type) where
  /-- Value of `std::exp` on finite arguments. -/
  expFin : ℚ → Dbl
  /-- Value of `std::log` on positive finite arguments. -/
  logPos : ℚ → ℚ
  /-- Whether the translation unit is compiled with `_OPENMP`. -/
  openmp : Bool
  /-- Body of a pass of the psi samplers up to the trajectory draw: `set_theta`, surrogate,
  `psi_filter` with `m` particles, `filter_smoother`; gives the log-likelihood and the
  trajectory drawn. -/
  psi_draw : MD → Nat → Θ → List Dbl → List Dbl → List Dbl → MD × Dbl × AL
  /-- Body of a pass of the bootstrap samplers: `set_theta`, `bsf_filter` with `m`
  particles, `filter_smoother`; gives the log-likelihood and the trajectory drawn. -/
  bsf_draw : MD → Nat → Θ → MD × Dbl × AL
  /-- Body of a pass of the SPDK samplers: simulation of `m` trajectories, weights
  `exp(sum of log-weights - scales(i))`; gives their mean and the trajectory drawn. -/
  spdk_draw : MD → Nat → Θ → List Dbl → List Dbl → Dbl → MD × Dbl × AL
  /-- Conversion of the matrix `scales_storage` to the `const arma::vec&` parameter of the
  SPDK samplers in the single-threaded calls; `none` when Armadillo rejects the size. -/
  scales_as_vec : (Nat → List Dbl) → Nat → Option (Nat → Dbl)
  /-- The `omp parallel` block of `is_correction_psi`; `none` for an Armadillo error. -/
  parallel_psi : MD → Nat → Bool → Nat → Chain Θ AL → Option (Chain Θ AL)
  /-- The `omp parallel` block of `is_correction_bsf`; `none` for an Armadillo error. -/
  parallel_bsf : MD → Nat → Bool → Nat → Chain Θ AL → Option (Chain Θ AL)
  /-- The `omp parallel` block of `is_correction_spdk`; `none` for an Armadillo error. -/
  parallel_spdk : MD → Nat → Bool → Nat → Chain Θ AL → Option (Chain Θ AL)

/-- The loop shared by `state_sampler_psi_is2` and `state_sampler_psi_is1` over the draws
`i..i+k-1`; `particles i` is the number of particles used for draw `i`. -/
def state_sampler_psi_loop {Θ AL MD : Type} (ops : CorrOps Θ AL MD) (particles : Nat → Nat)
    (theta : Nat → Θ) (y H scales : Nat → List Dbl) :
    Nat → Nat → MD → (Nat → AL) × (Nat → Dbl) → (Nat → AL) × (Nat → Dbl)
  | 0, _, _, out => out
  | k + 1, i, model, out =>
    let r := ops.psi_draw model (particles i) (theta i) (y i) (H i) (scales i)
    state_sampler_psi_loop ops particles theta y H scales k (i + 1) r.1
      (setSlot out.1 i r.2.2, setSlot out.2 i (Dbl.exp ops.expFin r.2.1))

/-- The function `ung_amcmc::state_sampler_psi_is2`: `nsim_states` particles per draw;
`n_cols` is `theta.n_cols`, the result the final `alpha` and `weights`. -/
def state_sampler_psi_is2 {Θ AL MD : Type} (ops : CorrOps Θ AL MD) (model : MD)
    (nsim_states n_cols : Nat) (theta : Nat → Θ) (alpha : Nat → AL) (weights : Nat → Dbl)
    (y H scales : Nat → List Dbl) : (Nat → AL) × (Nat → Dbl) :=
  state_sampler_psi_loop ops (fun _ => nsim_states) theta y H scales n_cols 0 model
    (alpha, weights)

/-- The function `ung_amcmc::state_sampler_psi_is1`: `nsim_states * counts(i)` particles
for draw `i`. -/
def state_sampler_psi_is1 {Θ AL MD : Type} (ops : CorrOps Θ AL MD) (model : MD)
    (nsim_states n_cols : Nat) (theta : Nat → Θ) (alpha : Nat → AL) (weights : Nat → Dbl)
    (y H scales : Nat → List Dbl) (counts : Nat → Nat) : (Nat → AL) × (Nat → Dbl) :=
  state_sampler_psi_loop ops (fun i => nsim_states * counts i) theta y H scales n_cols 0 model
    (alpha, weights)

/-- The loop shared by `state_sampler_bsf_is2` and `state_sampler_bsf_is1`. -/
def state_sampler_bsf_loop {Θ AL MD : Type} (ops : CorrOps Θ AL MD) (particles : Nat → Nat)
    (approx_loglik_storage : Nat → Dbl) (theta : Nat → Θ) :
    Nat → Nat → MD → (Nat → AL) × (Nat → Dbl) → (Nat → AL) × (Nat → Dbl)
  | 0, _, _, out => out
  | k + 1, i, model, out =>
    let r := ops.bsf_draw model (particles i) (theta i)
    state_sampler_bsf_loop ops particles approx_loglik_storage theta k (i + 1) r.1
      (setSlot out.1 i r.2.2,
        setSlot out.2 i (Dbl.exp ops.expFin (Dbl.sub r.2.1 (approx_loglik_storage i))))

/-- The function `ung_amcmc::state_sampler_bsf_is2`. -/
def state_sampler_bsf_is2 {Θ AL MD : Type} (ops : CorrOps Θ AL MD) (model : MD)
    (nsim_states : Nat) (approx_loglik_storage : Nat → Dbl) (n_cols : Nat) (theta : Nat → Θ)
    (alpha : Nat → AL) (weights : Nat → Dbl) : (Nat → AL) × (Nat → Dbl) :=
  state_sampler_bsf_loop ops (fun _ => nsim_states) approx_loglik_storage theta n_cols 0 model
    (alpha, weights)

/-- The function `ung_amcmc::state_sampler_bsf_is1`. -/
def state_sampler_bsf_is1 {Θ AL MD : Type} (ops : CorrOps Θ AL MD) (model : MD)
    (nsim_states : Nat) (approx_loglik_storage : Nat → Dbl) (n_cols : Nat) (theta : Nat → Θ)
    (alpha : Nat → AL) (weights : Nat → Dbl) (counts : Nat → Nat) :
    (Nat → AL) × (Nat → Dbl) :=
  state_sampler_bsf_loop ops (fun i => nsim_states * counts i) approx_loglik_storage theta
    n_cols 0 model (alpha, weights)

/-- The loop shared by `state_sampler_spdk_is2` and `state_sampler_spdk_is1`. -/
def state_sampler_spdk_loop {Θ AL MD : Type} (ops : CorrOps Θ AL MD) (particles : Nat → Nat)
    (theta : Nat → Θ) (y H : Nat → List Dbl) (scales : Nat → Dbl) :
    Nat → Nat → MD → (Nat → AL) × (Nat → Dbl) → (Nat → AL) × (Nat → Dbl)
  | 0, _, _, out => out
  | k + 1, i, model, out =>
    let r := ops.spdk_draw model (particles i) (theta i) (y i) (H i) (scales i)
    state_sampler_spdk_loop ops particles theta y H scales k (i + 1) r.1
      (setSlot out.1 i r.2.2, setSlot out.2 i r.2.1)

/-- The function `ung_amcmc::state_sampler_spdk_is2`. -/
def state_sampler_spdk_is2 {Θ AL MD : Type} (ops : CorrOps Θ AL MD) (model : MD)
    (nsim_states n_cols : Nat) (theta : Nat → Θ) (alpha : Nat → AL) (weights : Nat → Dbl)
    (y H : Nat → List Dbl) (scales : Nat → Dbl) : (Nat → AL) × (Nat → Dbl) :=
  state_sampler_spdk_loop ops (fun _ => nsim_states) theta y H scales n_cols 0 model
    (alpha, weights)

/-- The function `ung_amcmc::state_sampler_spdk_is1`. -/
def state_sampler_spdk_is1 {Θ AL MD : Type} (ops : CorrOps Θ AL MD) (model : MD)
    (nsim_states n_cols : Nat) (theta : Nat → Θ) (alpha : Nat → AL) (weights : Nat → Dbl)
    (y H : Nat → List Dbl) (scales : Nat → Dbl) (counts : Nat → Nat) :
    (Nat → AL) × (Nat → Dbl) :=
  state_sampler_spdk_loop ops (fun i => nsim_states * counts i) theta y H scales n_cols 0
    model (alpha, weights)

/-- Lines 181-228 of amcmc.cpp: the sampling stage of `is_correction_psi`. -/
def psi_stage {Θ AL MD : Type} (ops : CorrOps Θ AL MD) (model : MD) (nsim_states : Nat)
    (const_sim : Bool) (n_threads : Nat) (obj : Chain Θ AL) : Option (Chain Θ AL) :=
  if n_threads > 1 ∧ ops.openmp = true then
    ops.parallel_psi model nsim_states const_sim n_threads obj
  else
    let out :=
      if const_sim then
        state_sampler_psi_is2 ops model nsim_states obj.n_stored obj.theta_storage
          obj.alpha_storage obj.weight_storage obj.y_storage obj.H_storage obj.scales_storage
      else
        state_sampler_psi_is1 ops model nsim_states obj.n_stored obj.theta_storage
          obj.alpha_storage obj.weight_storage obj.y_storage obj.H_storage obj.scales_storage
          obj.count_storage
    some { obj with alpha_storage := out.1, weight_storage := out.2 }

/-- The function `ung_amcmc::is_correction_psi`; `none` for an Armadillo error. -/
def is_correction_psi {Θ AL MD : Type} (ops : CorrOps Θ AL MD) (model : MD) (nsim_states : Nat)
    (const_sim : Bool) (n_threads : Nat) (obj : Chain Θ AL) : Option (Chain Θ AL) :=
  match psi_stage ops model nsim_states const_sim n_threads obj with
  | none => none
  | some o =>
    some { o with
      posterior_storage := fun i =>
        Dbl.add (Dbl.add (o.prior_storage i) (o.approx_loglik_storage i))
          (Dbl.log ops.logPos (o.weight_storage i)) }

/-- Lines 332-377 of amcmc.cpp: the sampling stage of `is_correction_bsf`. -/
def bsf_stage {Θ AL MD : Type} (ops : CorrOps Θ AL MD) (model : MD) (nsim_states : Nat)
    (const_sim : Bool) (n_threads : Nat) (obj : Chain Θ AL) : Option (Chain Θ AL) :=
  if n_threads > 1 ∧ ops.openmp = true then
    ops.parallel_bsf model nsim_states const_sim n_threads obj
  else
    let out :=
      if const_sim then
        state_sampler_bsf_is2 ops model nsim_states obj.approx_loglik_storage obj.n_stored
          obj.theta_storage obj.alpha_storage obj.weight_storage
      else
        state_sampler_bsf_is1 ops model nsim_states obj.approx_loglik_storage obj.n_stored
          obj.theta_storage obj.alpha_storage obj.weight_storage obj.count_storage
    some { obj with alpha_storage := out.1, weight_storage := out.2 }

/-- The function `ung_amcmc::is_correction_bsf`; `none` for an Armadillo error. -/
def is_correction_bsf {Θ AL MD : Type} (ops : CorrOps Θ AL MD) (model : MD) (nsim_states : Nat)
    (const_sim : Bool) (n_threads : Nat) (obj : Chain Θ AL) : Option (Chain Θ AL) :=
  match bsf_stage ops model nsim_states const_sim n_threads obj with
  | none => none
  | some o =>
    some { o with
      posterior_storage := fun i =>
        Dbl.add (o.prior_storage i) (Dbl.log ops.logPos (o.weight_storage i)) }

/-- Lines 459-506 of amcmc.cpp: the sampling stage of `is_correction_spdk`. -/
def spdk_stage {Θ AL MD : Type} (ops : CorrOps Θ AL MD) (model : MD) (nsim_states : Nat)
    (const_sim : Bool) (n_threads : Nat) (obj : Chain Θ AL) : Option (Chain Θ AL) :=
  if n_threads > 1 ∧ ops.openmp = true then
    ops.parallel_spdk model nsim_states const_sim n_threads obj
  else
    match ops.scales_as_vec obj.scales_storage obj.n_stored with
    | none => none
    | some scales =>
      let out :=
        if const_sim then
          state_sampler_spdk_is2 ops model nsim_states obj.n_stored obj.theta_storage
            obj.alpha_storage obj.weight_storage obj.y_storage obj.H_storage scales
        else
          state_sampler_spdk_is1 ops model nsim_states obj.n_stored obj.theta_storage
            obj.alpha_storage obj.weight_storage obj.y_storage obj.H_storage scales
            obj.count_storage
      some { obj with alpha_storage := out.1, weight_storage := out.2 }

/-- The function `ung_amcmc::is_correction_spdk`; `none` for an Armadillo error. -/
def is_correction_spdk {Θ AL MD : Type} (ops : CorrOps Θ AL MD) (model : MD) (nsim_states : Nat)
    (const_sim : Bool) (n_threads : Nat) (obj : Chain Θ AL) : Option (Chain Θ AL) :=
  match spdk_stage ops model nsim_states const_sim n_threads obj with
  | none => none
  | some o =>
    some { o with
      posterior_storage := fun i =>
        Dbl.add (Dbl.add (o.prior_storage i) (o.approx_loglik_storage i))
          (Dbl.log ops.logPos (o.weight_storage i)) }

/-! ### A small concrete instance

Parameters, draws and proposal matrices are integers and the proposal is `theta + S * u`;
the prior is flat on the non-negative integers and `-inf` elsewhere; the surrogate of a
model with parameter `a` has log-likelihood `-a` for `a < 100` and `-inf` from 100 on. -/

/-- A rational stand-in for `std::exp` on finite arguments: positive, increasing, 1 at 0. -/
def toyExp (q : ℚ) : Dbl := if 0 ≤ q then Dbl.fin (1 + q) else Dbl.fin (1 / (1 - q))

/-- The collaborators of the small instance. -/
def toyOps : Ops ℤ ℤ ℤ ℤ ℤ where
  expFin := toyExp
  divFin := Dbl.exactDiv
  log_prior_pdf := fun th => if th < 0 then Dbl.ninf else Dbl.fin 0
  propose := fun th S u => th + S * u
  get_theta := fun m => m
  set_theta := fun _ th => th
  approximate_new := fun m mode _ _ => (m, m, mode)
  approximate := fun m _ mode _ _ => (m, m, mode)
  scaling_factors := fun _ _ _ => []
  compute_const_term := fun _ _ => Dbl.fin 0
  log_likelihood := fun a => if a < 100 then Dbl.fin (-(a : ℚ)) else Dbl.ninf
  approx_y := fun a => [Dbl.fin a]
  approx_H := fun _ => [Dbl.fin 1]
  adapt_S := fun S _ _ _ _ _ => S

/-- A freshly constructed sampler object with proposal matrix `1`. -/
def toyMembers : Members ℤ ℤ where
  S := 1
  acceptance_rate := Dbl.zero
  n_stored := 0
  theta_storage := fun _ => 0
  count_storage := fun _ => 0
  approx_loglik_storage := fun _ => Dbl.zero
  prior_storage := fun _ => Dbl.zero
  y_storage := fun _ => []
  H_storage := fun _ => []
  scales_storage := fun _ => []

/-- A run configuration with the given iteration, burn-in and thinning counts. -/
def toyConfig (n_iter n_burnin n_thin : Nat) : Config where
  n_iter := n_iter
  n_burnin := n_burnin
  n_thin := n_thin
  target_acceptance := Dbl.fin (1 / 4)
  gamma := Dbl.fin (2 / 3)
  end_ram := true
  local_approx := true
  initial_mode := []
  max_iter := 10
  conv_tol := Dbl.fin (1 / 100)

/-- Draws with `u = 0` in every iteration: the proposal equals the current value and is
accepted with probability 1. -/
def stayDraws : Nat → Draw ℤ := fun _ => { u := 0, r := Dbl.fin (1 / 2), interrupt := false }

/-- Draws with `u = 1` in every iteration. -/
def upDraws : Nat → Draw ℤ := fun _ => { u := 1, r := Dbl.fin (1 / 2), interrupt := false }

/-- Draws with `u = -1` in every iteration. -/
def downDraws : Nat → Draw ℤ := fun _ => { u := -1, r := Dbl.fin (1 / 2), interrupt := false }

/-- A record agrees with the data: a step with a recorded sum has a finite coordinate, lies
in the time range, and the sum is that of the weight column `col`; a step without one has
no finite coordinate or lies outside the time range. -/
def Weighing.agrees {K : Type} (mdl : SsmMng K) (col : List Dbl) (w : Weighing) : Prop :=
  match w.sum_weights with
  | some sm => sm = Dbl.accu col ∧ n_nonfinite mdl w.t < mdl.p ∧ (w.t = 0 ∨ w.t < mdl.n)
  | none => ¬ (n_nonfinite mdl w.t < mdl.p ∧ (w.t = 0 ∨ w.t < mdl.n))

/-- Every record of the ghost state agrees with the stored weight column of its step. -/
def FilterState.sound {K P : Type} (mdl : SsmMng K) (s : FilterState P) : Prop :=
  ∀ w ∈ s.steps, w.agrees mdl (s.weights w.t)

/-- What holds of `psi_run` after `k` loop passes: on normal continuation the stages
`0..k` were run in order, all passed, and `loglik` is the accumulated sum; after
`return -inf` the last stage run is the only failing one. -/
def PsiInv {K P : Type} (logPos : ℚ → ℚ) (divFin : ℚ → ℚ → Dbl) (nsim : Nat) (mdl : SsmMng K)
    (k : Nat) :
    Except (FilterState P) (FilterState P) → Prop
  | .ok s =>
    s.steps.map (fun w => w.t) = List.range (k + 1) ∧ (∀ w ∈ s.steps, w.passing) ∧
      s.loglik = loglik_sum logPos divFin nsim mdl.approx_loglik s.steps ∧ s.sound mdl
  | .error s =>
    (∃ init w, s.steps = init ++ [w] ∧ w.failing ∧ ∀ v ∈ init, v.passing) ∧
      s.steps.map (fun w => w.t) = List.range s.steps.length ∧ s.steps.length ≤ k + 1 ∧
      s.sound mdl

/-! ### A small filter instance

Three time steps with one observed coordinate, missing at time 1; every particle has
log-weight 0 at times 0 and 1 and log-weight `-inf` at time 2. -/

/-- The model of the small filter instance. -/
def toyModel : SsmMng Unit where
  n := 3
  p := 1
  y := fun _ t => if t = 1 then Dbl.nan else Dbl.fin 1
  approx_state := 1
  approx_loglik := Dbl.fin (-5)
  scales := fun _ => Dbl.fin 0
  core := ()

/-- The collaborators of the small filter instance; particles carry no data. -/
def toyFilterOps : FilterOps Unit Unit where
  expFin := toyExp
  logPos := fun q => q - 1
  divFin := Dbl.exactDiv
  approximate := fun m => m
  gaussian_loglik := fun _ => Dbl.fin 0
  update_scales := fun m => m
  compute_const_term := fun _ => Dbl.fin 0
  log_weights := fun _ t _ => if t = 2 then [Dbl.ninf, Dbl.ninf] else [Dbl.fin 0, Dbl.fin 0]
  log_obs_density := fun _ _ _ => [Dbl.fin 0, Dbl.fin 0]
  vec_max := fun _ => Dbl.fin 0
  psi_initial := fun _ _ a => a
  psi_propagate := fun _ _ _ _ a => a
  bsf_initial := fun _ _ a => a
  bsf_propagate := fun _ _ _ _ a => a
  stratified_sample := fun _ _ nsim => List.range nsim
  log_consts := fun _ => []

/-! ### A small correction instance

One stored draw; every filter run has log-likelihood 0 and trajectories carry no data. -/

/-- The collaborators of the small correction instance (compiled without OpenMP). -/
def toyCorrOps : CorrOps ℤ Unit Unit where
  expFin := toyExp
  logPos := fun q => q - 1
  openmp := false
  psi_draw := fun m _ _ _ _ _ => (m, Dbl.fin 0, ())
  bsf_draw := fun m _ _ => (m, Dbl.fin 0, ())
  spdk_draw := fun m _ _ _ _ _ => (m, Dbl.fin 1, ())
  scales_as_vec := fun _ _ => none
  parallel_psi := fun _ _ _ _ _ => none
  parallel_bsf := fun _ _ _ _ _ => none
  parallel_spdk := fun _ _ _ _ _ => none

/-- A chain with one stored draw whose stored approximate log-likelihood is `a`. -/
def toyChain (a : ℚ) : Chain ℤ Unit where
  n_stored := 1
  theta_storage := fun _ => 0
  count_storage := fun _ => 1
  approx_loglik_storage := fun _ => Dbl.fin a
  prior_storage := fun _ => Dbl.fin 0
  y_storage := fun _ => []
  H_storage := fun _ => []
  scales_storage := fun _ => []
  alpha_storage := fun _ => ()
  weight_storage := fun _ => Dbl.zero
  posterior_storage := fun _ => Dbl.zero

/-! ## The static partition of the stored draws over the worker threads -/

/-- Lines 186-191 of amcmc.cpp (and 337-342, 464-469): the index range `[start, end]` of
worker `tid`, in `unsigned int` arithmetic. -/
def thread_range (n_stored n_threads tid : Nat) : Nat × Nat :=
  let thread_size := n_stored / n_threads
  let start := (tid * thread_size) % 4294967296
  let stop := usub (((tid + 1) * thread_size) % 4294967296) 1
  if tid = usub n_threads 1 then (start, usub n_stored 1) else (start, stop)

/-! ## The entry point `svm_loglik` -/

/-- The members of an `svm` model that `svm_loglik` sets; `core` is the rest. -/
structure Svm (K : Type) where
  max_iter : Nat
  conv_tol : Dbl
  core : K

/-- Calls of `svm_loglik` into the model, recorded in order (ghost state). -/
inductive SvmCall where
  | approx : SvmCall
  | sim_smoother (nsim : Nat) : SvmCall
  | importance_weights : SvmCall
  | scaling_factor : SvmCall
  | log_likelihood : SvmCall
deriving DecidableEq

/-- The collaborators of `svm_loglik`; `SIG` is the signal vector, `CUBE` the simulated
states. -/
structure SvmOps (K SIG CUBE : Type) where
  /-- Value of `std::exp` on finite arguments. -/
  expFin : ℚ → Dbl
  /-- Value of `std::log` on positive finite arguments. -/
  logPos : ℚ → ℚ
  /-- Value of the quotient of two finite doubles, the divisor not zero. -/
  divFin : ℚ → ℚ → Dbl
  /-- The call `model.approx(init_signal, max_iter, conv_tol)`. -/
  approx : Svm K → SIG → Nat → Dbl → Svm K × Dbl
  /-- The call `model.sim_smoother(nsim_states, false)`. -/
  sim_smoother : Svm K → Nat → Bool → Svm K × CUBE
  /-- The call `model.importance_weights(alpha)`. -/
  importance_weights : Svm K → CUBE → List Dbl
  /-- The call `model.scaling_factor(init_signal)`. -/
  scaling_factor : Svm K → SIG → Dbl
  /-- The member function `max()` of the weight vector. -/
  vec_max : List Dbl → Dbl
  /-- The call `model.log_likelihood(false)`. -/
  log_likelihood : Svm K → Bool → Dbl

/-- The function `arma::mean` on a vector. -/
def Dbl.mean (divFin : ℚ → ℚ → Dbl) (v : List Dbl) : Dbl :=
  Dbl.div divFin (Dbl.accu v) (Dbl.ofNat v.length)

/-- Lines 10-13 of R_svm.cpp: the tolerances are tightened when fewer than two state samples
are requested. -/
def svm_tuned {K : Type} (model : Svm K) (nsim_states : Nat) : Svm K :=
  if nsim_states < 2 then
    { model with conv_tol := Dbl.fin (1 / 1000000000000), max_iter := 1000 }
  else model

/-- The function `svm_loglik` of R_svm.cpp on the constructed model: the value returned and
the calls made. -/
def svm_loglik {K SIG CUBE : Type} (ops : SvmOps K SIG CUBE) (model : Svm K)
    (init_signal : SIG) (nsim_states : Nat) : Dbl × List SvmCall :=
  let model1 := svm_tuned model nsim_states
  let r := ops.approx model1 init_signal model1.max_iter model1.conv_tol
  let ll := r.2
  if !ll.isFinite then (Dbl.ninf, [SvmCall.approx])
  else if nsim_states > 1 then
    let sim := ops.sim_smoother r.1 nsim_states false
    let sf := ops.scaling_factor sim.1 init_signal
    let weights := (ops.importance_weights sim.1 sim.2).map (fun w => Dbl.sub w sf)
    let maxw := ops.vec_max weights
    let weights2 := weights.map (fun w => Dbl.exp ops.expFin (Dbl.sub w maxw))
    let ll_w := Dbl.add (Dbl.log ops.logPos (Dbl.mean ops.divFin weights2)) maxw
    (Dbl.add (Dbl.add (ops.log_likelihood sim.1 false) ll) ll_w,
      [SvmCall.approx, SvmCall.sim_smoother nsim_states, SvmCall.importance_weights,
        SvmCall.scaling_factor, SvmCall.log_likelihood])
  else
    (Dbl.add (Dbl.add (ops.log_likelihood r.1 false) ll) (Dbl.fin 0),
      [SvmCall.approx, SvmCall.log_likelihood])

/-- A small `svm` instance: the surrogate builder returns the value stored in the model. -/
def toySvmOps : SvmOps Dbl Unit Unit where
  expFin := toyExp
  logPos := fun q => q - 1
  divFin := Dbl.exactDiv
  approx := fun m _ _ _ => (m, m.core)
  sim_smoother := fun m _ _ => (m, ())
  importance_weights := fun _ _ => [Dbl.fin 0, Dbl.fin 0]
  scaling_factor := fun _ _ => Dbl.fin 0
  vec_max := fun _ => Dbl.fin 0
  log_likelihood := fun _ _ => Dbl.fin 3

/-! ## The sizes of the storage arrays of the sampler -/

/-- Number of entries (elements, columns or slices) of each storage array. -/
structure StorageSizes where
  theta_storage : Nat
  posterior_storage : Nat
  count_storage : Nat
  alpha_storage : Nat
  weight_storage : Nat
  scales_storage : Nat
  y_storage : Nat
  H_storage : Nat
  approx_loglik_storage : Nat
  prior_storage : Nat
deriving DecidableEq

/-- Lines 15-27 of amcmc.cpp: every array is allocated with `n_samples` entries. The arrays
`theta_storage`, `posterior_storage`, `count_storage` and `alpha_storage` belong to the base
class `mcmc`, whose constructor is not in the sources; they are taken to have `n_samples`
entries as well. -/
def allocated_sizes (cfg : Config) : StorageSizes where
  theta_storage := n_samples cfg
  posterior_storage := n_samples cfg
  count_storage := n_samples cfg
  alpha_storage := n_samples cfg
  weight_storage := n_samples cfg
  scales_storage := n_samples cfg
  y_storage := n_samples cfg
  H_storage := n_samples cfg
  approx_loglik_storage := n_samples cfg
  prior_storage := n_samples cfg

/-- The function `ung_amcmc::trim_storage` (lines 29-40 of amcmc.cpp): every array is
resized to `n_stored` entries. -/
def trim_storage (n_stored : Nat) (_sizes : StorageSizes) : StorageSizes where
  theta_storage := n_stored
  posterior_storage := n_stored
  count_storage := n_stored
  alpha_storage := n_stored
  weight_storage := n_stored
  scales_storage := n_stored
  y_storage := n_stored
  H_storage := n_stored
  approx_loglik_storage := n_stored
  prior_storage := n_stored

/-- The sizes of the storage arrays when `approx_mcmc` is left: `trim_storage()` is line 165,
after the loop, and is not reached when `Rcpp::checkUserInterrupt()` throws. -/
def approx_mcmc_sizes (ops : Ops Θ U SM M A) (cfg : Config) (draws : Nat → Draw U) (model : M)
    (obj : Members Θ SM) : StorageSizes :=
  match approx_mcmc ops cfg draws model obj with
  | .ok st => trim_storage st.n_stored (allocated_sizes cfg)
  | .error _ => allocated_sizes cfg

/-- The state carried by either outcome of a run. -/
def outcome_state {α : Type} : Except α α → α
  | .ok s => s
  | .error s => s

/-- Draws with `u = 0` in every iteration and an interruption signalled at iteration 16. -/
def stopDraws : Nat → Draw ℤ :=
  fun i => { u := 0, r := Dbl.fin (1 / 2), interrupt := decide (i = 16) }

/-! ## The body of the psi samplers -/

/-- What `model.psi_filter(approx_model, 0, scales, m, alpha_i, weights_i, indices)` leaves:
the model (its random engine has advanced), the value returned, and the three arrays. -/
structure PsiOut (MD CUBE : Type) where
  model : MD
  value : Dbl
  alpha : CUBE
  weights : Nat → List Dbl
  indices : Nat → List Nat

/-- The collaborators of one pass of `state_sampler_psi_is1` / `state_sampler_psi_is2`:
`MD` the model object, `AM` the surrogate `approx_model`, `CUBE` the particle cube. -/
structure PsiSamplerOps (Θ MD AM CUBE AL : Type) where
  /-- The member `model.n`. -/
  n : MD → Nat
  /-- The statement `ugg_ssm approx_model = model.approximate(tmp, 0, 0);` before the loop. -/
  approximate_new : MD → MD × AM
  /-- The call `model.set_theta(theta_i)`. -/
  set_theta : MD → Θ → MD
  /-- The call `model.approximate(approx_model, tmp, 0, 0)`. -/
  approximate : MD → AM → MD × AM
  /-- The statements `approx_model.y = y.col(i); approx_model.H = H.col(i);
  approx_model.compute_HH();`. -/
  set_pseudo : AM → List Dbl → List Dbl → AM
  /-- The call `model.psi_filter(approx_model, 0, scales.col(i), m, alpha_i, weights_i,
  indices)` on arrays allocated for `m` particles. -/
  psi_filter : MD → AM → Dbl → List Dbl → Nat → PsiOut MD CUBE
  /-- The call `filter_smoother(alpha_i, indices)`. -/
  filter_smoother : CUBE → (Nat → List Nat) → CUBE
  /-- The call `sample(model.engine)` of a `std::discrete_distribution<>` built from the
  weight vector: the engine advances and an index is drawn. -/
  discrete_sample : MD → List Dbl → MD × Nat
  /-- The expression `alpha_i.slice(k).t()`. -/
  slice_t : CUBE → Nat → AL

/-- What one pass of a psi sampler did (ghost state): the draw it served, the number of
particles of its filter run, the value of the filter, the weight vector handed to
`std::discrete_distribution`, the index drawn and the trajectory stored. -/
structure PsiRecord (AL : Type) where
  draw : Nat
  particles : Nat
  value : Dbl
  w : List Dbl
  sampled : Nat
  trajectory : AL

/-- Lines 298-313 of amcmc.cpp: one pass of the loop of `state_sampler_psi_is1` for draw `i`
with `m` particles, from the model and surrogate left by the previous pass. -/
def psi_pass {Θ MD AM CUBE AL : Type} (s : PsiSamplerOps Θ MD AM CUBE AL) (st : MD × AM)
    (i m : Nat) (theta : Θ) (y H scales : List Dbl) : (MD × AM) × PsiRecord AL :=
  let model1 := s.set_theta st.1 theta
  let a := s.approximate model1 st.2
  let approx_model := s.set_pseudo a.2 y H
  let f := s.psi_filter a.1 approx_model (Dbl.fin 0) scales m
  let alpha_i := s.filter_smoother f.alpha f.indices
  let w := f.weights (usub (s.n f.model) 1)
  let d := s.discrete_sample f.model w
  ((d.1, approx_model),
    { draw := i, particles := m, value := f.value, w := w, sampled := d.2,
      trajectory := s.slice_t alpha_i d.2 })

/-- The collaborators of the correction stage with the psi pass spelled out. -/
def psi_corr_ops {Θ MD AM CUBE AL : Type} (base : CorrOps Θ AL (MD × AM))
    (s : PsiSamplerOps Θ MD AM CUBE AL) : CorrOps Θ AL (MD × AM) :=
  { base with
    psi_draw := fun st m theta y H scales =>
      ((psi_pass s st 0 m theta y H scales).1, (psi_pass s st 0 m theta y H scales).2.value,
        (psi_pass s st 0 m theta y H scales).2.trajectory) }

/-- The passes of `state_sampler_psi_is1` over the draws `i..i+k-1`, in order. -/
def psi_is1_log {Θ MD AM CUBE AL : Type} (s : PsiSamplerOps Θ MD AM CUBE AL)
    (nsim_states : Nat) (theta : Nat → Θ) (y H scales : Nat → List Dbl) (counts : Nat → Nat) :
    Nat → Nat → MD × AM → List (PsiRecord AL)
  | 0, _, _ => []
  | k + 1, i, st =>
    let r := psi_pass s st i (nsim_states * counts i) (theta i) (y i) (H i) (scales i)
    r.2 :: psi_is1_log s nsim_states theta y H scales counts k (i + 1) r.1

/-- A small psi sampler: the model is the number of index draws made so far, the filter
returns the value 0 and unit weights for its `m` particles. -/
def toyPsiSamplerOps : PsiSamplerOps ℤ Nat Unit Unit Unit where
  n := fun _ => 3
  approximate_new := fun m => (m, ())
  set_theta := fun m _ => m
  approximate := fun m a => (m, a)
  set_pseudo := fun a _ _ => a
  psi_filter := fun m _ _ _ particles =>
    { model := m, value := Dbl.fin 0, alpha := (), weights := fun _ => ones particles,
      indices := fun _ => [] }
  filter_smoother := fun c _ => c
  discrete_sample := fun m _ => (m + 1, 0)
  slice_t := fun _ _ => ()


/-- The remaining collaborators of the correction stage for the small psi sampler. -/
def toyPsiCorrOps : CorrOps ℤ Unit (Nat × Unit) where
  expFin := toyExp
  logPos := fun q => q - 1
  openmp := false
  psi_draw := fun m _ _ _ _ _ => (m, Dbl.fin 0, ())
  bsf_draw := fun m _ _ => (m, Dbl.fin 0, ())
  spdk_draw := fun m _ _ _ _ _ => (m, Dbl.fin 1, ())
  scales_as_vec := fun _ _ => none
  parallel_psi := fun _ _ _ _ _ => none
  parallel_bsf := fun _ _ _ _ _ => none
  parallel_spdk := fun _ _ _ _ _ => none


/-! ## The parameter update `ssm_mng::update_model` and the surrogate `ssm_mng::approximate` -/

/-- The list returned by `update_fn(new_theta)`: a component is present when
`containsElementNamed` finds it. -/
structure ModelList (CUBE MAT VEC : Type) where
  Z : Option CUBE
  T : Option CUBE
  R : Option CUBE
  a1 : Option VEC
  P1 : Option MAT
  D : Option MAT
  C : Option MAT
  phi : Option VEC

/-- The members of the surrogate `approx_model` that `ssm_mng::approximate` copies from
the model; `rest` are the ones written by `laplace_iter` (`y`, `H`, `HH`). -/
structure Ugg (CUBE MAT VEC G : Type) where
  Z : CUBE
  T : CUBE
  R : CUBE
  a1 : VEC
  P1 : MAT
  D : MAT
  C : MAT
  RR : CUBE
  rest : G

/-- The members of an `ssm_mng` model behind `SsmMng.core`: the system matrices, the
parameter vector, the mode estimate and the surrogate model; `rebuilds` counts the
executions of the update block of `ssm_mng::approximate` (ghost state). -/
structure Core (Θ CUBE MAT VEC G : Type) where
  Z : CUBE
  T : CUBE
  R : CUBE
  a1 : VEC
  P1 : MAT
  D : MAT
  C : MAT
  phi : VEC
  RR : CUBE
  theta : Θ
  local_approx : Bool
  initial_mode : MAT
  mode_estimate : MAT
  approx_model : Ugg CUBE MAT VEC G
  rebuilds : Nat

/-- The collaborators of `update_model` and `approximate`. -/
structure MngOps (Θ CUBE MAT VEC G : Type) where
  /-- The R function `update_fn`. -/
  update_fn : Θ → ModelList CUBE MAT VEC
  /-- Lines 33-37: `compute_RR()` from the member `R` and the previous `RR`. -/
  compute_RR : CUBE → CUBE → CUBE
  /-- Lines 95-98: the signal of `approx_model.fast_smoother()`, column by column. -/
  smoothed_mode : Core Θ CUBE MAT VEC G → MAT
  /-- Lines 100-116: the `while` loop of `laplace_iter` and `fast_smoother` passes; it
  leaves the pseudo-observations of the surrogate and the mode estimate. -/
  mode_loop : Core Θ CUBE MAT VEC G → G × MAT

/-- The function `ssm_mng::update_model`. -/
def update_model {Θ CUBE MAT VEC G : Type} (ops : MngOps Θ CUBE MAT VEC G) (new_theta : Θ)
    (mdl : SsmMng (Core Θ CUBE MAT VEC G)) : SsmMng (Core Θ CUBE MAT VEC G) :=
  let model_list := ops.update_fn new_theta
  { mdl with
    core :=
      { mdl.core with
        Z := model_list.Z.getD mdl.core.Z
        T := model_list.T.getD mdl.core.T
        R := model_list.R.getD mdl.core.R
        RR :=
          match model_list.R with
          | some r => ops.compute_RR r mdl.core.RR
          | none => mdl.core.RR
        a1 := model_list.a1.getD mdl.core.a1
        P1 := model_list.P1.getD mdl.core.P1
        D := model_list.D.getD mdl.core.D
        C := model_list.C.getD mdl.core.C
        phi := model_list.phi.getD mdl.core.phi
        theta := new_theta }
    approx_state := if mdl.approx_state = 1 then 0 else mdl.approx_state }

/-- Lines 84-117: the update block of `ssm_mng::approximate`, entered when the flag is
below 1. -/
def rebuild_surrogate {Θ CUBE MAT VEC G : Type} (ops : MngOps Θ CUBE MAT VEC G)
    (mdl : SsmMng (Core Θ CUBE MAT VEC G)) : SsmMng (Core Θ CUBE MAT VEC G) :=
  let c1 : Core Θ CUBE MAT VEC G :=
    { mdl.core with
      approx_model :=
        { mdl.core.approx_model with
          Z := mdl.core.Z
          T := mdl.core.T
          R := mdl.core.R
          a1 := mdl.core.a1
          P1 := mdl.core.P1
          D := mdl.core.D
          C := mdl.core.C
          RR := mdl.core.RR } }
  let c2 : Core Θ CUBE MAT VEC G :=
    if (!c1.local_approx) && decide (mdl.approx_state = 0) then
      { c1 with mode_estimate := ops.smoothed_mode c1 }
    else
      { c1 with
        approx_model := { c1.approx_model with rest := (ops.mode_loop c1).1 }
        mode_estimate := (ops.mode_loop c1).2 }
  { mdl with core := { c2 with rebuilds := mdl.core.rebuilds + 1 }, approx_state := 1 }

/-- The function `ssm_mng::approximate`. -/
def approximate {Θ CUBE MAT VEC G : Type} (ops : MngOps Θ CUBE MAT VEC G)
    (mdl : SsmMng (Core Θ CUBE MAT VEC G)) : SsmMng (Core Θ CUBE MAT VEC G) :=
  if mdl.approx_state < 1 then rebuild_surrogate ops mdl else mdl

/-- The collaborators of the filters with `mode_estimate = initial_mode; approximate();`
spelled out, and with `update_scales()` (lines 214-244) writing the member `scales` only. -/
def mng_filter_ops {Θ CUBE MAT VEC G P : Type} (base : FilterOps (Core Θ CUBE MAT VEC G) P)
    (ops : MngOps Θ CUBE MAT VEC G) : FilterOps (Core Θ CUBE MAT VEC G) P :=
  { base with
    approximate := fun mdl =>
      approximate ops { mdl with core := { mdl.core with mode_estimate := mdl.core.initial_mode } }
    update_scales := fun mdl => { mdl with scales := (base.update_scales mdl).scales } }

/-- Lines 158-170 (and 192-203, 408-420): the statements under `if(approx_state != 1)`. -/
def refresh_approx {K P : Type} (ops : FilterOps K P) (mdl : SsmMng K) : SsmMng K :=
  let m1 := ops.approximate mdl
  let gaussian_loglik := ops.gaussian_loglik m1
  let m2 := ops.update_scales m1
  let const_term := ops.compute_const_term m2
  { m2 with
    approx_loglik :=
      Dbl.add (Dbl.add gaussian_loglik const_term)
        (Dbl.accu ((List.range m2.n).map m2.scales)) }

/-- What `ssm_mng::log_likelihood` leaves: the model, the vector `loglik` of length 2 and
the arguments `alpha`, `weights`, `indices`. -/
structure LoglikOut (K P : Type) where
  model : SsmMng K
  loglik : Dbl × Dbl
  alpha : P
  weights : Nat → List Dbl
  indices : Nat → List Nat

/-- Lines 171-187 of model_ssm_mng.cpp: the psi filter or the SPDK weights, on a model
whose surrogate has been checked; `simulate_states` is `approx_model.simulate_states`. -/
def loglik_tail {K P : Type} (ops : FilterOps K P) (simulate_states : SsmMng K → Nat → P)
    (method nsim : Nat) (mdl : SsmMng K) (alpha : P) (weights : Nat → List Dbl)
    (indices : Nat → List Nat) : LoglikOut K P :=
  if method = 1 then
    let r := psi_filter ops mdl nsim alpha weights indices
    { model := r.1, loglik := (r.2.1, r.1.approx_loglik), alpha := r.2.2.alpha,
      weights := r.2.2.weights, indices := r.2.2.indices }
  else
    let alpha1 := simulate_states mdl nsim
    let w0 := (List.range mdl.n).foldl
      (fun w t => List.zipWith Dbl.add w (ops.log_weights mdl t alpha1))
      (List.replicate nsim Dbl.zero)
    let w1 := w0.map (fun x => Dbl.sub x (Dbl.accu ((List.range mdl.n).map mdl.scales)))
    let maxw := ops.vec_max w1
    let w := w1.map (fun x => Dbl.exp ops.expFin (Dbl.sub x maxw))
    { model := mdl
      loglik :=
        (Dbl.add (Dbl.add mdl.approx_loglik (Dbl.log ops.logPos (Dbl.mean ops.divFin w))) maxw,
          mdl.approx_loglik)
      alpha := alpha1, weights := setSlot weights mdl.n w, indices := indices }

/-- The function `ssm_mng::log_likelihood(method, nsim, alpha, weights, indices)`. -/
def log_likelihood {K P : Type} (ops : FilterOps K P) (simulate_states : SsmMng K → Nat → P)
    (method nsim : Nat) (mdl : SsmMng K) (alpha : P) (weights : Nat → List Dbl)
    (indices : Nat → List Nat) : LoglikOut K P :=
  if nsim > 0 then
    if method = 2 then
      let r := bsf_filter ops mdl nsim alpha weights indices
      { model := mdl, loglik := (r.1, r.1), alpha := r.2.alpha, weights := r.2.weights,
        indices := r.2.indices }
    else
      loglik_tail ops simulate_states method nsim
        (if mdl.approx_state ≠ 1 then refresh_approx ops mdl else mdl) alpha weights indices
  else
    let mdl1 := if mdl.approx_state ≠ 1 then refresh_approx ops mdl else mdl
    { model := mdl1, loglik := (mdl1.approx_loglik, mdl1.approx_loglik), alpha := alpha,
      weights := weights, indices := indices }


/-! ### A small model instance for the parameter update

Matrices carry no data; the pseudo-observations of the surrogate count the runs of the
mode loop. -/

/-- The collaborators of the small model instance: `update_fn` returns `Z` and `R`. -/
def toyMngOps : MngOps ℤ Unit Unit Unit Nat where
  update_fn := fun _ =>
    { Z := some (), T := none, R := some (), a1 := none, P1 := none, D := none, C := none,
      phi := none }
  compute_RR := fun _ rr => rr
  smoothed_mode := fun _ => ()
  mode_loop := fun c => (c.approx_model.rest + 1, ())

/-- A model with parameter 0 whose approximation flag is `flag`. -/
def toyMng (flag : Int) : SsmMng (Core ℤ Unit Unit Unit Nat) where
  n := 3
  p := 1
  y := fun _ _ => Dbl.fin 1
  approx_state := flag
  approx_loglik := Dbl.fin 0
  scales := fun _ => Dbl.fin 0
  core :=
    { Z := (), T := (), R := (), a1 := (), P1 := (), D := (), C := (), phi := (), RR := ()
      theta := 0, local_approx := true, initial_mode := (), mode_estimate := ()
      approx_model :=
        { Z := (), T := (), R := (), a1 := (), P1 := (), D := (), C := (), RR := (),
          rest := 0 }
      rebuilds := 0 }

/-- The filter collaborators of the small model instance. -/
def toyMngFilterOps : FilterOps (Core ℤ Unit Unit Unit Nat) Unit where
  expFin := toyExp
  logPos := fun q => q - 1
  divFin := Dbl.exactDiv
  approximate := fun m => m
  gaussian_loglik := fun _ => Dbl.fin 0
  update_scales := fun m => m
  compute_const_term := fun _ => Dbl.fin 0
  log_weights := fun _ _ _ => [Dbl.fin 0, Dbl.fin 0]
  log_obs_density := fun _ _ _ => [Dbl.fin 0, Dbl.fin 0]
  vec_max := fun _ => Dbl.fin 0
  psi_initial := fun _ _ a => a
  psi_propagate := fun _ _ _ _ a => a
  bsf_initial := fun _ _ a => a
  bsf_propagate := fun _ _ _ _ a => a
  stratified_sample := fun _ _ nsim => List.range nsim
  log_consts := fun _ => []


/-! ## The numerical kernels of `ssm_mng`

Entries are exact numbers of an ordered field `F`; the functions of `<cmath>` are
parameters. A missing observation is a `false` in the mask `y_finite`. -/

/-- The functions `std::exp`, `std::log`, `std::log1p` and `sqrt`. -/
structure MathFns (F : Type) where
  exp : F → F
  log : F → F
  log1p : F → F
  sqrt : F → F

/-- An Armadillo cube. -/
structure Cube (F : Type) where
  n_rows : Nat
  n_cols : Nat
  n_slices : Nat
  entry : Nat → Nat → Nat → F

/-- The element access `x(k)` of a matrix with one index: column-major storage. -/
def Mat.lin {F : Type} (x : Mat F) (k : Nat) : F := x.entry (k % x.n_rows) (k / x.n_rows)

/-- The numerical members of an `ssm_mng` model: observations `y` (p x n) with the mask of
`arma::is_finite`, exposures `u`, dispersions `phi`, distribution tags, `D`, `Z`, the mode
estimate (p x n), the vector `scales` and the members `y`, `H`, `HH` of `approx_model`. -/
structure MngData (F : Type) where
  n : Nat
  p : Nat
  y : Nat → Nat → F
  y_finite : Nat → Nat → Bool
  u : Nat → Nat → F
  phi : Nat → F
  distribution : Nat → Nat
  D : Mat F
  Dtv : Nat
  Z : Nat → Mat F
  mode_estimate : Mat F
  scales : Nat → F
  approx_y : Nat → Nat → F
  approx_H : Nat → Nat → Nat → F
  approx_HH : Nat → Nat → Nat → F

/-- The `switch(distribution(j))` of `log_obs_density` and `log_weights` (lines 328-344,
366-381): the term added to `weights(i)` for coordinate `j` at time `t` and signal `s`;
a tag outside 0..3 adds nothing. -/
def obs_term {F : Type} [LinearOrderedField F] (fn : MathFns F) (d : MngData F) (j t : Nat)
    (s : F) : F :=
  match d.distribution j with
  | 0 => -(1 / 2) * (s + (d.y j t / d.phi j) ^ 2 * fn.exp (-s))
  | 1 => d.y j t * s - d.u j t * fn.exp s
  | 2 => d.y j t * s - d.u j t * fn.log1p (fn.exp s)
  | 3 => d.y j t * s - (d.y j t + d.phi j) * fn.log (d.phi j + d.u j t * fn.exp s)
  | _ => 0

/-- The `switch(distribution(i))` of `update_scales` (lines 221-238): the term added to
`scales(t)` for coordinate `i`. -/
def scales_switch {F : Type} [LinearOrderedField F] (fn : MathFns F) (d : MngData F)
    (t i : Nat) : F :=
  match d.distribution i with
  | 0 =>
    -(1 / 2) * (d.mode_estimate.entry i t +
      (d.y i t / d.phi i) ^ 2 * fn.exp (-d.mode_estimate.entry i t))
  | 1 => d.y i t * d.mode_estimate.entry i t - d.u i t * fn.exp (d.mode_estimate.entry i t)
  | 2 =>
    d.y i t * d.mode_estimate.lin t -
      d.u i t * fn.log1p (fn.exp (d.mode_estimate.entry i t))
  | 3 =>
    d.y i t * d.mode_estimate.entry i t - (d.y i t + d.phi i) *
      fn.log (d.phi i + d.u i t * fn.exp (d.mode_estimate.entry i t))
  | _ => 0

/-- Lines 220-242: the body of the loop over `i` in `update_scales`, on the value of
`scales(t)`. -/
def scales_step {F : Type} [LinearOrderedField F] (fn : MathFns F) (d : MngData F) (t : Nat)
    (acc : F) (i : Nat) : F :=
  if d.y_finite i t then
    acc + scales_switch fn d t i +
      1 / 2 * ((d.approx_y i t - d.mode_estimate.entry i t) / d.approx_H i i t) ^ 2
  else acc

/-- The function `ssm_mng::update_scales`. -/
def update_scales {F : Type} [LinearOrderedField F] (fn : MathFns F) (d : MngData F) :
    MngData F :=
  { d with
    scales := fun t =>
      if t < d.n then (List.range d.p).foldl (scales_step fn d t) 0 else 0 }

/-- The value of `scales(t)` as the specification states it: the sum over the observed
coordinates of the log-density term at the mode of the same coordinate and time plus the
quadratic term of the surrogate. -/
def claimed_scales {F : Type} [LinearOrderedField F] (fn : MathFns F) (d : MngData F)
    (t : Nat) : F :=
  (((List.range d.p).filter (fun i => d.y_finite i t)).map (fun i =>
    obs_term fn d i t (d.mode_estimate.entry i t) +
      1 / 2 * ((d.approx_y i t - d.mode_estimate.entry i t) / d.approx_H i i t) ^ 2)).sum

/-- The vector `simsignal = D.col(t * Dtv) + Z.slice(t) * alpha.slice(i).col(t)`. -/
def simsignal {F : Type} [LinearOrderedField F] (d : MngData F) (t : Nat) (alpha : Cube F)
    (i j : Nat) : F :=
  d.D.entry j (t * d.Dtv) +
    ((List.range (d.Z t).n_cols).map (fun c => (d.Z t).entry j c * alpha.entry c t i)).sum

/-- Lines 327-348: the body of the loop over `j` in `log_weights` for particle `i`; the
last statement adds its scalar to every element of `weights`. -/
def log_weights_step {F : Type} [LinearOrderedField F] (fn : MathFns F) (d : MngData F)
    (t : Nat) (alpha : Cube F) (i : Nat) (weights : Nat → F) (j : Nat) : Nat → F :=
  if d.y_finite j t then
    fun k =>
      setSlot weights i (weights i + obs_term fn d j t (simsignal d t alpha i j)) k +
        1 / 2 * ((d.approx_y j t - simsignal d t alpha i j) / d.approx_H j j t) ^ 2
  else weights

/-- The function `ssm_mng::log_weights`; the entries `0..alpha.n_slices-1` of the result
are the vector returned. -/
def log_weights {F : Type} [LinearOrderedField F] (fn : MathFns F) (d : MngData F) (t : Nat)
    (alpha : Cube F) : Nat → F :=
  (List.range alpha.n_slices).foldl
    (fun weights i => (List.range d.p).foldl (log_weights_step fn d t alpha i) weights)
    (fun _ => 0)

/-- Lines 365-382: the body of the loop over `j` in `log_obs_density` for particle `i`. -/
def log_obs_density_step {F : Type} [LinearOrderedField F] (fn : MathFns F) (d : MngData F)
    (t : Nat) (alpha : Cube F) (i : Nat) (weights : Nat → F) (j : Nat) : Nat → F :=
  if d.y_finite j t then
    setSlot weights i (weights i + obs_term fn d j t (simsignal d t alpha i j))
  else weights

/-- The function `ssm_mng::log_obs_density`. -/
def log_obs_density {F : Type} [LinearOrderedField F] (fn : MathFns F) (d : MngData F)
    (t : Nat) (alpha : Cube F) : Nat → F :=
  (List.range alpha.n_slices).foldl
    (fun weights i => (List.range d.p).foldl (log_obs_density_step fn d t alpha i) weights)
    (fun _ => 0)

/-- The quadratic term of the surrogate density for particle `i`, summed over the observed
coordinates: the correction that the specification adds to `log_obs_density`. -/
def surrogate_term {F : Type} [LinearOrderedField F] (d : MngData F) (t : Nat)
    (alpha : Cube F) (i : Nat) : F :=
  (((List.range d.p).filter (fun j => d.y_finite j t)).map (fun j =>
    1 / 2 * ((d.approx_y j t - simsignal d t alpha i j) / d.approx_H j j t) ^ 2)).sum


/-- Lines 257-282: the body of the loop over `i` in `laplace_iter`: the row `i` of
`approx_model.y` and the tube `(i, i)` of `approx_model.HH`, for every time step. -/
def laplace_row {F : Type} [LinearOrderedField F] (fn : MathFns F) (signal : Nat → Nat → F)
    (d : MngData F) (i : Nat) : MngData F :=
  match d.distribution i with
  | 0 =>
    let tmp : Nat → F := fun t => if |d.y i t| < 1 / 10000 then 1 / 10000 else d.y i t
    let Hvec : Nat → F := fun t => 2 * fn.exp (signal i t) / (tmp t / d.phi i) ^ 2
    { d with
      approx_HH := fun a b t => if a = i ∧ b = i then Hvec t else d.approx_HH a b t
      approx_y := fun a t => if a = i then signal i t + 1 - 1 / 2 * Hvec t else d.approx_y a t }
  | 1 =>
    let Hvec : Nat → F := fun t => 1 / (fn.exp (signal i t) * d.u i t)
    { d with
      approx_HH := fun a b t => if a = i ∧ b = i then Hvec t else d.approx_HH a b t
      approx_y := fun a t =>
        if a = i then d.y i t * Hvec t + signal i t - 1 else d.approx_y a t }
  | 2 =>
    let exptmp : Nat → F := fun t => fn.exp (signal i t)
    let Hvec : Nat → F := fun t => (1 + exptmp t) ^ 2 / (d.u i t * exptmp t)
    { d with
      approx_HH := fun a b t => if a = i ∧ b = i then Hvec t else d.approx_HH a b t
      approx_y := fun a t =>
        if a = i then d.y i t * Hvec t + signal i t - 1 - exptmp t else d.approx_y a t }
  | 3 =>
    let exptmp : Nat → F := fun t => 1 / (fn.exp (signal i t) * d.u i t)
    let Hvec : Nat → F := fun t => 1 / d.phi i + exptmp t
    { d with
      approx_HH := fun a b t => if a = i ∧ b = i then Hvec t else d.approx_HH a b t
      approx_y := fun a t =>
        if a = i then signal i t + d.y i t * exptmp t - 1 else d.approx_y a t }
  | _ => d

/-- The function `ssm_mng::laplace_iter`. -/
def laplace_iter {F : Type} [LinearOrderedField F] (fn : MathFns F) (d : MngData F)
    (signal : Nat → Nat → F) : MngData F :=
  let d1 := (List.range d.p).foldl (laplace_row fn signal) d
  { d1 with approx_H := fun a b t => fn.sqrt (d1.approx_HH a b t) }

/-- The functions of `<cmath>` on the real numbers. -/
def RealFns (fn : MathFns ℝ) : Prop :=
  fn.exp = Real.exp ∧ fn.log = Real.log ∧ (fn.log1p = fun x => Real.log (1 + x)) ∧
    fn.sqrt = Real.sqrt

/-- A model with one coordinate of distribution tag `tag` and one time step: observation
`y0`, exposure `u0`, dispersion `phi0`; the surrogate is not built yet. -/
def oneCoord {F : Type} [LinearOrderedField F] (tag : Nat) (y0 u0 phi0 : F) : MngData F where
  n := 1
  p := 1
  y := fun _ _ => y0
  y_finite := fun _ _ => true
  u := fun _ _ => u0
  phi := fun _ => phi0
  distribution := fun _ => tag
  D := Mat.zeros 1 1
  Dtv := 0
  Z := fun _ => { n_rows := 1, n_cols := 1, entry := fun _ _ => 1 }
  mode_estimate := Mat.zeros 1 1
  scales := fun _ => 0
  approx_y := fun _ _ => 0
  approx_H := fun _ _ _ => 1
  approx_HH := fun _ _ _ => 1


/-- A model with two binomial coordinates and two time steps, every observation and
exposure equal to 1; the mode estimate is 1 at coordinate 1, time 0, and 0 elsewhere; the
surrogate has pseudo-observations 0 and standard deviations 1. -/
def twoBinomial (F : Type) [LinearOrderedField F] : MngData F where
  n := 2
  p := 2
  y := fun _ _ => 1
  y_finite := fun _ _ => true
  u := fun _ _ => 1
  phi := fun _ => 1
  distribution := fun _ => 2
  D := Mat.zeros 2 2
  Dtv := 1
  Z := fun _ => { n_rows := 2, n_cols := 1, entry := fun _ _ => 1 }
  mode_estimate :=
    { n_rows := 2, n_cols := 2, entry := fun i t => if i = 1 ∧ t = 0 then 1 else 0 }
  scales := fun _ => 0
  approx_y := fun _ _ => 0
  approx_H := fun _ _ _ => 1
  approx_HH := fun _ _ _ => 1


/-- A cube of two particles with one state and one time step: particle 0 is in state `a`,
particle 1 in state `b`. -/
def twoParticles {F : Type} (a b : F) : Cube F where
  n_rows := 1
  n_cols := 1
  n_slices := 2
  entry := fun _ _ i => if i = 0 then a else b


/-! ### The weighting stage of the bootstrap filter over an ordered field -/

/-- What the weighting stage of `bsf_filter` computes at an observed step: the maximum
log-density, the column `weights.col(t)`, its sum, whether `sum_weights > 0.0` holds (when
it does not the filter returns `-inf`), the normalized weights and the term added to
`loglik`. -/
structure BsfWeighing (F : Type) where
  max_weight : F
  weights : List F
  sum_weights : F
  positive : Bool
  normalized_weights : List F
  increment : F

/-- Lines 520-531 and 559-570 of model_ssm_mng.cpp on the vector
`w = log_obs_density(t, alpha)`, in exact arithmetic; `none` when `max()` is applied to an
empty vector. -/
def bsf_weighing {F : Type} [LinearOrderedField F] (fn : MathFns F) (nsim : Nat)
    (w : List F) : Option (BsfWeighing F) :=
  match vec_max w with
  | none => none
  | some max_weight =>
    let weights := w.map (fun x => fn.exp (x - max_weight))
    let sum_weights := weights.sum
    some
      { max_weight := max_weight
        weights := weights
        sum_weights := sum_weights
        positive := decide (sum_weights > 0)
        normalized_weights := weights.map (fun x => x / sum_weights)
        increment := max_weight + fn.log (sum_weights / (nsim : F)) }

/-- The log-likelihood increment as the specification states it, without the subtraction
of the maximum: `log((1 / nsim) * sum_i exp(w_i))`. -/
def unstabilized_increment {F : Type} [LinearOrderedField F] (fn : MathFns F) (nsim : Nat)
    (w : List F) : F :=
  fn.log (1 / (nsim : F) * (w.map fn.exp).sum)


/-! ## The mode iteration of `ssm_mng::approximate` -/

/-- The variables of the `while` loop of lines 100-116: the counter `i`, `diff`, and the
state `ST` that a pass rewrites (the mode estimate and the pseudo-data of the surrogate);
`diffs` records the mean squared changes computed so far (ghost state). -/
structure ModeLoop (ST : Type) where
  i : Nat
  diff : Dbl
  state : ST
  diffs : List Dbl

/-- Lines 102-116: the loop `while(i < max_iter && diff > conv_tol)`; `pass` is its body
after `i++` (lines 104-114: `laplace_iter`, `fast_smoother`, the new mode estimate and its
mean squared change). `fuel` bounds the number of passes, `none` when it runs out. -/
def mode_while {ST : Type} (pass : ST → ST × Dbl) (max_iter : Nat) (conv_tol : Dbl) :
    Nat → ModeLoop ST → Option (ModeLoop ST)
  | 0, s => if s.i < max_iter ∧ Dbl.gt s.diff conv_tol = true then none else some s
  | fuel + 1, s =>
    if s.i < max_iter ∧ Dbl.gt s.diff conv_tol = true then
      mode_while pass max_iter conv_tol fuel
        { i := s.i + 1
          diff := (pass s.state).2
          state := (pass s.state).1
          diffs := s.diffs ++ [(pass s.state).2] }
    else some s

/-- Lines 100-116: the mode iteration from `i = 0` and `diff = conv_tol + 1`. -/
def mode_iteration {ST : Type} (pass : ST → ST × Dbl) (max_iter : Nat) (conv_tol : Dbl)
    (fuel : Nat) (st : ST) : Option (ModeLoop ST) :=
  mode_while pass max_iter conv_tol fuel
    { i := 0, diff := Dbl.add conv_tol (Dbl.fin 1), state := st, diffs := [] }

/-- What holds of the loop variables between passes: one recorded change per pass, every
change but the last exceeded `conv_tol`, and `diff` is the last one. -/
def ModeLoop.inv {ST : Type} (conv_tol : Dbl) (s : ModeLoop ST) : Prop :=
  s.diffs.length = s.i ∧ (∀ d ∈ s.diffs.dropLast, Dbl.gt d conv_tol = true) ∧
    (s.diffs ≠ [] → s.diffs.getLast? = some s.diff)

/-- A pass on a counter whose mean squared change is 1 in the first two passes and 0 from
the third on. -/
def toyPass (s : Nat) : Nat × Dbl := (s + 1, if s < 2 then Dbl.fin 1 else Dbl.fin 0)

/-- A pass on a counter whose mean squared change is NaN. -/
def nanPass (s : Nat) : Nat × Dbl := (s + 1, Dbl.nan)


/-! ## The workers of the `omp parallel` blocks -/

/-- What worker `tid` of an `omp parallel` block of `is_correction_*` sets up before it
calls a state sampler (lines 186-195, 337-346, 464-473 of amcmc.cpp). -/
structure WorkerPlan where
  /-- Value of `start`. -/
  start : Nat
  /-- Value of `end`. -/
  stop : Nat
  /-- Number of columns of `theta_piece = theta_storage(span::all, span(start, end))`, the
  number of draws the sampler serves. -/
  piece_cols : Nat
  /-- Number of slices of `alpha_piece(model.n, model.m, thread_size)` and of elements of
  `weights_piece(thread_size)`. -/
  buffer_slots : Nat
deriving DecidableEq

/-- The plan of worker `tid`. -/
def worker_plan (n_stored n_threads tid : Nat) : WorkerPlan :=
  let thread_size := n_stored / n_threads
  { start := (thread_range n_stored n_threads tid).1
    stop := (thread_range n_stored n_threads tid).2
    piece_cols :=
      (thread_range n_stored n_threads tid).2 + 1 - (thread_range n_stored n_threads tid).1
    buffer_slots := thread_size }


/-- Binding of an `arma::mat` argument to a `const arma::vec&` parameter: a temporary
column vector is built, which Armadillo accepts for a matrix of one column only. -/
def mat_as_vec (cols : List (List Dbl)) : Option (List Dbl) :=
  match cols with
  | [c] => some c
  | _ => none

/-- Binding of an `arma::vec` argument to a `const arma::mat&` parameter: a matrix of one
column. -/
def vec_as_mat (v : List Dbl) : List (List Dbl) := [v]

/-- Lines 337-355 of amcmc.cpp: worker `tid` of the `omp parallel` block of
`is_correction_bsf`, up to the copy-back: the pieces after the sampler call, `none` for an
Armadillo error. The calls pass `theta_piece` in the position of the parameter
`approx_loglik_storage` and `approx_loglik_piece` in the position of the parameter
`theta` (lines 348-349 and 352-353 against the parameter lists in lines 391-393 and
425-427); `reseed` is `model.engine = std::mt19937(omp_get_thread_num() + 1)`. -/
def bsf_worker {AL MD : Type} (ops : CorrOps (List Dbl) AL MD) (reseed : MD → Nat → MD)
    (model : MD) (nsim_states : Nat) (const_sim : Bool) (n_threads tid : Nat)
    (obj : Chain (List Dbl) AL) (alpha_piece : Nat → AL) (weights_piece : Nat → Dbl) :
    Option ((Nat → AL) × (Nat → Dbl)) :=
  let model1 := reseed model (tid + 1)
  let plan := worker_plan obj.n_stored n_threads tid
  let theta_piece : List (List Dbl) :=
    (List.range plan.piece_cols).map (fun k => obj.theta_storage (plan.start + k))
  let approx_loglik_piece : List Dbl :=
    (List.range plan.piece_cols).map (fun k => obj.approx_loglik_storage (plan.start + k))
  match mat_as_vec theta_piece with
  | none => none
  | some approx_loglik_storage =>
    let theta := vec_as_mat approx_loglik_piece
    if const_sim then
      some (state_sampler_bsf_is2 ops model1 nsim_states
        (fun i => approx_loglik_storage.getD i Dbl.nan) theta.length
        (fun i => theta.getD i []) alpha_piece weights_piece)
    else
      some (state_sampler_bsf_is1 ops model1 nsim_states
        (fun i => approx_loglik_storage.getD i Dbl.nan) theta.length
        (fun i => theta.getD i []) alpha_piece weights_piece
        (fun k => obj.count_storage (plan.start + k)))

/-- Collaborators whose bootstrap filter returns the first component of the parameter
vector as log-likelihood. -/
def headCorrOps : CorrOps (List Dbl) Unit Unit where
  expFin := toyExp
  logPos := fun q => q - 1
  openmp := true
  psi_draw := fun m _ _ _ _ _ => (m, Dbl.fin 0, ())
  bsf_draw := fun m _ th => (m, th.headD Dbl.nan, ())
  spdk_draw := fun m _ _ _ _ _ => (m, Dbl.fin 1, ())
  scales_as_vec := fun _ _ => none
  parallel_psi := fun _ _ _ _ _ => none
  parallel_bsf := fun _ _ _ _ _ => none
  parallel_spdk := fun _ _ _ _ _ => none

/-- A chain with two stored draws: parameters (5) and (6), stored approximate
log-likelihoods 1 and 2. -/
def twoDraws : Chain (List Dbl) Unit where
  n_stored := 2
  theta_storage := fun i => if i = 0 then [Dbl.fin 5] else [Dbl.fin 6]
  count_storage := fun _ => 1
  approx_loglik_storage := fun i => if i = 0 then Dbl.fin 1 else Dbl.fin 2
  prior_storage := fun _ => Dbl.fin 0
  y_storage := fun _ => []
  H_storage := fun _ => []
  scales_storage := fun _ => []
  alpha_storage := fun _ => ()
  weight_storage := fun _ => Dbl.zero
  posterior_storage := fun _ => Dbl.zero


/-! ### A filter instance that records the particle columns written -/

/-- A model with two time steps and one observed coordinate. -/
def traceModel : SsmMng Unit where
  n := 2
  p := 1
  y := fun _ _ => Dbl.fin 1
  approx_state := 1
  approx_loglik := Dbl.fin 0
  scales := fun _ => Dbl.fin 0
  core := ()

/-- Collaborators whose particle cube is the list of its columns written so far: the
initial draw writes column 0, the propagation of pass `t` column `t + 1`; every particle
has log-weight 0. -/
def traceFilterOps : FilterOps Unit (List Nat) where
  expFin := toyExp
  logPos := fun q => q - 1
  divFin := Dbl.exactDiv
  approximate := fun m => m
  gaussian_loglik := fun _ => Dbl.fin 0
  update_scales := fun m => m
  compute_const_term := fun _ => Dbl.fin 0
  log_weights := fun _ _ _ => [Dbl.fin 0, Dbl.fin 0]
  log_obs_density := fun _ _ _ => [Dbl.fin 0, Dbl.fin 0]
  vec_max := fun _ => Dbl.fin 0
  psi_initial := fun _ _ a => a ++ [0]
  psi_propagate := fun _ _ t _ a => a ++ [t + 1]
  bsf_initial := fun _ _ a => a ++ [0]
  bsf_propagate := fun _ _ t _ a => a ++ [t + 1]
  stratified_sample := fun _ _ nsim => List.range nsim
  log_consts := fun _ => []


/-! ## The slices of the system matrices read at a time step -/

/-- The numbers of slices of the cubes `Z`, `T` and `R` of a model. -/
structure SliceDims where
  Z : Nat
  T : Nat
  R : Nat

/-- Line 14 of model_ssm_mng.cpp: the flag `Ztv(Z.n_slices > 1)`, as an index factor. -/
def SliceDims.Ztv (dims : SliceDims) : Nat := if dims.Z > 1 then 1 else 0

/-- Line 14: the flag `Ttv(T.n_slices > 1)`. -/
def SliceDims.Ttv (dims : SliceDims) : Nat := if dims.T > 1 then 1 else 0

/-- Line 14: the flag `Rtv(R.n_slices > 1)`. -/
def SliceDims.Rtv (dims : SliceDims) : Nat := if dims.R > 1 then 1 else 0

/-- A read of slice `k` of one of the cubes. -/
inductive SliceRead where
  | Z (k : Nat) : SliceRead
  | T (k : Nat) : SliceRead
  | R (k : Nat) : SliceRead
deriving DecidableEq

/-- Whether the slice exists. -/
def SliceRead.in_range (dims : SliceDims) : SliceRead → Bool
  | .Z k => decide (k < dims.Z)
  | .T k => decide (k < dims.T)
  | .R k => decide (k < dims.R)

/-- The slice read by `log_obs_density(t, alpha)` and by `log_weights(t, alpha)` for each
particle: `Z.slice(t)` (lines 325 and 363). -/
def obs_slice_reads (t : Nat) : List SliceRead := [SliceRead.Z t]

/-- The slices read by pass `t` of the loop of `bsf_filter`: `T.slice(t)` and `R.slice(t)`
in line 555, then those of `log_obs_density(t + 1, alpha)` when step `t + 1` is weighted
(line 559). -/
def bsf_pass_slice_reads (n : Nat) (observed_next : Bool) (t : Nat) : List SliceRead :=
  [SliceRead.T t, SliceRead.R t] ++
    (if t < n - 1 ∧ observed_next = true then obs_slice_reads (t + 1) else [])

/-- The slice read by `approximate` at time `t`: `approx_model.Z.slice(Ztv * t)` (lines 97
and 111). -/
def approximate_slice_reads (dims : SliceDims) (t : Nat) : List SliceRead :=
  [SliceRead.Z (dims.Ztv * t)]

/-- A time-invariant model: one slice of `Z`, `T` and `R` each. -/
def invariantDims : SliceDims := { Z := 1, T := 1, R := 1 }


/-- The quotient `sum_weights / nsim` of a weighting stage has underflowed: the weight sum
is positive, yet its quotient by `nsim` does not compare greater than zero. -/
def Weighing.underflows (divFin : ℚ → ℚ → Dbl) (nsim : Nat) (w : Weighing) : Prop :=
  ∃ s, w.sum_weights = some s ∧ Dbl.gt s Dbl.zero = true ∧
    Dbl.gt (Dbl.div divFin s (Dbl.ofNat nsim)) Dbl.zero = false

/-! ### A filter instance with a subnormal weight sum

Two time steps with one observed coordinate; at both, the first particle has log-weight
`-745` and the second `-inf`. The exponential of `-745` is the smallest positive double
`2^-1074`, and the division underflows as round-to-nearest-even does. -/

/-- The model of the instance with a subnormal weight sum. -/
def tinyModel : SsmMng Unit where
  n := 2
  p := 1
  y := fun _ _ => Dbl.fin 1
  approx_state := 1
  approx_loglik := Dbl.fin 0
  scales := fun _ => Dbl.fin 0
  core := ()

/-- The collaborators of the instance with a subnormal weight sum. -/
def tinyFilterOps : FilterOps Unit Unit where
  expFin := fun q => if q = -745 then Dbl.fin Dbl.minDouble else toyExp q
  logPos := fun q => q - 1
  divFin := Dbl.underflowDiv
  approximate := fun m => m
  gaussian_loglik := fun _ => Dbl.fin 0
  update_scales := fun m => m
  compute_const_term := fun _ => Dbl.fin 0
  log_weights := fun _ _ _ => [Dbl.fin (-745), Dbl.ninf]
  log_obs_density := fun _ _ _ => [Dbl.fin 0, Dbl.fin 0]
  vec_max := fun _ => Dbl.fin 0
  psi_initial := fun _ _ a => a
  psi_propagate := fun _ _ _ _ a => a
  bsf_initial := fun _ _ a => a
  bsf_propagate := fun _ _ _ _ a => a
  stratified_sample := fun _ _ nsim => List.range nsim
  log_consts := fun _ => []


/-! ### A correction instance whose SPDK call goes through

One stored draw, so that the matrix `scales_storage` has one column and binds to the
`const arma::vec&` parameter of the SPDK samplers; every SPDK run has weight 3. -/

/-- The collaborators of the instance (compiled without OpenMP). -/
def columnCorrOps : CorrOps ℤ Unit Unit where
  expFin := toyExp
  logPos := fun q => q - 1
  openmp := false
  psi_draw := fun m _ _ _ _ _ => (m, Dbl.fin 0, ())
  bsf_draw := fun m _ _ => (m, Dbl.fin 0, ())
  spdk_draw := fun m _ _ _ _ _ => (m, Dbl.fin 3, ())
  scales_as_vec := fun scales n_stored =>
    (mat_as_vec ((List.range n_stored).map scales)).map (fun v t => v.getD t Dbl.nan)
  parallel_psi := fun _ _ _ _ _ => none
  parallel_bsf := fun _ _ _ _ _ => none
  parallel_spdk := fun _ _ _ _ _ => none

/-- A chain with one stored draw: log-prior 2, stored approximate log-likelihood 7. -/
def oneDraw : Chain ℤ Unit where
  n_stored := 1
  theta_storage := fun _ => 0
  count_storage := fun _ => 1
  approx_loglik_storage := fun _ => Dbl.fin 7
  prior_storage := fun _ => Dbl.fin 2
  y_storage := fun _ => [Dbl.fin 0]
  H_storage := fun _ => [Dbl.fin 1]
  scales_storage := fun _ => [Dbl.fin 0]
  alpha_storage := fun _ => ()
  weight_storage := fun _ => Dbl.zero
  posterior_storage := fun _ => Dbl.zero

end Bssm

namespace Bssm

variable {Θ U SM M A : Type}

/-! ### Frame lemmas of the loop body -/

theorem rebuild_frame (ops : Ops Θ U SM M A) (cfg : Config) (th : Θ) (st : Sampler Θ SM M A) :
    (rebuild ops cfg th st).toMembers = st.toMembers ∧
    (rebuild ops cfg th st).counts = st.counts ∧
    (rebuild ops cfg th st).accesses = st.accesses ∧
    (rebuild ops cfg th st).theta = st.theta ∧
    (rebuild ops cfg th st).logprior = st.logprior ∧
    (rebuild ops cfg th st).approx_loglik = st.approx_loglik := by
  unfold rebuild
  split <;> simp

theorem propose_step_storage (ops : Ops Θ U SM M A) (cfg : Config) (i : Nat) (d : Draw U)
    (st : Sampler Θ SM M A) :
    (propose_step ops cfg i d st).n_stored = st.n_stored ∧
    (propose_step ops cfg i d st).count_storage = st.count_storage ∧
    (propose_step ops cfg i d st).theta_storage = st.theta_storage ∧
    (propose_step ops cfg i d st).approx_loglik_storage = st.approx_loglik_storage ∧
    (propose_step ops cfg i d st).prior_storage = st.prior_storage ∧
    (propose_step ops cfg i d st).y_storage = st.y_storage ∧
    (propose_step ops cfg i d st).H_storage = st.H_storage ∧
    (propose_step ops cfg i d st).scales_storage = st.scales_storage ∧
    (propose_step ops cfg i d st).accesses = st.accesses := by
  have h := rebuild_frame ops cfg (ops.propose st.theta st.S d.u) st
  obtain ⟨hm, -, ha, -⟩ := h
  unfold propose_step
  simp only []
  split
  · split <;> simp [hm, ha]
  · simp

theorem propose_step_counts (ops : Ops Θ U SM M A) (cfg : Config) (i : Nat) (d : Draw U)
    (st : Sampler Θ SM M A) :
    (propose_step ops cfg i d st).counts = if accepts ops cfg d st = true then 0 else st.counts := by
  have h := rebuild_frame ops cfg (ops.propose st.theta st.S d.u) st
  obtain ⟨-, hc, -⟩ := h
  unfold propose_step accepts
  simp only []
  split
  · rename_i h1
    split
    · rename_i h2
      simp [h1, h2]
    · rename_i h2
      simp [h1, h2, hc]
  · rename_i h1
    simp [h1]

theorem adapt_step_frame (ops : Ops Θ U SM M A) (cfg : Config) (i : Nat) (d : Draw U)
    (st : Sampler Θ SM M A) :
    (adapt_step ops cfg i d st).n_stored = st.n_stored ∧
    (adapt_step ops cfg i d st).count_storage = st.count_storage ∧
    (adapt_step ops cfg i d st).theta_storage = st.theta_storage ∧
    (adapt_step ops cfg i d st).approx_loglik_storage = st.approx_loglik_storage ∧
    (adapt_step ops cfg i d st).prior_storage = st.prior_storage ∧
    (adapt_step ops cfg i d st).y_storage = st.y_storage ∧
    (adapt_step ops cfg i d st).H_storage = st.H_storage ∧
    (adapt_step ops cfg i d st).scales_storage = st.scales_storage ∧
    (adapt_step ops cfg i d st).accesses = st.accesses ∧
    (adapt_step ops cfg i d st).counts = st.counts ∧
    (adapt_step ops cfg i d st).theta = st.theta ∧
    (adapt_step ops cfg i d st).logprior = st.logprior ∧
    (adapt_step ops cfg i d st).approx_loglik = st.approx_loglik ∧
    (adapt_step ops cfg i d st).scales = st.scales ∧
    (adapt_step ops cfg i d st).approx_y = st.approx_y ∧
    (adapt_step ops cfg i d st).approx_H = st.approx_H := by
  unfold adapt_step
  split <;> simp

/-! ### Sums over preallocated arrays -/

theorem sum_setSlot_outside (f : Nat → Nat) (n k v : Nat) (h : n ≤ k) :
    Finset.sum (Finset.range n) (setSlot f k v) = Finset.sum (Finset.range n) f := by
  apply Finset.sum_congr rfl
  intro j hj
  have hj2 : j < n := Finset.mem_range.mp hj
  have hne : j ≠ k := by omega
  simp [setSlot, hne]

theorem sum_setSlot_append (f : Nat → Nat) (n v : Nat) :
    Finset.sum (Finset.range (n + 1)) (setSlot f n v) = Finset.sum (Finset.range n) f + v := by
  rw [Finset.sum_range_succ, sum_setSlot_outside f n n v (le_refl n)]
  simp [setSlot]

theorem sum_setSlot_last (f : Nat → Nat) (n v : Nat) :
    Finset.sum (Finset.range (n + 1)) (setSlot f n (f n + v)) =
      Finset.sum (Finset.range (n + 1)) f + v := by
  rw [sum_setSlot_append, Finset.sum_range_succ, Nat.add_assoc]

/-! ### The storing step -/

theorem store_step_counts (cfg : Config) (i : Nat) (st : Sampler Θ SM M A) :
    (store_step cfg i st).counts = if cfg.n_burnin < i then st.counts + 1 else st.counts := by
  unfold store_step
  by_cases h : i > cfg.n_burnin
  · have h2 : cfg.n_burnin < i := h
    simp only [h, h2, if_true]
    split_ifs <;> rfl
  · have h2 : ¬ cfg.n_burnin < i := h
    simp [h2]

theorem store_step_current (cfg : Config) (i : Nat) (st : Sampler Θ SM M A) :
    (store_step cfg i st).theta = st.theta ∧ (store_step cfg i st).logprior = st.logprior ∧
    (store_step cfg i st).approx_loglik = st.approx_loglik ∧
    (store_step cfg i st).scales = st.scales ∧ (store_step cfg i st).approx_y = st.approx_y ∧
    (store_step cfg i st).approx_H = st.approx_H ∧
    (store_step cfg i st).acceptance_prob = st.acceptance_prob ∧
    (store_step cfg i st).calls = st.calls ∧ (store_step cfg i st).S = st.S ∧
    (store_step cfg i st).model = st.model ∧
    (store_step cfg i st).approx_model = st.approx_model ∧
    (store_step cfg i st).mode_estimate = st.mode_estimate := by
  unfold store_step
  simp only []
  split_ifs <;> simp

theorem store_step_not_thinned (cfg : Config) (i : Nat) (st : Sampler Θ SM M A)
    (h : ¬ thinned cfg i) :
    (store_step cfg i st).toMembers = st.toMembers ∧
    (store_step cfg i st).accesses = st.accesses := by
  unfold store_step
  unfold thinned at h
  by_cases h1 : i > cfg.n_burnin
  · have h2 : ¬ (i - cfg.n_burnin - 1) % cfg.n_thin = 0 := fun h3 => h ⟨h1, h3⟩
    simp [h1, h2]
  · simp [h1]

/-- The value of `n_stored` after the storing step, whatever the capacity: it grows by one
at a thinned iteration whose run of rejections is not longer than `n_thin`, and stays as it
is otherwise. -/
theorem store_step_n_stored (cfg : Config) (i : Nat) (st : Sampler Θ SM M A) :
    (store_step cfg i st).n_stored =
      if thinned cfg i ∧ st.counts + 1 ≤ cfg.n_thin then st.n_stored + 1 else st.n_stored := by
  unfold store_step thinned
  by_cases h1 : i > cfg.n_burnin
  · have h1b : cfg.n_burnin < i := h1
    by_cases h2 : (i - cfg.n_burnin - 1) % cfg.n_thin = 0
    · by_cases hc : st.counts + 1 ≤ cfg.n_thin
      · simp only [h1, h1b, h2, hc, if_true, true_and, and_self]
        split_ifs <;> rfl
      · simp only [h1, h1b, h2, hc, if_true, if_false, true_and, and_false]
        split_ifs <;> rfl
    · simp [h1, h1b, h2]
  · have h1b : ¬ cfg.n_burnin < i := h1
    simp [h1, h1b]

/-- The storing step at a thinned iteration whose run of rejections is not longer than
`n_thin`, with a free slot left: a new entry is appended at slot `n_stored`. -/
theorem store_step_append (cfg : Config) (i : Nat) (st : Sampler Θ SM M A)
    (h : thinned cfg i) (hc : st.counts + 1 ≤ cfg.n_thin) (hcap : st.n_stored < n_samples cfg) :
    store_step cfg i st =
      { st with
        counts := st.counts + 1
        approx_loglik_storage := setSlot st.approx_loglik_storage st.n_stored st.approx_loglik
        theta_storage := setSlot st.theta_storage st.n_stored st.theta
        y_storage := setSlot st.y_storage st.n_stored st.approx_y
        H_storage := setSlot st.H_storage st.n_stored st.approx_H
        prior_storage := setSlot st.prior_storage st.n_stored st.logprior
        scales_storage := setSlot st.scales_storage st.n_stored st.scales
        count_storage := setSlot st.count_storage st.n_stored 1
        n_stored := st.n_stored + 1
        accesses := st.accesses ++ [Access.store st.n_stored] } := by
  unfold store_step
  obtain ⟨h1, h2⟩ := h
  have h1b : i > cfg.n_burnin := h1
  simp [h1b, h2, hc, hcap]

/-- The storing step at a thinned iteration whose run of rejections is not longer than
`n_thin`, with every slot taken: the write to slot `n_stored` is outside the arrays. -/
theorem store_step_overflow (cfg : Config) (i : Nat) (st : Sampler Θ SM M A)
    (h : thinned cfg i) (hc : st.counts + 1 ≤ cfg.n_thin)
    (hcap : ¬ st.n_stored < n_samples cfg) :
    store_step cfg i st =
      { st with
        counts := st.counts + 1
        n_stored := st.n_stored + 1
        accesses := st.accesses ++ [Access.store st.n_stored] } := by
  unfold store_step
  obtain ⟨h1, h2⟩ := h
  have h1b : i > cfg.n_burnin := h1
  simp [h1b, h2, hc, hcap]

/-- The storing step at a thinned iteration that ends a run of more than `n_thin`
rejections, with at least one entry stored and all of them inside the arrays: the last
repeat count is incremented. -/
theorem store_step_bump (cfg : Config) (i : Nat) (st : Sampler Θ SM M A)
    (h : thinned cfg i) (hc : ¬ st.counts + 1 ≤ cfg.n_thin) (hn : st.n_stored ≠ 0)
    (hcap : st.n_stored ≤ n_samples cfg) :
    store_step cfg i st =
      { st with
        counts := st.counts + 1
        count_storage :=
          setSlot st.count_storage (st.n_stored - 1) (st.count_storage (st.n_stored - 1) + 1)
        accesses := st.accesses ++ [Access.bump (st.n_stored - 1)] } := by
  unfold store_step
  obtain ⟨h1, h2⟩ := h
  have h1b : i > cfg.n_burnin := h1
  have hlt : st.n_stored - 1 < n_samples cfg := by omega
  simp [h1b, h2, hc, hn, hlt]

/-- The storing step at a thinned iteration that ends a run of more than `n_thin`
rejections, when the last entry lies outside the arrays: the increment is outside them. -/
theorem store_step_bump_overflow (cfg : Config) (i : Nat) (st : Sampler Θ SM M A)
    (h : thinned cfg i) (hc : ¬ st.counts + 1 ≤ cfg.n_thin) (hn : st.n_stored ≠ 0)
    (hcap : ¬ st.n_stored ≤ n_samples cfg) :
    store_step cfg i st =
      { st with
        counts := st.counts + 1
        accesses := st.accesses ++ [Access.bump (st.n_stored - 1)] } := by
  unfold store_step
  obtain ⟨h1, h2⟩ := h
  have h1b : i > cfg.n_burnin := h1
  have hlt : ¬ st.n_stored - 1 < n_samples cfg := by omega
  simp [h1b, h2, hc, hn, hlt]

theorem store_step_sum (cfg : Config) (i : Nat) (st : Sampler Θ SM M A)
    (hs : thinned cfg i → st.counts + 1 ≤ cfg.n_thin ∨ st.n_stored ≠ 0) :
    ((store_step cfg i st).n_stored ≤ n_samples cfg →
      count_sum (store_step cfg i st) = count_sum st + (if thinned cfg i then 1 else 0)) ∧
    st.n_stored ≤ (store_step cfg i st).n_stored ∧
    (thinned cfg i → st.counts + 1 ≤ cfg.n_thin →
      (store_step cfg i st).n_stored = st.n_stored + 1) := by
  have hn := store_step_n_stored cfg i st
  refine ⟨?_, ?_, ?_⟩
  · intro hcap
    by_cases h : thinned cfg i
    · by_cases hc : st.counts + 1 ≤ cfg.n_thin
      · have hlt : st.n_stored < n_samples cfg := by
          rw [hn, if_pos ⟨h, hc⟩] at hcap
          omega
        rw [store_step_append cfg i st h hc hlt]
        simp [count_sum, h, sum_setSlot_append]
      · have hn0 : st.n_stored ≠ 0 := by
          rcases hs h with h1 | h1
          · exact absurd h1 hc
          · exact h1
        have hle : st.n_stored ≤ n_samples cfg := by
          rw [hn, if_neg (fun hh => hc hh.2)] at hcap
          exact hcap
        rw [store_step_bump cfg i st h hc hn0 hle]
        obtain ⟨k, hk⟩ := Nat.exists_eq_succ_of_ne_zero hn0
        simp [count_sum, h, hk, hc, sum_setSlot_last]
    · obtain ⟨hm, -⟩ := store_step_not_thinned cfg i st h
      have h1 : (store_step cfg i st).n_stored = st.n_stored := by rw [hm]
      have h2 : (store_step cfg i st).count_storage = st.count_storage := by rw [hm]
      simp [count_sum, h, h1, h2]
  · rw [hn]
    split <;> omega
  · intro h hc
    rw [hn, if_pos ⟨h, hc⟩]

/-! ### One pass of the loop -/

theorem iteration_counts (ops : Ops Θ U SM M A) (cfg : Config) (i : Nat) (d : Draw U)
    (st : Sampler Θ SM M A) :
    (iteration ops cfg i d st).counts =
      (if accepts ops cfg d st = true then 0 else st.counts) +
        (if cfg.n_burnin < i then 1 else 0) := by
  unfold iteration
  rw [(adapt_step_frame ops cfg i d _).2.2.2.2.2.2.2.2.2.1, store_step_counts,
    propose_step_counts]
  split <;> rfl

theorem iteration_sum (ops : Ops Θ U SM M A) (cfg : Config) (i : Nat) (d : Draw U)
    (st : Sampler Θ SM M A)
    (hs : thinned cfg i → (iteration ops cfg i d st).counts ≤ cfg.n_thin ∨ st.n_stored ≠ 0) :
    ((iteration ops cfg i d st).n_stored ≤ n_samples cfg →
      count_sum (iteration ops cfg i d st) =
        count_sum st + (if thinned cfg i then 1 else 0)) ∧
    st.n_stored ≤ (iteration ops cfg i d st).n_stored ∧
    (thinned cfg i → (iteration ops cfg i d st).counts ≤ cfg.n_thin →
      (iteration ops cfg i d st).n_stored = st.n_stored + 1) := by
  have hp := propose_step_storage ops cfg i d st
  have ha := adapt_step_frame ops cfg i d (store_step cfg i (propose_step ops cfg i d st))
  have hcnt := iteration_counts ops cfg i d st
  have hpc := propose_step_counts ops cfg i d st
  have hpre : thinned cfg i →
      (propose_step ops cfg i d st).counts + 1 ≤ cfg.n_thin ∨
        (propose_step ops cfg i d st).n_stored ≠ 0 := by
    intro ht
    have hb : cfg.n_burnin < i := ht.1
    rcases hs ht with h | h
    · left
      rw [hcnt] at h
      rw [hpc]
      simpa [hb] using h
    · right
      rw [hp.1]
      exact h
  have hstore := store_step_sum cfg i (propose_step ops cfg i d st) hpre
  have e1 : count_sum (iteration ops cfg i d st) =
      count_sum (store_step cfg i (propose_step ops cfg i d st)) := by
    unfold iteration count_sum
    rw [ha.1, ha.2.1]
  have e2 : count_sum (propose_step ops cfg i d st) = count_sum st := by
    unfold count_sum
    rw [hp.1, hp.2.1]
  have e3 : (iteration ops cfg i d st).n_stored =
      (store_step cfg i (propose_step ops cfg i d st)).n_stored := by
    unfold iteration
    rw [ha.1]
  refine ⟨?_, ?_, ?_⟩
  · intro hcap
    rw [e3] at hcap
    rw [e1, hstore.1 hcap, e2]
  · rw [e3, ← hp.1]
    exact hstore.2.1
  · intro ht hc
    have hb : cfg.n_burnin < i := ht.1
    rw [e3, ← hp.1]
    apply hstore.2.2 ht
    rw [hcnt] at hc
    rw [hpc]
    simpa [hb] using hc

/-! ### Invariants of the run -/

theorem thinned_upto_zero (cfg : Config) : thinned_upto cfg 0 = 0 := by
  simp [thinned_upto, thinned, Finset.filter_singleton]

theorem thinned_upto_succ (cfg : Config) (k : Nat) :
    thinned_upto cfg (k + 1) = thinned_upto cfg k + (if thinned cfg (k + 1) then 1 else 0) := by
  unfold thinned_upto
  rw [Finset.range_succ, Finset.filter_insert]
  split
  · rw [Finset.card_insert_of_not_mem]
    simp
  · rfl

theorem thinned_first (cfg : Config) : thinned cfg (cfg.n_burnin + 1) := by
  simp [thinned]

theorem not_thinned_burnin (cfg : Config) (i : Nat) (h : i ≤ cfg.n_burnin) : ¬ thinned cfg i := by
  intro ht
  have := ht.1
  omega

/-- A thinned iteration other than the first is more than `n_thin` past the burn-in. -/
theorem thinned_later (cfg : Config) (i : Nat) (h : thinned cfg i) (hne : i ≠ cfg.n_burnin + 1) :
    cfg.n_thin < i - cfg.n_burnin := by
  obtain ⟨h1, h2⟩ := h
  by_contra hlt
  have hlt2 : i - cfg.n_burnin - 1 < cfg.n_thin := by omega
  rw [Nat.mod_eq_of_lt hlt2] at h2
  omega

/-- During burn-in nothing is stored and `counts` stays 0; after it `n_stored` is at least
one; as long as `n_stored` does not exceed the capacity `n_samples`, the repeat counts sum
to the number of thinned iterations so far. -/
theorem run_invariant (ops : Ops Θ U SM M A) (cfg : Config) (draws : Nat → Draw U)
    (st : Sampler Θ SM M A) (h0 : st.n_stored = 0) (hc0 : st.counts = 0)
    (hthin : 1 ≤ cfg.n_thin) (k : Nat) :
    (k ≤ cfg.n_burnin → (run_to ops cfg draws st k).counts = 0 ∧
      (run_to ops cfg draws st k).n_stored = 0) ∧
    (cfg.n_burnin < k → (run_to ops cfg draws st k).n_stored ≠ 0) ∧
    ((run_to ops cfg draws st k).n_stored ≤ n_samples cfg →
      count_sum (run_to ops cfg draws st k) = thinned_upto cfg k) := by
  induction k with
  | zero =>
    refine ⟨fun _ => ⟨hc0, h0⟩, fun h => absurd h (Nat.not_lt_zero _), fun _ => ?_⟩
    simp [run_to, count_sum, h0, thinned_upto_zero]
  | succ k ih =>
    obtain ⟨ih1, ih2, ih3⟩ := ih
    have hcnt := iteration_counts ops cfg (k + 1) (draws (k + 1)) (run_to ops cfg draws st k)
    have hpre : thinned cfg (k + 1) →
        (iteration ops cfg (k + 1) (draws (k + 1)) (run_to ops cfg draws st k)).counts
          ≤ cfg.n_thin ∨ (run_to ops cfg draws st k).n_stored ≠ 0 := by
      intro ht
      by_cases hk : cfg.n_burnin < k
      · exact Or.inr (ih2 hk)
      · left
        have hk2 : k ≤ cfg.n_burnin := Nat.le_of_not_lt hk
        rw [hcnt, (ih1 hk2).1]
        have hb : cfg.n_burnin < k + 1 := ht.1
        simp [hb]
        exact hthin
    obtain ⟨hs1, hs2, hs3⟩ :=
      iteration_sum ops cfg (k + 1) (draws (k + 1)) (run_to ops cfg draws st k) hpre
    refine ⟨?_, ?_, ?_⟩
    · intro hk
      have hk2 : k ≤ cfg.n_burnin := by omega
      have hnb : ¬ cfg.n_burnin < k + 1 := by omega
      have hnt : ¬ thinned cfg (k + 1) := not_thinned_burnin cfg (k + 1) hk
      constructor
      · show (iteration ops cfg (k + 1) (draws (k + 1)) (run_to ops cfg draws st k)).counts = 0
        rw [hcnt, (ih1 hk2).1]
        simp [hnb]
      · show (iteration ops cfg (k + 1) (draws (k + 1)) (run_to ops cfg draws st k)).n_stored = 0
        have hp := propose_step_storage ops cfg (k + 1) (draws (k + 1)) (run_to ops cfg draws st k)
        have hst := store_step_not_thinned cfg (k + 1)
          (propose_step ops cfg (k + 1) (draws (k + 1)) (run_to ops cfg draws st k)) hnt
        unfold iteration
        rw [(adapt_step_frame ops cfg (k + 1) (draws (k + 1)) _).1, hst.1, hp.1]
        exact (ih1 hk2).2
    · intro hk
      show (iteration ops cfg (k + 1) (draws (k + 1)) (run_to ops cfg draws st k)).n_stored ≠ 0
      by_cases hk2 : cfg.n_burnin < k
      · have := ih2 hk2
        omega
      · have hk3 : k = cfg.n_burnin := by omega
        have ht : thinned cfg (k + 1) := by
          rw [hk3]
          exact thinned_first cfg
        have hle : (iteration ops cfg (k + 1) (draws (k + 1))
            (run_to ops cfg draws st k)).counts ≤ cfg.n_thin := by
          rw [hcnt, (ih1 (Nat.le_of_eq hk3)).1]
          have hb : cfg.n_burnin < k + 1 := by omega
          simp [hb]
          exact hthin
        rw [hs3 ht hle]
        omega
    · intro hcap
      have hcap2 : (iteration ops cfg (k + 1) (draws (k + 1))
          (run_to ops cfg draws st k)).n_stored ≤ n_samples cfg := hcap
      show count_sum (iteration ops cfg (k + 1) (draws (k + 1)) (run_to ops cfg draws st k)) = _
      rw [hs1 hcap2, ih3 (le_trans hs2 hcap2), thinned_upto_succ]

/-! ### The number of thinned iterations in closed form -/

theorem ceil_div_succ (m t : Nat) (ht : 1 ≤ t) :
    (m + 1 + t - 1) / t = (m + t - 1) / t + (if m % t = 0 then 1 else 0) := by
  have h1 : m + 1 + t - 1 = m + t := by omega
  rw [h1, Nat.add_div_right m (by omega : 0 < t)]
  have hdm := Nat.div_add_mod m t
  have hlt := Nat.mod_lt m (by omega : t > 0)
  by_cases hr : m % t = 0
  · simp only [hr, if_true]
    congr 1
    symm
    apply Nat.div_eq_of_lt_le
    · rw [Nat.mul_comm]; omega
    · rw [Nat.mul_comm, Nat.mul_succ]; omega
  · simp only [hr, if_false, Nat.add_zero]
    symm
    apply Nat.div_eq_of_lt_le
    · rw [Nat.mul_comm, Nat.mul_succ]; omega
    · rw [Nat.mul_comm, Nat.mul_succ, Nat.mul_succ]; omega

/-- The thinned iterations among `1..k` number `ceil((k - n_burnin) / n_thin)`. -/
theorem thinned_upto_eq_ceil (cfg : Config) (ht : 1 ≤ cfg.n_thin) (k : Nat) :
    thinned_upto cfg k = (k - cfg.n_burnin + cfg.n_thin - 1) / cfg.n_thin := by
  induction k with
  | zero =>
    rw [thinned_upto_zero]
    have : 0 - cfg.n_burnin + cfg.n_thin - 1 < cfg.n_thin := by omega
    exact (Nat.div_eq_of_lt this).symm
  | succ k ih =>
    rw [thinned_upto_succ, ih]
    by_cases hb : cfg.n_burnin < k + 1
    · have e : k + 1 - cfg.n_burnin = (k - cfg.n_burnin) + 1 := by omega
      rw [e, ceil_div_succ _ _ ht]
      congr 1
      have e2 : k + 1 - cfg.n_burnin - 1 = k - cfg.n_burnin := by omega
      simp only [thinned, hb, true_and, e2]
    · have e : k + 1 - cfg.n_burnin = 0 := by omega
      have e0 : k - cfg.n_burnin = 0 := by omega
      have hnt : ¬ thinned cfg (k + 1) := fun h => hb h.1
      simp [e, e0, hnt]

/-- After `k` uninterrupted passes from a fresh sampler that stay within the capacity, the
repeat counts sum to `ceil((k - n_burnin) / n_thin)`. -/
theorem count_sum_eq_ceil (ops : Ops Θ U SM M A) (cfg : Config) (draws : Nat → Draw U)
    (st : Sampler Θ SM M A) (h0 : st.n_stored = 0) (hc0 : st.counts = 0)
    (hthin : 1 ≤ cfg.n_thin) (k : Nat)
    (hcap : (run_to ops cfg draws st k).n_stored ≤ n_samples cfg) :
    count_sum (run_to ops cfg draws st k) =
      (k - cfg.n_burnin + cfg.n_thin - 1) / cfg.n_thin := by
  rw [(run_invariant ops cfg draws st h0 hc0 hthin k).2.2 hcap,
    thinned_upto_eq_ceil cfg hthin k]

/-! ### The three ways a pass of the loop treats the storage -/

theorem iteration_current (ops : Ops Θ U SM M A) (cfg : Config) (i : Nat) (d : Draw U)
    (st : Sampler Θ SM M A) :
    (iteration ops cfg i d st).theta = (propose_step ops cfg i d st).theta ∧
    (iteration ops cfg i d st).logprior = (propose_step ops cfg i d st).logprior ∧
    (iteration ops cfg i d st).approx_loglik = (propose_step ops cfg i d st).approx_loglik ∧
    (iteration ops cfg i d st).scales = (propose_step ops cfg i d st).scales ∧
    (iteration ops cfg i d st).approx_y = (propose_step ops cfg i d st).approx_y ∧
    (iteration ops cfg i d st).approx_H = (propose_step ops cfg i d st).approx_H := by
  have ha := adapt_step_frame ops cfg i d (store_step cfg i (propose_step ops cfg i d st))
  have hs := store_step_current cfg i (propose_step ops cfg i d st)
  unfold iteration
  refine ⟨?_, ?_, ?_, ?_, ?_, ?_⟩
  · rw [ha.2.2.2.2.2.2.2.2.2.2.1, hs.1]
  · rw [ha.2.2.2.2.2.2.2.2.2.2.2.1, hs.2.1]
  · rw [ha.2.2.2.2.2.2.2.2.2.2.2.2.1, hs.2.2.1]
  · rw [ha.2.2.2.2.2.2.2.2.2.2.2.2.2.1, hs.2.2.2.1]
  · rw [ha.2.2.2.2.2.2.2.2.2.2.2.2.2.2.1, hs.2.2.2.2.1]
  · rw [ha.2.2.2.2.2.2.2.2.2.2.2.2.2.2.2, hs.2.2.2.2.2.1]

/-- A thinned pass whose run of rejections is at most `n_thin` long, with a free slot
left, appends one entry that holds the current values. -/
theorem iteration_append (ops : Ops Θ U SM M A) (cfg : Config) (i : Nat) (d : Draw U)
    (st : Sampler Θ SM M A) (ht : thinned cfg i)
    (hc : (iteration ops cfg i d st).counts ≤ cfg.n_thin)
    (hcap : st.n_stored < n_samples cfg) :
    (iteration ops cfg i d st).n_stored = st.n_stored + 1 ∧
    (iteration ops cfg i d st).count_storage = setSlot st.count_storage st.n_stored 1 ∧
    (iteration ops cfg i d st).theta_storage =
      setSlot st.theta_storage st.n_stored (iteration ops cfg i d st).theta ∧
    (iteration ops cfg i d st).prior_storage =
      setSlot st.prior_storage st.n_stored (iteration ops cfg i d st).logprior ∧
    (iteration ops cfg i d st).approx_loglik_storage =
      setSlot st.approx_loglik_storage st.n_stored (iteration ops cfg i d st).approx_loglik ∧
    (iteration ops cfg i d st).y_storage =
      setSlot st.y_storage st.n_stored (iteration ops cfg i d st).approx_y ∧
    (iteration ops cfg i d st).H_storage =
      setSlot st.H_storage st.n_stored (iteration ops cfg i d st).approx_H ∧
    (iteration ops cfg i d st).scales_storage =
      setSlot st.scales_storage st.n_stored (iteration ops cfg i d st).scales ∧
    (iteration ops cfg i d st).accesses = st.accesses ++ [Access.store st.n_stored] := by
  have hcur := iteration_current ops cfg i d st
  obtain ⟨c1, c2, c3, c4, c5, c6⟩ := hcur
  rw [c1, c2, c3, c4, c5, c6]
  have hp := propose_step_storage ops cfg i d st
  obtain ⟨p1, p2, p3, p4, p5, p6, p7, p8, p9⟩ := hp
  have hb : cfg.n_burnin < i := ht.1
  have hc2 : (propose_step ops cfg i d st).counts + 1 ≤ cfg.n_thin := by
    rw [iteration_counts] at hc
    rw [propose_step_counts]
    simpa [hb] using hc
  have ha := adapt_step_frame ops cfg i d (store_step cfg i (propose_step ops cfg i d st))
  obtain ⟨a1, a2, a3, a4, a5, a6, a7, a8, a9, -⟩ := ha
  have hcap2 : (propose_step ops cfg i d st).n_stored < n_samples cfg := by
    rw [p1]
    exact hcap
  unfold iteration
  rw [a1, a2, a3, a4, a5, a6, a7, a8, a9,
    store_step_append cfg i (propose_step ops cfg i d st) ht hc2 hcap2]
  simp [p1, p2, p3, p4, p5, p6, p7, p8, p9]

/-- A thinned pass whose run of rejections is at most `n_thin` long, with every slot
taken, writes slot `n_stored` outside the arrays and increments `n_stored`; no allocated
slot changes. -/
theorem iteration_overflow (ops : Ops Θ U SM M A) (cfg : Config) (i : Nat) (d : Draw U)
    (st : Sampler Θ SM M A) (ht : thinned cfg i)
    (hc : (iteration ops cfg i d st).counts ≤ cfg.n_thin)
    (hcap : ¬ st.n_stored < n_samples cfg) :
    (iteration ops cfg i d st).n_stored = st.n_stored + 1 ∧
    (iteration ops cfg i d st).count_storage = st.count_storage ∧
    (iteration ops cfg i d st).theta_storage = st.theta_storage ∧
    (iteration ops cfg i d st).prior_storage = st.prior_storage ∧
    (iteration ops cfg i d st).approx_loglik_storage = st.approx_loglik_storage ∧
    (iteration ops cfg i d st).y_storage = st.y_storage ∧
    (iteration ops cfg i d st).H_storage = st.H_storage ∧
    (iteration ops cfg i d st).scales_storage = st.scales_storage ∧
    (iteration ops cfg i d st).accesses = st.accesses ++ [Access.store st.n_stored] ∧
    Access.within (n_samples cfg) (Access.store st.n_stored) = false := by
  have hp := propose_step_storage ops cfg i d st
  obtain ⟨p1, p2, p3, p4, p5, p6, p7, p8, p9⟩ := hp
  have hb : cfg.n_burnin < i := ht.1
  have hc2 : (propose_step ops cfg i d st).counts + 1 ≤ cfg.n_thin := by
    rw [iteration_counts] at hc
    rw [propose_step_counts]
    simpa [hb] using hc
  have ha := adapt_step_frame ops cfg i d (store_step cfg i (propose_step ops cfg i d st))
  obtain ⟨a1, a2, a3, a4, a5, a6, a7, a8, a9, -⟩ := ha
  have hcap2 : ¬ (propose_step ops cfg i d st).n_stored < n_samples cfg := by
    rw [p1]
    exact hcap
  unfold iteration
  rw [a1, a2, a3, a4, a5, a6, a7, a8, a9,
    store_step_overflow cfg i (propose_step ops cfg i d st) ht hc2 hcap2]
  simp [p1, p2, p3, p4, p5, p6, p7, p8, p9, Access.within, hcap]

/-- A thinned pass that ends a run of more than `n_thin` rejections, with the stored
entries inside the arrays, increments the repeat count of the last stored entry and writes
nothing else. -/
theorem iteration_bump (ops : Ops Θ U SM M A) (cfg : Config) (i : Nat) (d : Draw U)
    (st : Sampler Θ SM M A) (ht : thinned cfg i)
    (hc : ¬ (iteration ops cfg i d st).counts ≤ cfg.n_thin) (hn : st.n_stored ≠ 0)
    (hcap : st.n_stored ≤ n_samples cfg) :
    (iteration ops cfg i d st).n_stored = st.n_stored ∧
    (iteration ops cfg i d st).count_storage =
      setSlot st.count_storage (st.n_stored - 1) (st.count_storage (st.n_stored - 1) + 1) ∧
    (iteration ops cfg i d st).theta_storage = st.theta_storage ∧
    (iteration ops cfg i d st).prior_storage = st.prior_storage ∧
    (iteration ops cfg i d st).approx_loglik_storage = st.approx_loglik_storage ∧
    (iteration ops cfg i d st).y_storage = st.y_storage ∧
    (iteration ops cfg i d st).H_storage = st.H_storage ∧
    (iteration ops cfg i d st).scales_storage = st.scales_storage ∧
    (iteration ops cfg i d st).accesses = st.accesses ++ [Access.bump (st.n_stored - 1)] := by
  have hp := propose_step_storage ops cfg i d st
  obtain ⟨p1, p2, p3, p4, p5, p6, p7, p8, p9⟩ := hp
  have hb : cfg.n_burnin < i := ht.1
  have hc2 : ¬ (propose_step ops cfg i d st).counts + 1 ≤ cfg.n_thin := by
    rw [iteration_counts] at hc
    rw [propose_step_counts]
    simpa [hb] using hc
  have hn2 : (propose_step ops cfg i d st).n_stored ≠ 0 := by
    rw [p1]
    exact hn
  have ha := adapt_step_frame ops cfg i d (store_step cfg i (propose_step ops cfg i d st))
  obtain ⟨a1, a2, a3, a4, a5, a6, a7, a8, a9, -⟩ := ha
  have hcap2 : (propose_step ops cfg i d st).n_stored ≤ n_samples cfg := by
    rw [p1]
    exact hcap
  unfold iteration
  rw [a1, a2, a3, a4, a5, a6, a7, a8, a9,
    store_step_bump cfg i (propose_step ops cfg i d st) ht hc2 hn2 hcap2]
  simp [p1, p2, p3, p4, p5, p6, p7, p8, p9]

/-- A thinned pass that ends a run of more than `n_thin` rejections, when the last entry
lies outside the arrays, makes its increment outside them; no allocated slot changes. -/
theorem iteration_bump_overflow (ops : Ops Θ U SM M A) (cfg : Config) (i : Nat) (d : Draw U)
    (st : Sampler Θ SM M A) (ht : thinned cfg i)
    (hc : ¬ (iteration ops cfg i d st).counts ≤ cfg.n_thin) (hn : st.n_stored ≠ 0)
    (hcap : ¬ st.n_stored ≤ n_samples cfg) :
    (iteration ops cfg i d st).n_stored = st.n_stored ∧
    (iteration ops cfg i d st).count_storage = st.count_storage ∧
    (iteration ops cfg i d st).accesses = st.accesses ++ [Access.bump (st.n_stored - 1)] := by
  have hp := propose_step_storage ops cfg i d st
  obtain ⟨p1, p2, p3, p4, p5, p6, p7, p8, p9⟩ := hp
  have hb : cfg.n_burnin < i := ht.1
  have hc2 : ¬ (propose_step ops cfg i d st).counts + 1 ≤ cfg.n_thin := by
    rw [iteration_counts] at hc
    rw [propose_step_counts]
    simpa [hb] using hc
  have hn2 : (propose_step ops cfg i d st).n_stored ≠ 0 := by
    rw [p1]
    exact hn
  have ha := adapt_step_frame ops cfg i d (store_step cfg i (propose_step ops cfg i d st))
  obtain ⟨a1, a2, a3, a4, a5, a6, a7, a8, a9, -⟩ := ha
  have hcap2 : ¬ (propose_step ops cfg i d st).n_stored ≤ n_samples cfg := by
    rw [p1]
    exact hcap
  unfold iteration
  rw [a1, a2, a9,
    store_step_bump_overflow cfg i (propose_step ops cfg i d st) ht hc2 hn2 hcap2]
  simp [p1, p2, p9]

/-- The value of `n_stored` after a pass, whatever the capacity. -/
theorem iteration_n_stored (ops : Ops Θ U SM M A) (cfg : Config) (i : Nat) (d : Draw U)
    (st : Sampler Θ SM M A) :
    (iteration ops cfg i d st).n_stored =
      if thinned cfg i ∧ (iteration ops cfg i d st).counts ≤ cfg.n_thin then st.n_stored + 1
      else st.n_stored := by
  have hp := propose_step_storage ops cfg i d st
  have ha := adapt_step_frame ops cfg i d (store_step cfg i (propose_step ops cfg i d st))
  have e3 : (iteration ops cfg i d st).n_stored =
      (store_step cfg i (propose_step ops cfg i d st)).n_stored := by
    unfold iteration
    rw [ha.1]
  rw [e3, store_step_n_stored, hp.1]
  by_cases ht : thinned cfg i
  · have hb : cfg.n_burnin < i := ht.1
    have e : (propose_step ops cfg i d st).counts + 1 ≤ cfg.n_thin ↔
        (iteration ops cfg i d st).counts ≤ cfg.n_thin := by
      rw [iteration_counts, propose_step_counts]
      simp [hb]
    simp only [ht, true_and, e]
  · simp [ht]

/-- A pass that is not a thinned iteration leaves the storage alone. -/
theorem iteration_skip (ops : Ops Θ U SM M A) (cfg : Config) (i : Nat) (d : Draw U)
    (st : Sampler Θ SM M A) (ht : ¬ thinned cfg i) :
    (iteration ops cfg i d st).n_stored = st.n_stored ∧
    (iteration ops cfg i d st).count_storage = st.count_storage ∧
    (iteration ops cfg i d st).accesses = st.accesses := by
  have hp := propose_step_storage ops cfg i d st
  obtain ⟨p1, p2, -, -, -, -, -, -, p9⟩ := hp
  have hs := store_step_not_thinned cfg i (propose_step ops cfg i d st) ht
  have ha := adapt_step_frame ops cfg i d (store_step cfg i (propose_step ops cfg i d st))
  obtain ⟨a1, a2, -, -, -, -, -, -, a9, -⟩ := ha
  unfold iteration
  rw [a1, a2, a9, hs.1, hs.2]
  exact ⟨p1, p2, p9⟩

/-! ### The length of the current run of rejections -/

theorem accepted_at_succ (ops : Ops Θ U SM M A) (cfg : Config) (draws : Nat → Draw U)
    (st : Sampler Θ SM M A) (k : Nat) :
    accepted_at ops cfg draws st (k + 1) =
      accepts ops cfg (draws (k + 1)) (run_to ops cfg draws st k) := by
  simp [accepted_at]

/-- After pass `k` past the burn-in, `counts` is at most `d` exactly when one of the last
`d` proposals was accepted (for `d` below the number of post-burn-in passes). -/
theorem counts_le_iff (ops : Ops Θ U SM M A) (cfg : Config) (draws : Nat → Draw U)
    (st : Sampler Θ SM M A) (k : Nat) :
    ∀ d, d < k - cfg.n_burnin →
      ((run_to ops cfg draws st k).counts ≤ d ↔
        ∃ a, k - d < a ∧ a ≤ k ∧ accepted_at ops cfg draws st a = true) := by
  induction k with
  | zero =>
    intro d hd
    simp at hd
  | succ k ih =>
    intro d hd
    have hb : cfg.n_burnin < k + 1 := by omega
    have hcnt := iteration_counts ops cfg (k + 1) (draws (k + 1)) (run_to ops cfg draws st k)
    have hacc := accepted_at_succ ops cfg draws st k
    show (iteration ops cfg (k + 1) (draws (k + 1)) (run_to ops cfg draws st k)).counts ≤ d ↔ _
    rw [hcnt, ← hacc]
    by_cases hA : accepted_at ops cfg draws st (k + 1) = true
    · simp only [hA, hb, if_true]
      constructor
      · intro h
        exact ⟨k + 1, by omega, le_refl _, hA⟩
      · rintro ⟨a, h1, h2, -⟩
        omega
    · have hA2 : accepted_at ops cfg draws st (k + 1) = false := by simpa using hA
      simp only [hA2, hb, if_true, Bool.false_eq_true, if_false]
      cases d with
      | zero =>
        constructor
        · intro h
          omega
        · rintro ⟨a, h1, h2, -⟩
          omega
      | succ e =>
        have he : e < k - cfg.n_burnin := by omega
        have := ih e he
        constructor
        · intro h
          have h3 : (run_to ops cfg draws st k).counts ≤ e := by omega
          obtain ⟨a, h1, h2, h4⟩ := this.mp h3
          exact ⟨a, by omega, by omega, h4⟩
        · rintro ⟨a, h1, h2, h4⟩
          have hne : a ≠ k + 1 := by
            intro heq
            rw [heq] at h4
            exact hA h4
          have h5 := this.mpr ⟨a, by omega, by omega, h4⟩
          omega

/-! ### The loop with its interruption check -/

theorem loop_no_interrupt (ops : Ops Θ U SM M A) (cfg : Config) (draws : Nat → Draw U)
    (st : Sampler Θ SM M A) (hrun : ∀ i, i % 16 = 0 → (draws i).interrupt = false) (k : Nat) :
    ∀ j, loop ops cfg draws k (j + 1) (run_to ops cfg draws st j) =
      .ok (run_to ops cfg draws st (j + k)) := by
  induction k with
  | zero =>
    intro j
    rfl
  | succ k ih =>
    intro j
    have h : ¬ ((j + 1) % 16 = 0 ∧ (draws (j + 1)).interrupt = true) := by
      rintro ⟨h1, h2⟩
      rw [hrun (j + 1) h1] at h2
      exact Bool.false_ne_true h2
    have e : j + (k + 1) = (j + 1) + k := by omega
    rw [e, ← ih (j + 1)]
    simp only [loop, h, if_false]
    rfl

theorem approx_mcmc_no_interrupt (ops : Ops Θ U SM M A) (cfg : Config) (draws : Nat → Draw U)
    (model : M) (obj : Members Θ SM)
    (hrun : ∀ i, i % 16 = 0 → (draws i).interrupt = false) :
    approx_mcmc ops cfg draws model obj =
      .ok (finish ops cfg (run_to ops cfg draws (init ops cfg model obj) cfg.n_iter)) := by
  have h := loop_no_interrupt ops cfg draws (init ops cfg model obj) hrun cfg.n_iter 0
  simp only [Nat.zero_add] at h
  unfold approx_mcmc
  have e : run_to ops cfg draws (init ops cfg model obj) 0 = init ops cfg model obj := rfl
  rw [e] at h
  rw [h]

/-! ### Claims about the compressed chain -/

/-- C1 (evaluation of the code): with `n_iter = 5`, `n_burnin = 1`, `n_thin = 3` and every
proposal rejected, `approx_mcmc` returns a chain whose repeat counts sum to 2, while
`floor((n_iter - n_burnin) / n_thin)` is 1. -/
theorem approx_mcmc_count_sum_exceeds_floor :
    ∃ st, approx_mcmc toyOps (toyConfig 5 1 3) downDraws 0 toyMembers = .ok st ∧
      count_sum st = 2 ∧
      ((toyConfig 5 1 3).n_iter - (toyConfig 5 1 3).n_burnin) / (toyConfig 5 1 3).n_thin = 1 := by
  refine ⟨_, approx_mcmc_no_interrupt toyOps (toyConfig 5 1 3) downDraws 0 toyMembers
    (fun _ _ => rfl), ?_, by decide⟩
  have h := (run_invariant toyOps (toyConfig 5 1 3) downDraws
    (init toyOps (toyConfig 5 1 3) 0 toyMembers) rfl rfl (by decide) 5).2.2 (by decide!)
  have e : thinned_upto (toyConfig 5 1 3) 5 = 2 := by decide
  rw [e] at h
  exact h

/-- The compression within the capacity: at a post-burn-in thinning iteration `i` other
than the first after which `n_stored` does not exceed `n_samples`, if none of the `n_thin`
proposals of the iterations ending at `i` was accepted then `n_stored` is unchanged, the
repeat count of the last stored entry grows by exactly 1 and every other stored value is
unchanged; otherwise exactly one entry is appended, with repeat count 1, holding the
current theta, log-prior, approximate log-likelihood, pseudo-observations,
pseudo-variances and scales, and the earlier entries are unchanged. -/
theorem thinned_iteration_within_capacity (ops : Ops Θ U SM M A) (cfg : Config)
    (draws : Nat → Draw U) (model : M) (obj : Members Θ SM) (hfresh : obj.n_stored = 0)
    (hthin : 1 ≤ cfg.n_thin) (i : Nat) (hi : thinned cfg i) (hfirst : i ≠ cfg.n_burnin + 1)
    (hcap : (run_to ops cfg draws (init ops cfg model obj) i).n_stored ≤ n_samples cfg) :
    ((∀ j, i - cfg.n_thin < j → j ≤ i →
        accepted_at ops cfg draws (init ops cfg model obj) j = false) →
      (run_to ops cfg draws (init ops cfg model obj) i).n_stored =
        (run_to ops cfg draws (init ops cfg model obj) (i - 1)).n_stored ∧
      (run_to ops cfg draws (init ops cfg model obj) (i - 1)).n_stored ≠ 0 ∧
      (run_to ops cfg draws (init ops cfg model obj) i).count_storage
          ((run_to ops cfg draws (init ops cfg model obj) (i - 1)).n_stored - 1) =
        (run_to ops cfg draws (init ops cfg model obj) (i - 1)).count_storage
          ((run_to ops cfg draws (init ops cfg model obj) (i - 1)).n_stored - 1) + 1 ∧
      (∀ k, k ≠ (run_to ops cfg draws (init ops cfg model obj) (i - 1)).n_stored - 1 →
        (run_to ops cfg draws (init ops cfg model obj) i).count_storage k =
          (run_to ops cfg draws (init ops cfg model obj) (i - 1)).count_storage k) ∧
      (run_to ops cfg draws (init ops cfg model obj) i).theta_storage =
        (run_to ops cfg draws (init ops cfg model obj) (i - 1)).theta_storage ∧
      (run_to ops cfg draws (init ops cfg model obj) i).prior_storage =
        (run_to ops cfg draws (init ops cfg model obj) (i - 1)).prior_storage ∧
      (run_to ops cfg draws (init ops cfg model obj) i).approx_loglik_storage =
        (run_to ops cfg draws (init ops cfg model obj) (i - 1)).approx_loglik_storage ∧
      (run_to ops cfg draws (init ops cfg model obj) i).y_storage =
        (run_to ops cfg draws (init ops cfg model obj) (i - 1)).y_storage ∧
      (run_to ops cfg draws (init ops cfg model obj) i).H_storage =
        (run_to ops cfg draws (init ops cfg model obj) (i - 1)).H_storage ∧
      (run_to ops cfg draws (init ops cfg model obj) i).scales_storage =
        (run_to ops cfg draws (init ops cfg model obj) (i - 1)).scales_storage) ∧
    ((∃ j, i - cfg.n_thin < j ∧ j ≤ i ∧
        accepted_at ops cfg draws (init ops cfg model obj) j = true) →
      (run_to ops cfg draws (init ops cfg model obj) i).n_stored =
        (run_to ops cfg draws (init ops cfg model obj) (i - 1)).n_stored + 1 ∧
      (run_to ops cfg draws (init ops cfg model obj) i).count_storage
          (run_to ops cfg draws (init ops cfg model obj) (i - 1)).n_stored = 1 ∧
      (run_to ops cfg draws (init ops cfg model obj) i).theta_storage
          (run_to ops cfg draws (init ops cfg model obj) (i - 1)).n_stored =
        (run_to ops cfg draws (init ops cfg model obj) i).theta ∧
      (run_to ops cfg draws (init ops cfg model obj) i).prior_storage
          (run_to ops cfg draws (init ops cfg model obj) (i - 1)).n_stored =
        (run_to ops cfg draws (init ops cfg model obj) i).logprior ∧
      (run_to ops cfg draws (init ops cfg model obj) i).approx_loglik_storage
          (run_to ops cfg draws (init ops cfg model obj) (i - 1)).n_stored =
        (run_to ops cfg draws (init ops cfg model obj) i).approx_loglik ∧
      (run_to ops cfg draws (init ops cfg model obj) i).y_storage
          (run_to ops cfg draws (init ops cfg model obj) (i - 1)).n_stored =
        (run_to ops cfg draws (init ops cfg model obj) i).approx_y ∧
      (run_to ops cfg draws (init ops cfg model obj) i).H_storage
          (run_to ops cfg draws (init ops cfg model obj) (i - 1)).n_stored =
        (run_to ops cfg draws (init ops cfg model obj) i).approx_H ∧
      (run_to ops cfg draws (init ops cfg model obj) i).scales_storage
          (run_to ops cfg draws (init ops cfg model obj) (i - 1)).n_stored =
        (run_to ops cfg draws (init ops cfg model obj) i).scales ∧
      (∀ k, k ≠ (run_to ops cfg draws (init ops cfg model obj) (i - 1)).n_stored →
        (run_to ops cfg draws (init ops cfg model obj) i).count_storage k =
          (run_to ops cfg draws (init ops cfg model obj) (i - 1)).count_storage k ∧
        (run_to ops cfg draws (init ops cfg model obj) i).theta_storage k =
          (run_to ops cfg draws (init ops cfg model obj) (i - 1)).theta_storage k ∧
        (run_to ops cfg draws (init ops cfg model obj) i).prior_storage k =
          (run_to ops cfg draws (init ops cfg model obj) (i - 1)).prior_storage k ∧
        (run_to ops cfg draws (init ops cfg model obj) i).approx_loglik_storage k =
          (run_to ops cfg draws (init ops cfg model obj) (i - 1)).approx_loglik_storage k ∧
        (run_to ops cfg draws (init ops cfg model obj) i).y_storage k =
          (run_to ops cfg draws (init ops cfg model obj) (i - 1)).y_storage k ∧
        (run_to ops cfg draws (init ops cfg model obj) i).H_storage k =
          (run_to ops cfg draws (init ops cfg model obj) (i - 1)).H_storage k ∧
        (run_to ops cfg draws (init ops cfg model obj) i).scales_storage k =
          (run_to ops cfg draws (init ops cfg model obj) (i - 1)).scales_storage k)) := by
  have hb : cfg.n_burnin < i := hi.1
  obtain ⟨k, rfl⟩ : ∃ k, i = k + 1 := ⟨i - 1, by omega⟩
  have hlate := thinned_later cfg (k + 1) hi hfirst
  have hchar := counts_le_iff ops cfg draws (init ops cfg model obj) (k + 1) cfg.n_thin hlate
  have hinv := run_invariant ops cfg draws (init ops cfg model obj) hfresh rfl hthin k
  have hk : cfg.n_burnin < k := by omega
  have hn := hinv.2.1 hk
  simp only [Nat.add_sub_cancel]
  have hrun : run_to ops cfg draws (init ops cfg model obj) (k + 1) =
      iteration ops cfg (k + 1) (draws (k + 1)) (run_to ops cfg draws (init ops cfg model obj) k) :=
    rfl
  constructor
  · intro hno
    have hc : ¬ (run_to ops cfg draws (init ops cfg model obj) (k + 1)).counts ≤ cfg.n_thin := by
      intro hle
      obtain ⟨a, h1, h2, h3⟩ := hchar.mp hle
      rw [hno a h1 h2] at h3
      exact Bool.false_ne_true h3
    rw [hrun] at hc hcap ⊢
    have hle : (run_to ops cfg draws (init ops cfg model obj) k).n_stored ≤ n_samples cfg := by
      rw [iteration_n_stored, if_neg (fun hh => hc hh.2)] at hcap
      exact hcap
    obtain ⟨b1, b2, b3, b4, b5, b6, b7, b8, -⟩ :=
      iteration_bump ops cfg (k + 1) (draws (k + 1)) _ hi hc hn hle
    refine ⟨b1, hn, ?_, ?_, b3, b4, b5, b6, b7, b8⟩
    · rw [b2]
      simp [setSlot]
    · intro j hj
      rw [b2]
      simp [setSlot, hj]
  · intro hyes
    have hc : (run_to ops cfg draws (init ops cfg model obj) (k + 1)).counts ≤ cfg.n_thin :=
      hchar.mpr hyes
    rw [hrun] at hc hcap ⊢
    have hlt : (run_to ops cfg draws (init ops cfg model obj) k).n_stored < n_samples cfg := by
      rw [iteration_n_stored, if_pos ⟨hi, hc⟩] at hcap
      omega
    obtain ⟨b1, b2, b3, b4, b5, b6, b7, b8, -⟩ :=
      iteration_append ops cfg (k + 1) (draws (k + 1)) _ hi hc hlt
    refine ⟨b1, ?_, ?_, ?_, ?_, ?_, ?_, ?_, ?_⟩
    · rw [b2]; simp [setSlot]
    · rw [b3]; simp [setSlot]
    · rw [b4]; simp [setSlot]
    · rw [b5]; simp [setSlot]
    · rw [b6]; simp [setSlot]
    · rw [b7]; simp [setSlot]
    · rw [b8]; simp [setSlot]
    · intro j hj
      rw [b2, b3, b4, b5, b6, b7, b8]
      simp [setSlot, hj]

/-- The compression within the capacity on a small instance: thinning 2 after a burn-in of
1, every proposal rejected; iteration 4 is the second thinned iteration and increments the
repeat count of the single stored entry. -/
theorem thinned_iteration_within_capacity_instance :
    (run_to toyOps (toyConfig 5 1 2) downDraws (init toyOps (toyConfig 5 1 2) 0 toyMembers)
        4).n_stored =
      (run_to toyOps (toyConfig 5 1 2) downDraws (init toyOps (toyConfig 5 1 2) 0 toyMembers)
        (4 - 1)).n_stored ∧
    (run_to toyOps (toyConfig 5 1 2) downDraws (init toyOps (toyConfig 5 1 2) 0 toyMembers)
        4).count_storage 0 = 2 := by
  have h := (thinned_iteration_within_capacity toyOps (toyConfig 5 1 2) downDraws 0 toyMembers
    rfl (by decide) 4 (by decide) (by decide) (by decide!)).1
    (by
      intro j h1 h2
      have h3 : 2 < j := h1
      interval_cases j <;> decide!)
  refine ⟨h.1, ?_⟩
  decide!

/-- C2 (evaluation of the code): with `n_iter = 4`, `n_burnin = 1`, `n_thin = 2` and every
proposal accepted, the arrays have `n_samples = 1` slot and the first thinned iteration
`i = 2` fills it. Iteration 4 is a post-burn-in thinning iteration other than the first and
its own proposal is accepted, so the claim has it append one entry; the pass writes slot 1,
which is outside the arrays: no entry is appended to them, and their only slot keeps its
values. -/
theorem approx_mcmc_thinned_append_outside :
    thinned (toyConfig 4 1 2) 4 ∧ 4 ≠ (toyConfig 4 1 2).n_burnin + 1 ∧
    accepted_at toyOps (toyConfig 4 1 2) stayDraws
      (init toyOps (toyConfig 4 1 2) 0 toyMembers) 4 = true ∧
    n_samples (toyConfig 4 1 2) = 1 ∧
    (run_to toyOps (toyConfig 4 1 2) stayDraws
      (init toyOps (toyConfig 4 1 2) 0 toyMembers) 3).n_stored = 1 ∧
    (run_to toyOps (toyConfig 4 1 2) stayDraws
        (init toyOps (toyConfig 4 1 2) 0 toyMembers) 4).accesses =
      (run_to toyOps (toyConfig 4 1 2) stayDraws
        (init toyOps (toyConfig 4 1 2) 0 toyMembers) 3).accesses ++ [Access.store 1] ∧
    Access.within (n_samples (toyConfig 4 1 2)) (Access.store 1) = false ∧
    (run_to toyOps (toyConfig 4 1 2) stayDraws
        (init toyOps (toyConfig 4 1 2) 0 toyMembers) 4).count_storage 0 =
      (run_to toyOps (toyConfig 4 1 2) stayDraws
        (init toyOps (toyConfig 4 1 2) 0 toyMembers) 3).count_storage 0 := by
  refine ⟨by decide, by decide, ?_, by decide, ?_, ?_, by decide, ?_⟩ <;> decide!

/-- The number of stored entries never exceeds the number of thinned iterations so far. -/
theorem n_stored_le_thinned (ops : Ops Θ U SM M A) (cfg : Config) (draws : Nat → Draw U)
    (st : Sampler Θ SM M A) (h0 : st.n_stored = 0) (k : Nat) :
    (run_to ops cfg draws st k).n_stored ≤ thinned_upto cfg k := by
  induction k with
  | zero =>
    show st.n_stored ≤ _
    rw [h0]
    exact Nat.zero_le _
  | succ k ih =>
    show (iteration ops cfg (k + 1) (draws (k + 1)) (run_to ops cfg draws st k)).n_stored ≤ _
    rw [iteration_n_stored, thinned_upto_succ]
    by_cases ht : thinned cfg (k + 1)
    · simp only [ht, true_and, if_true]
      split <;> omega
    · simp only [ht, false_and, if_false]
      omega

/-- The repeat counts within the capacity: when no interruption is signalled,
`approx_mcmc` returns, and if the returned `n_stored` does not exceed `n_samples`, the
repeat counts of the returned chain sum to the number of post-burn-in thinned iterations,
that is the number of `i` with `n_burnin < i <= n_iter` and
`(i - n_burnin - 1) mod n_thin = 0`. -/
theorem count_sum_within_capacity (ops : Ops Θ U SM M A) (cfg : Config)
    (draws : Nat → Draw U) (model : M) (obj : Members Θ SM) (hfresh : obj.n_stored = 0)
    (hthin : 1 ≤ cfg.n_thin) (hrun : ∀ i, i % 16 = 0 → (draws i).interrupt = false) :
    ∃ st, approx_mcmc ops cfg draws model obj = .ok st ∧
      (st.n_stored ≤ n_samples cfg →
        count_sum st =
          ((Finset.range (cfg.n_iter + 1)).filter
            (fun i => cfg.n_burnin < i ∧ (i - cfg.n_burnin - 1) % cfg.n_thin = 0)).card) := by
  refine ⟨_, approx_mcmc_no_interrupt ops cfg draws model obj hrun, ?_⟩
  intro hcap
  exact (run_invariant ops cfg draws (init ops cfg model obj) hfresh rfl hthin cfg.n_iter).2.2
    hcap

/-- When `n_thin` divides `n_iter - n_burnin` the run stays within the capacity: the number
of thinned iterations is `n_samples`. -/
theorem n_stored_le_n_samples (ops : Ops Θ U SM M A) (cfg : Config) (draws : Nat → Draw U)
    (st : Sampler Θ SM M A) (h0 : st.n_stored = 0) (hthin : 1 ≤ cfg.n_thin)
    (hle : cfg.n_burnin ≤ cfg.n_iter) (hlt : cfg.n_iter < 4294967296)
    (hdvd : cfg.n_thin ∣ cfg.n_iter - cfg.n_burnin) :
    (run_to ops cfg draws st cfg.n_iter).n_stored ≤ n_samples cfg := by
  have h := n_stored_le_thinned ops cfg draws st h0 cfg.n_iter
  rw [thinned_upto_eq_ceil cfg hthin cfg.n_iter] at h
  obtain ⟨c, hc⟩ := hdvd
  have hu : usub cfg.n_iter cfg.n_burnin = cfg.n_iter - cfg.n_burnin := by
    unfold usub
    have e : cfg.n_iter + 4294967296 - cfg.n_burnin =
        (cfg.n_iter - cfg.n_burnin) + 4294967296 := by omega
    rw [e, Nat.add_mod_right, Nat.mod_eq_of_lt (by omega)]
  have hpos : 0 < cfg.n_thin := hthin
  have e1 : (cfg.n_iter - cfg.n_burnin + cfg.n_thin - 1) / cfg.n_thin = c := by
    rw [hc]
    have e : cfg.n_thin * c + cfg.n_thin - 1 = (cfg.n_thin - 1) + cfg.n_thin * c := by omega
    rw [e, Nat.add_mul_div_left _ _ hpos, Nat.div_eq_of_lt (by omega), Nat.zero_add]
  have e2 : n_samples cfg = c := by
    unfold n_samples
    rw [hu, hc, Nat.mul_div_cancel_left _ hpos]
  rw [e1] at h
  rw [e2]
  exact h

/-- C3 (evaluation of the code): with `n_iter = 5`, `n_burnin = 0`, `n_thin = 2` and every
proposal accepted, there are 3 post-burn-in thinned iterations (1, 3 and 5), but the arrays
have `n_samples = 2` slots. After iteration 4 both slots are taken and the repeat counts
sum to 2; iteration 5 writes the third repeat count to slot 2, outside the arrays.
`approx_mcmc` returns with `n_stored = 3`, and the repeat counts that the arrays hold sum
to 2. -/
theorem approx_mcmc_count_sum_misses_thinned :
    ∃ st, approx_mcmc toyOps (toyConfig 5 0 2) stayDraws 0 toyMembers = .ok st ∧
      ((Finset.range ((toyConfig 5 0 2).n_iter + 1)).filter
        (fun i => (toyConfig 5 0 2).n_burnin < i ∧
          (i - (toyConfig 5 0 2).n_burnin - 1) % (toyConfig 5 0 2).n_thin = 0)).card = 3 ∧
      n_samples (toyConfig 5 0 2) = 2 ∧
      (run_to toyOps (toyConfig 5 0 2) stayDraws
        (init toyOps (toyConfig 5 0 2) 0 toyMembers) 4).n_stored = 2 ∧
      count_sum (run_to toyOps (toyConfig 5 0 2) stayDraws
        (init toyOps (toyConfig 5 0 2) 0 toyMembers) 4) = 2 ∧
      st.accesses = [Access.store 0, Access.store 1, Access.store 2] ∧
      Access.within (n_samples (toyConfig 5 0 2)) (Access.store 2) = false ∧
      st.n_stored = 3 ∧
      Finset.sum (Finset.range (n_samples (toyConfig 5 0 2))) st.count_storage = 2 := by
  refine ⟨_, approx_mcmc_no_interrupt toyOps (toyConfig 5 0 2) stayDraws 0 toyMembers
    (fun _ _ => rfl), by decide, by decide, ?_, ?_, ?_, by decide, ?_, ?_⟩ <;> decide!

/-- C4 (evaluation of the code): with `n_iter = 3`, `n_burnin = 0`, `n_thin = 2` and every
proposal accepted, the arrays have `n_samples = 1` slot, yet `approx_mcmc` writes a second
entry into slot 1 and ends with `n_stored = 2`. -/
theorem approx_mcmc_store_beyond_capacity :
    ∃ st, approx_mcmc toyOps (toyConfig 3 0 2) stayDraws 0 toyMembers = .ok st ∧
      n_samples (toyConfig 3 0 2) = 1 ∧ st.n_stored = 2 ∧ Access.store 1 ∈ st.accesses := by
  refine ⟨_, approx_mcmc_no_interrupt toyOps (toyConfig 3 0 2) stayDraws 0 toyMembers
    (fun _ _ => rfl), by decide, ?_, ?_⟩
  · decide!
  · decide!

/-! ### Claims about the accept/reject decision -/

/-- C5: in a pass of the loop whose proposal has log-prior `-inf`, neither `set_theta` nor
the surrogate rebuild is executed (the model, the surrogate and the mode estimate are
unchanged and no such call is recorded), the current theta, log-prior, approximate
log-likelihood, scales and pseudo-data are unchanged, the acceptance probability is exactly
0, and `adapt_S` is invoked with acceptance probability 0 exactly when adaptation is active
(`i <= n_burnin` or `end_ram` false). -/
theorem approx_mcmc_rejects_ninf_prior (ops : Ops Θ U SM M A) (cfg : Config) (i : Nat)
    (d : Draw U) (st : Sampler Θ SM M A)
    (h : ops.log_prior_pdf (ops.propose st.theta st.S d.u) = Dbl.ninf) :
    (iteration ops cfg i d st).model = st.model ∧
    (iteration ops cfg i d st).approx_model = st.approx_model ∧
    (iteration ops cfg i d st).mode_estimate = st.mode_estimate ∧
    (iteration ops cfg i d st).theta = st.theta ∧
    (iteration ops cfg i d st).logprior = st.logprior ∧
    (iteration ops cfg i d st).approx_loglik = st.approx_loglik ∧
    (iteration ops cfg i d st).scales = st.scales ∧
    (iteration ops cfg i d st).approx_y = st.approx_y ∧
    (iteration ops cfg i d st).approx_H = st.approx_H ∧
    (iteration ops cfg i d st).acceptance_prob = Dbl.fin 0 ∧
    accepts ops cfg d st = false ∧
    ((cfg.end_ram = false ∨ i ≤ cfg.n_burnin) →
      (iteration ops cfg i d st).calls = st.calls ++ [Call.adapt_S i (Dbl.fin 0)] ∧
      (iteration ops cfg i d st).S =
        ops.adapt_S st.S d.u (Dbl.fin 0) cfg.target_acceptance i cfg.gamma) ∧
    (¬ (cfg.end_ram = false ∨ i ≤ cfg.n_burnin) →
      (iteration ops cfg i d st).calls = st.calls ∧ (iteration ops cfg i d st).S = st.S) := by
  have hp : propose_step ops cfg i d st = { st with acceptance_prob := Dbl.zero } := by
    unfold propose_step
    simp [h, Dbl.gt, Dbl.lt]
  have hacc : accepts ops cfg d st = false := by
    unfold accepts
    simp [h, Dbl.gt, Dbl.lt]
  obtain ⟨s1, s2, s3, s4, s5, s6, s7, s8, s9, s10, s11, s12⟩ :=
    store_step_current cfg i ({ st with acceptance_prob := Dbl.zero } : Sampler Θ SM M A)
  unfold iteration
  rw [hp]
  unfold adapt_step
  by_cases hact : cfg.end_ram = false ∨ i ≤ cfg.n_burnin
  · have hcond : (!cfg.end_ram || decide (i ≤ cfg.n_burnin)) = true := by
      rcases hact with h1 | h1 <;> simp [h1]
    simp only [hcond, if_true]
    refine ⟨s10, s11, s12, s1, s2, s3, s4, s5, s6, ?_, hacc, ?_, ?_⟩
    · simp only [s7]
      rfl
    · intro _
      simp only [s7, s8, s9]
      exact ⟨rfl, rfl⟩
    · intro hn
      exact absurd hact hn
  · have hcond : (!cfg.end_ram || decide (i ≤ cfg.n_burnin)) = false := by
      simp only [not_or] at hact
      obtain ⟨h1, h2⟩ := hact
      have h3 : cfg.end_ram = true := by simpa using h1
      simp [h3, h2]
    simp only [hcond, Bool.false_eq_true, if_false]
    refine ⟨s10, s11, s12, s1, s2, s3, s4, s5, s6, ?_, hacc, ?_, ?_⟩
    · rw [s7]
      rfl
    · intro hy
      exact absurd hy hact
    · intro _
      exact ⟨s8, s9⟩

/-- C5 (witness): the current parameter is 0 and the proposal is -1, outside the support of
the prior; the first pass (during burn-in) still calls `adapt_S` with probability 0. -/
theorem approx_mcmc_rejects_ninf_prior_witness :
    (iteration toyOps (toyConfig 5 1 2) 1 (downDraws 1)
        (init toyOps (toyConfig 5 1 2) 0 toyMembers)).theta = 0 ∧
    (iteration toyOps (toyConfig 5 1 2) 1 (downDraws 1)
        (init toyOps (toyConfig 5 1 2) 0 toyMembers)).acceptance_prob = Dbl.fin 0 ∧
    (iteration toyOps (toyConfig 5 1 2) 1 (downDraws 1)
        (init toyOps (toyConfig 5 1 2) 0 toyMembers)).calls = [Call.adapt_S 1 (Dbl.fin 0)] := by
  have h := approx_mcmc_rejects_ninf_prior toyOps (toyConfig 5 1 2) 1 (downDraws 1)
    (init toyOps (toyConfig 5 1 2) 0 toyMembers) (by decide!)
  obtain ⟨-, -, -, h4, -, -, -, -, -, h10, -, h12, -⟩ := h
  exact ⟨h4, h10, (h12 (Or.inr (by decide))).1⟩

/-- C6 (evaluation of the code): the current parameter 100 has approximate log-likelihood
`-inf` and so has the proposal 101; the exponent `-inf - (-inf)` is NaN, `std::min(1.0, NaN)`
is 1, and the proposal is accepted: theta moves from 100 to 101. -/
theorem approx_mcmc_accepts_ninf_loglik :
    (init toyOps (toyConfig 3 0 1) 100 toyMembers).theta = 100 ∧
    (init toyOps (toyConfig 3 0 1) 100 toyMembers).approx_loglik = Dbl.ninf ∧
    approx_loglik_prop
      (rebuild toyOps (toyConfig 3 0 1) 101 (init toyOps (toyConfig 3 0 1) 100 toyMembers)) =
        Dbl.ninf ∧
    (iteration toyOps (toyConfig 3 0 1) 1 (upDraws 1)
      (init toyOps (toyConfig 3 0 1) 100 toyMembers)).acceptance_prob = Dbl.fin 1 ∧
    (iteration toyOps (toyConfig 3 0 1) 1 (upDraws 1)
      (init toyOps (toyConfig 3 0 1) 100 toyMembers)).theta = 101 := by
  decide!

/-! ### Claims about the particle filters -/

theorem n_nonfinite_all_missing {K : Type} (mdl : SsmMng K) (t : Nat)
    (h : ∀ j, j < mdl.p → (mdl.y j t).isFinite = false) : ¬ n_nonfinite mdl t < mdl.p := by
  have e : (List.range mdl.p).filter (fun j => !(mdl.y j t).isFinite) = List.range mdl.p := by
    apply List.filter_eq_self.mpr
    intro j hj
    simp [h j (List.mem_range.mp hj)]
  unfold n_nonfinite
  rw [e, List.length_range]
  exact Nat.lt_irrefl _

theorem psi_first_missing {K P : Type} (ops : FilterOps K P) (mdl : SsmMng K) (nsim : Nat)
    (st : FilterState P) (h : ¬ n_nonfinite mdl 0 < mdl.p) :
    psi_first ops mdl nsim st =
      .ok { skip_weighting ops.divFin nsim 0 st with loglik := mdl.approx_loglik } := by
  simp only [psi_first, h, if_false]

theorem bsf_first_missing {K P : Type} (ops : FilterOps K P) (mdl : SsmMng K) (nsim : Nat)
    (st : FilterState P) (h : ¬ n_nonfinite mdl 0 < mdl.p) :
    bsf_first ops mdl nsim st = .ok (skip_weighting ops.divFin nsim 0 st) := by
  simp only [bsf_first, h, if_false]

theorem psi_iter_missing {K P : Type} (ops : FilterOps K P) (mdl : SsmMng K) (nsim t : Nat)
    (st : FilterState P) (h : ¬ (t < mdl.n - 1 ∧ n_nonfinite mdl (t + 1) < mdl.p)) :
    psi_iter ops mdl nsim t st =
      .ok (skip_weighting ops.divFin nsim (t + 1)
        { st with
          indices := setSlot st.indices t (ops.stratified_sample t st.normalized_weights nsim)
          alpha := ops.psi_propagate mdl nsim t
            (ops.stratified_sample t st.normalized_weights nsim) st.alpha }) := by
  simp only [psi_iter, h, if_false]

theorem bsf_iter_missing {K P : Type} (ops : FilterOps K P) (mdl : SsmMng K) (nsim t : Nat)
    (st : FilterState P) (h : ¬ (t < mdl.n - 1 ∧ n_nonfinite mdl (t + 1) < mdl.p)) :
    bsf_iter ops mdl nsim t st =
      .ok (skip_weighting ops.divFin nsim (t + 1)
        { st with
          indices := setSlot st.indices t (ops.stratified_sample t st.normalized_weights nsim)
          alpha := ops.bsf_propagate mdl nsim t
            (ops.stratified_sample t st.normalized_weights nsim) st.alpha }) := by
  simp only [bsf_iter, h, if_false]

theorem ones_eq (nsim : Nat) : ones nsim = List.replicate nsim (Dbl.fin 1) := rfl

theorem uniform_eq (divFin : ℚ → ℚ → Dbl) (nsim : Nat) :
    uniform divFin nsim = List.replicate nsim (divFin 1 (nsim : ℚ)) := by
  cases nsim with
  | zero => rfl
  | succ k =>
    have hk : ((k + 1 : Nat) : ℚ) ≠ 0 := Nat.cast_ne_zero.mpr (Nat.succ_ne_zero k)
    unfold uniform
    simp only [Dbl.div, Dbl.one, Dbl.ofNat, hk, if_false]

/-- C7: at a time step `t < n` whose observation vector is entirely non-finite, both
filters, when they reach the step, set the weight column `t` to `nsim` copies of `1.0` and
the normalized weights for the next resampling to `nsim` copies of the double quotient
`1.0 / nsim`, and leave the log-likelihood accumulator as it was before the step; at
`t = 0` the accumulator is `approx_loglik` in `psi_filter` and `0` in `bsf_filter`. -/
theorem filters_skip_missing_step {K P : Type} (ops : FilterOps K P) (mdl : SsmMng K)
    (nsim : Nat) (alpha : P) (weights : Nat → List Dbl) (indices : Nat → List Nat) (t : Nat)
    (ht : t < mdl.n) (hmiss : ∀ j, j < mdl.p → (mdl.y j t).isFinite = false) :
    (t = 0 →
      (∃ s, psi_run ops mdl nsim (filter_start alpha weights indices) 0 = .ok s ∧
        s.weights 0 = List.replicate nsim (Dbl.fin 1) ∧
        s.normalized_weights = List.replicate nsim (ops.divFin 1 (nsim : ℚ)) ∧
        s.loglik = mdl.approx_loglik) ∧
      (∃ s, bsf_run ops mdl nsim (filter_start alpha weights indices) 0 = .ok s ∧
        s.weights 0 = List.replicate nsim (Dbl.fin 1) ∧
        s.normalized_weights = List.replicate nsim (ops.divFin 1 (nsim : ℚ)) ∧
        s.loglik = Dbl.fin 0)) ∧
    (∀ k, t = k + 1 →
      (∀ s, psi_run ops mdl nsim (filter_start alpha weights indices) k = .ok s →
        ∃ s2, psi_run ops mdl nsim (filter_start alpha weights indices) (k + 1) = .ok s2 ∧
          s2.weights t = List.replicate nsim (Dbl.fin 1) ∧
          s2.normalized_weights = List.replicate nsim (ops.divFin 1 (nsim : ℚ)) ∧
          s2.loglik = s.loglik) ∧
      (∀ s, bsf_run ops mdl nsim (filter_start alpha weights indices) k = .ok s →
        ∃ s2, bsf_run ops mdl nsim (filter_start alpha weights indices) (k + 1) = .ok s2 ∧
          s2.weights t = List.replicate nsim (Dbl.fin 1) ∧
          s2.normalized_weights = List.replicate nsim (ops.divFin 1 (nsim : ℚ)) ∧
          s2.loglik = s.loglik)) := by
  rw [← ones_eq nsim, ← uniform_eq ops.divFin nsim]
  have hna := n_nonfinite_all_missing mdl t hmiss
  constructor
  · intro h0
    subst h0
    constructor
    · refine ⟨_, psi_first_missing ops mdl nsim _ hna, ?_, ?_, ?_⟩
      · simp [skip_weighting, setSlot]
      · simp [skip_weighting]
      · rfl
    · refine ⟨_, bsf_first_missing ops mdl nsim _ hna, ?_, ?_, ?_⟩
      · simp [skip_weighting, setSlot]
      · simp [skip_weighting]
      · rfl
  · intro k hk
    subst hk
    have hcond : ¬ (k < mdl.n - 1 ∧ n_nonfinite mdl (k + 1) < mdl.p) := fun h => hna h.2
    constructor
    · intro s hs
      have e : psi_run ops mdl nsim (filter_start alpha weights indices) (k + 1) =
          psi_iter ops mdl nsim k s := by
        simp only [psi_run, hs]
      rw [e, psi_iter_missing ops mdl nsim k s hcond]
      refine ⟨_, rfl, ?_, ?_, ?_⟩
      · simp [skip_weighting, setSlot]
      · simp [skip_weighting]
      · simp [skip_weighting]
    · intro s hs
      have e : bsf_run ops mdl nsim (filter_start alpha weights indices) (k + 1) =
          bsf_iter ops mdl nsim k s := by
        simp only [bsf_run, hs]
      rw [e, bsf_iter_missing ops mdl nsim k s hcond]
      refine ⟨_, rfl, ?_, ?_, ?_⟩
      · simp [skip_weighting, setSlot]
      · simp [skip_weighting]
      · simp [skip_weighting]

/-! ### The log-likelihood accumulated by `psi_filter` -/

theorem Dbl.good_add (a b : Dbl) (ha : a.good) (hb : b.good) : (Dbl.add a b).good := by
  rcases ha with rfl | ⟨q, rfl⟩ <;> rcases hb with rfl | ⟨r, rfl⟩
  · left; rfl
  · left; rfl
  · left; rfl
  · right; exact ⟨q + r, rfl⟩

/-- The logarithm of `+inf` or of a positive finite double is finite or `+inf`. -/
theorem Dbl.good_log_of_gt (logPos : ℚ → ℚ) (x : Dbl) (h : Dbl.gt x Dbl.zero = true) :
    (Dbl.log logPos x).good := by
  cases x with
  | nan => simp [Dbl.gt, Dbl.lt, Dbl.zero] at h
  | ninf => simp [Dbl.gt, Dbl.lt, Dbl.zero] at h
  | pinf =>
    left
    simp [Dbl.log]
  | fin q =>
    have hq : 0 < q := by simpa [Dbl.gt, Dbl.lt, Dbl.zero] using h
    right
    exact ⟨logPos q, by simp [Dbl.log, hq]⟩

/-- A division without rounding keeps the quotient of a positive weight sum by `nsim`
greater than zero. -/
theorem Dbl.exactDiv_gt (s : Dbl) (nsim : Nat) (h : Dbl.gt s Dbl.zero = true) :
    Dbl.gt (Dbl.div Dbl.exactDiv s (Dbl.ofNat nsim)) Dbl.zero = true := by
  cases s with
  | nan => simp [Dbl.gt, Dbl.lt, Dbl.zero] at h
  | ninf => simp [Dbl.gt, Dbl.lt, Dbl.zero] at h
  | pinf => simp [Dbl.div, Dbl.ofNat, Dbl.gt, Dbl.lt, Dbl.zero]
  | fin q =>
    have hq : 0 < q := by simpa [Dbl.gt, Dbl.lt, Dbl.zero] using h
    by_cases hn : (nsim : ℚ) = 0
    · have hq0 : q ≠ 0 := ne_of_gt hq
      simp [Dbl.div, Dbl.ofNat, hn, hq0, hq, Dbl.gt, Dbl.lt, Dbl.zero]
    · have hpos : 0 < q / (nsim : ℚ) := by
        apply div_pos hq
        have : (0 : ℚ) ≤ (nsim : ℚ) := Nat.cast_nonneg nsim
        exact lt_of_le_of_ne this (Ne.symm hn)
      simp [Dbl.div, Dbl.ofNat, hn, Dbl.exactDiv, Dbl.gt, Dbl.lt, Dbl.zero, hpos]

theorem Dbl.good_ne_ninf (x : Dbl) (h : x.good) : x ≠ Dbl.ninf := by
  rcases h with rfl | ⟨q, rfl⟩ <;> simp

theorem loglik_sum_append (logPos : ℚ → ℚ) (divFin : ℚ → ℚ → Dbl) (nsim : Nat) (base : Dbl)
    (steps : List Weighing) (w : Weighing) :
    loglik_sum logPos divFin nsim base (steps ++ [w]) =
      match w.sum_weights with
      | some s =>
        Dbl.add (loglik_sum logPos divFin nsim base steps)
          (Dbl.log logPos (Dbl.div divFin s (Dbl.ofNat nsim)))
      | none => loglik_sum logPos divFin nsim base steps := by
  unfold loglik_sum
  rw [List.filterMap_append]
  cases h : w.sum_weights with
  | none => simp [h]
  | some s => simp [h, List.foldl_append]

/-- The accumulated sum is finite or `+inf` when the base is and no quotient
`sum_weights / nsim` of a passing stage has underflowed. -/
theorem loglik_sum_good (logPos : ℚ → ℚ) (divFin : ℚ → ℚ → Dbl) (nsim : Nat)
    (steps : List Weighing) :
    ∀ base : Dbl, base.good → (∀ w ∈ steps, w.passing) →
      (∀ w ∈ steps, ¬ w.underflows divFin nsim) →
      (loglik_sum logPos divFin nsim base steps).good := by
  induction steps using List.reverseRecOn with
  | nil =>
    intro base hb _ _
    simpa [loglik_sum] using hb
  | append_singleton l w ih =>
    intro base hb hpass hund
    rw [loglik_sum_append]
    have hl : ∀ v ∈ l, v.passing := fun v hv => hpass v (List.mem_append_left _ hv)
    have hl2 : ∀ v ∈ l, ¬ v.underflows divFin nsim :=
      fun v hv => hund v (List.mem_append_left _ hv)
    have hw : w.passing := hpass w (List.mem_append_right _ (List.mem_singleton_self w))
    have hw2 : ¬ w.underflows divFin nsim :=
      hund w (List.mem_append_right _ (List.mem_singleton_self w))
    cases h : w.sum_weights with
    | none => exact ih base hb hl hl2
    | some sm =>
      have hq : Dbl.gt (Dbl.div divFin sm (Dbl.ofNat nsim)) Dbl.zero = true := by
        by_contra hne
        exact hw2 ⟨sm, h, hw sm h, by simpa using hne⟩
      exact Dbl.good_add _ _ (ih base hb hl hl2) (Dbl.good_log_of_gt logPos _ hq)

theorem psi_first_inv {K P : Type} (ops : FilterOps K P) (mdl : SsmMng K) (nsim : Nat)
    (st : FilterState P) (h0 : st.steps = []) :
    PsiInv ops.logPos ops.divFin nsim mdl 0 (psi_first ops mdl nsim st) := by
  unfold psi_first
  by_cases hobs : n_nonfinite mdl 0 < mdl.p
  · simp only [hobs, if_true]
    by_cases hpos : Dbl.gt (Dbl.accu (psi_weights ops mdl 0 st.alpha)) Dbl.zero = true
    · simp only [hpos, if_true]
      refine ⟨?_, ?_, ?_, ?_⟩
      · simp [h0]
        rfl
      · intro w hw sm hsm
        simp [h0] at hw
        subst hw
        simp at hsm
        subst hsm
        exact hpos
      · simp [h0, loglik_sum]
      · intro w hw
        simp [h0] at hw
        subst hw
        exact ⟨by simp [setSlot], hobs, Or.inl rfl⟩
    · simp only [hpos, if_false]
      refine ⟨⟨[], ⟨0, some (Dbl.accu (psi_weights ops mdl 0 st.alpha))⟩, by simp [h0],
        ⟨Dbl.accu (psi_weights ops mdl 0 st.alpha), rfl, by simpa using hpos⟩, by simp⟩,
        ?_, ?_, ?_⟩
      · simp [h0]
        rfl
      · simp [h0]
      · intro w hw
        simp [h0] at hw
        subst hw
        exact ⟨by simp [setSlot], hobs, Or.inl rfl⟩
  · simp only [hobs, if_false]
    refine ⟨?_, ?_, ?_, ?_⟩
    · simp [skip_weighting, h0]
      rfl
    · intro w hw sm hsm
      simp [skip_weighting, h0] at hw
      subst hw
      simp at hsm
    · simp [skip_weighting, h0, loglik_sum]
    · intro w hw
      simp [skip_weighting, h0] at hw
      subst hw
      exact fun h => hobs h.1

theorem step_lt_of_mem (steps : List Weighing) (k : Nat)
    (hmap : steps.map (fun w => w.t) = List.range (k + 1)) (v : Weighing) (hv : v ∈ steps) :
    v.t < k + 1 := by
  have h : v.t ∈ steps.map (fun w => w.t) := List.mem_map_of_mem (fun w => w.t) hv
  rw [hmap] at h
  exact List.mem_range.mp h

theorem sound_append {K P : Type} (mdl : SsmMng K) (s s2 : FilterState P) (k : Nat)
    (col : List Dbl) (w : Weighing) (hw : w.t = k + 1)
    (hmap : s.steps.map (fun w => w.t) = List.range (k + 1)) (hs : s.sound mdl)
    (hnew : w.agrees mdl col)
    (h2w : s2.weights = setSlot s.weights (k + 1) col) (h2s : s2.steps = s.steps ++ [w]) :
    s2.sound mdl := by
  intro v hv
  rw [h2s] at hv
  rcases List.mem_append.mp hv with hold | hlast
  · have hlt := step_lt_of_mem s.steps k hmap v hold
    have hne : v.t ≠ k + 1 := Nat.ne_of_lt hlt
    have e : s2.weights v.t = s.weights v.t := by
      rw [h2w]
      simp [setSlot, hne]
    rw [e]
    exact hs v hold
  · have hvw : v = w := List.mem_singleton.mp hlast
    subst hvw
    have e : s2.weights v.t = col := by
      rw [h2w, hw]
      simp [setSlot]
    rw [e]
    exact hnew

theorem map_t_append (steps : List Weighing) (k : Nat) (w : Weighing) (hw : w.t = k + 1)
    (hmap : steps.map (fun w => w.t) = List.range (k + 1)) :
    (steps ++ [w]).map (fun w => w.t) = List.range (k + 1 + 1) := by
  rw [List.map_append, hmap, List.range_succ (k + 1)]
  simp [hw]

theorem psi_iter_inv {K P : Type} (ops : FilterOps K P) (mdl : SsmMng K) (nsim k : Nat)
    (s : FilterState P) (h : PsiInv ops.logPos ops.divFin nsim mdl k (.ok s)) :
    PsiInv ops.logPos ops.divFin nsim mdl (k + 1) (psi_iter ops mdl nsim k s) := by
  obtain ⟨hmap, hpass, hll, hsound⟩ := h
  have hlen : s.steps.length = k + 1 := by
    have := congrArg List.length hmap
    simpa using this
  unfold psi_iter
  by_cases hobs : k < mdl.n - 1 ∧ n_nonfinite mdl (k + 1) < mdl.p
  · simp only [hobs, and_self, if_true]
    have hin : k + 1 = 0 ∨ k + 1 < mdl.n := Or.inr (by omega)
    by_cases hpos : Dbl.gt (Dbl.accu (psi_weights ops mdl (k + 1)
        (ops.psi_propagate mdl nsim k (ops.stratified_sample k s.normalized_weights nsim)
          s.alpha))) Dbl.zero = true
    · simp only [hpos, if_true]
      refine ⟨map_t_append s.steps k _ rfl hmap, ?_, ?_, ?_⟩
      · intro v hv
        rcases List.mem_append.mp hv with hold | hlast
        · exact hpass v hold
        · have hvw := List.mem_singleton.mp hlast
          subst hvw
          intro sm hsm
          simp at hsm
          subst hsm
          exact hpos
      · simp only [loglik_sum_append, hll]
      · refine sound_append mdl s _ k
          (psi_weights ops mdl (k + 1)
            (ops.psi_propagate mdl nsim k (ops.stratified_sample k s.normalized_weights nsim)
              s.alpha))
          ⟨k + 1, some (Dbl.accu (psi_weights ops mdl (k + 1)
            (ops.psi_propagate mdl nsim k (ops.stratified_sample k s.normalized_weights nsim)
              s.alpha)))⟩ rfl hmap hsound ?_ rfl rfl
        exact ⟨rfl, hobs.2, hin⟩
    · simp only [hpos, if_false]
      refine ⟨⟨s.steps, _, rfl, ⟨_, rfl, by simpa using hpos⟩, hpass⟩, ?_, ?_, ?_⟩
      · have := map_t_append s.steps k
          ⟨k + 1, some (Dbl.accu (psi_weights ops mdl (k + 1)
            (ops.psi_propagate mdl nsim k (ops.stratified_sample k s.normalized_weights nsim)
              s.alpha)))⟩ rfl hmap
        simp only [List.length_append, List.length_singleton, hlen]
        exact this
      · simp [hlen]
      · refine sound_append mdl s _ k
          (psi_weights ops mdl (k + 1)
            (ops.psi_propagate mdl nsim k (ops.stratified_sample k s.normalized_weights nsim)
              s.alpha))
          ⟨k + 1, some (Dbl.accu (psi_weights ops mdl (k + 1)
            (ops.psi_propagate mdl nsim k (ops.stratified_sample k s.normalized_weights nsim)
              s.alpha)))⟩ rfl hmap hsound ?_ rfl rfl
        exact ⟨rfl, hobs.2, hin⟩
  · simp only [hobs, if_false]
    refine ⟨map_t_append s.steps k _ rfl hmap, ?_, ?_, ?_⟩
    · intro v hv
      rcases List.mem_append.mp hv with hold | hlast
      · exact hpass v hold
      · have hvw := List.mem_singleton.mp hlast
        subst hvw
        intro sm hsm
        simp at hsm
    · simp only [skip_weighting, loglik_sum_append, hll]
    · refine sound_append mdl s _ k (ones nsim) ⟨k + 1, none⟩ rfl hmap hsound ?_ rfl rfl
      intro h
      apply hobs
      refine ⟨?_, h.1⟩
      rcases h.2 with h2 | h2
      · exact absurd h2 (Nat.succ_ne_zero k)
      · have h3 : k + 1 < mdl.n := h2
        omega

theorem psi_run_inv {K P : Type} (ops : FilterOps K P) (mdl : SsmMng K) (nsim : Nat)
    (st : FilterState P) (h0 : st.steps = []) (k : Nat) :
    PsiInv ops.logPos ops.divFin nsim mdl k (psi_run ops mdl nsim st k) := by
  induction k with
  | zero => exact psi_first_inv ops mdl nsim st h0
  | succ k ih =>
    show PsiInv ops.logPos ops.divFin nsim mdl (k + 1)
      (match psi_run ops mdl nsim st k with
        | .ok s => psi_iter ops mdl nsim k s
        | .error s => .error s)
    cases hr : psi_run ops mdl nsim st k with
    | ok s =>
      rw [hr] at ih
      exact psi_iter_inv ops mdl nsim k s ih
    | error s =>
      rw [hr] at ih
      obtain ⟨h1, h2, h3, h4⟩ := ih
      exact ⟨h1, h2, Nat.le_succ_of_le h3, h4⟩

/-- C7 (witness): in the small instance the observation of time 1 is missing; the filter
reaches that step, since the weights of time 0 sum to 2, and with two particles it sets
the weight column to `[1, 1]` and the normalized weights to `[1/2, 1/2]`. -/
theorem filters_skip_missing_step_witness :
    (1 < toyModel.n ∧ ∀ j, j < toyModel.p → (toyModel.y j 1).isFinite = false) ∧
    (∃ s, psi_run toyFilterOps toyModel 2 (filter_start () (fun _ => []) (fun _ => [])) 0 =
        .ok s) ∧
    (∀ s, psi_run toyFilterOps toyModel 2 (filter_start () (fun _ => []) (fun _ => [])) 0 =
        .ok s →
      ∃ s2, psi_run toyFilterOps toyModel 2 (filter_start () (fun _ => []) (fun _ => [])) 1 =
          .ok s2 ∧
        s2.weights 1 = [Dbl.fin 1, Dbl.fin 1] ∧
        s2.normalized_weights = [Dbl.fin (1 / 2), Dbl.fin (1 / 2)] ∧
        s2.loglik = s.loglik) := by
  refine ⟨⟨by decide, fun _ _ => rfl⟩, ?_, ?_⟩
  · have hb : (psi_run toyFilterOps toyModel 2
        (filter_start () (fun _ => []) (fun _ => [])) 0).toBool = true := by decide!
    cases h : psi_run toyFilterOps toyModel 2
        (filter_start () (fun _ => []) (fun _ => [])) 0 with
    | ok s => exact ⟨s, rfl⟩
    | error e =>
      rw [h] at hb
      exact absurd hb (by simp [Except.toBool])
  · intro s hs
    obtain ⟨s2, h1, h2, h3, h4⟩ :=
      ((filters_skip_missing_step toyFilterOps toyModel 2 () (fun _ => []) (fun _ => []) 1
        (by decide) (fun _ _ => rfl)).2 0 rfl).1 s hs
    refine ⟨s2, h1, ?_, ?_, h4⟩
    · rw [h2]
      rfl
    · rw [h3]
      decide!

/-- C8 (counterexample): in the instance with a subnormal weight sum, `approx_loglik` is
finite and the weights of both observed steps sum to the smallest positive double, so no
step has a non-positive weight sum and all three stages are processed; yet the quotient of
that sum by `nsim = 2` underflows to zero, its logarithm is `-inf`, and `psi_filter`
returns `-inf`. -/
theorem psi_filter_underflow_returns_ninf :
    (psi_prelude tinyFilterOps tinyModel).approx_loglik = Dbl.fin 0 ∧
    (psi_filter tinyFilterOps tinyModel 2 () (fun _ => []) (fun _ => [])).2.1 = Dbl.ninf ∧
    (psi_filter tinyFilterOps tinyModel 2 () (fun _ => []) (fun _ => [])).2.2.steps =
      [{ t := 0, sum_weights := some (Dbl.fin Dbl.minDouble) },
        { t := 1, sum_weights := some (Dbl.fin Dbl.minDouble) },
        { t := 2, sum_weights := none }] ∧
    Dbl.gt (Dbl.fin Dbl.minDouble) Dbl.zero = true ∧
    Dbl.div tinyFilterOps.divFin (Dbl.fin Dbl.minDouble) (Dbl.ofNat 2) = Dbl.fin 0 ∧
    ¬ ∃ w ∈ (psi_filter tinyFilterOps tinyModel 2 () (fun _ => []) (fun _ => [])).2.2.steps,
      w.failing := by
  have hsteps : (psi_filter tinyFilterOps tinyModel 2 () (fun _ => []) (fun _ => [])).2.2.steps =
      [{ t := 0, sum_weights := some (Dbl.fin Dbl.minDouble) },
        { t := 1, sum_weights := some (Dbl.fin Dbl.minDouble) },
        { t := 2, sum_weights := none }] := by decide!
  have hgt : Dbl.gt (Dbl.fin Dbl.minDouble) Dbl.zero = true := by decide!
  refine ⟨by decide!, by decide!, hsteps, hgt, by decide!, ?_⟩
  rw [hsteps]
  rintro ⟨w, hw, sm, h1, h2⟩
  simp only [List.mem_cons, List.mem_singleton, List.not_mem_nil, or_false] at hw
  rcases hw with rfl | rfl | rfl
  · simp only [Option.some.injEq] at h1
    subst h1
    rw [hgt] at h2
    exact Bool.noConfusion h2
  · simp only [Option.some.injEq] at h1
    subst h1
    rw [hgt] at h2
    exact Bool.noConfusion h2
  · simp at h1

/-- C8 (amended): with a finite `approx_loglik`, `psi_filter` returns `-inf` whenever the
weight sum of some observed step is not positive; such a step is the last one processed
(the steps are processed in the order 0, 1, 2, ... and none follows it); when every
observed step has a positive weight sum, all steps are processed and the value returned is
`approx_loglik` plus the sum over the observed steps of `log(sum_weights / nsim)`, the
quotient being the one computed in doubles. The value returned is `-inf` only if some
observed step has a weight sum that is not positive or a positive weight sum whose
quotient by `nsim` has underflowed. A step has a weight sum exactly when it lies in the
time range and has a finite coordinate, and the sum is that of the stored weight column of
the step. -/
theorem psi_filter_returns {K P : Type} (ops : FilterOps K P) (mdl : SsmMng K) (nsim : Nat)
    (alpha : P) (weights : Nat → List Dbl) (indices : Nat → List Nat) (a : ℚ)
    (hfin : (psi_prelude ops mdl).approx_loglik = Dbl.fin a) :
    ((∃ w ∈ (psi_filter ops mdl nsim alpha weights indices).2.2.steps, w.failing) →
      (psi_filter ops mdl nsim alpha weights indices).2.1 = Dbl.ninf) ∧
    ((psi_filter ops mdl nsim alpha weights indices).2.1 = Dbl.ninf →
      (∃ w ∈ (psi_filter ops mdl nsim alpha weights indices).2.2.steps, w.failing) ∨
      ∃ w ∈ (psi_filter ops mdl nsim alpha weights indices).2.2.steps,
        w.underflows ops.divFin nsim) ∧
    (∀ w ∈ (psi_filter ops mdl nsim alpha weights indices).2.2.steps, w.failing →
      (psi_filter ops mdl nsim alpha weights indices).2.2.steps.getLast? = some w) ∧
    (psi_filter ops mdl nsim alpha weights indices).2.2.steps.map (fun w => w.t) =
      List.range (psi_filter ops mdl nsim alpha weights indices).2.2.steps.length ∧
    ((∀ w ∈ (psi_filter ops mdl nsim alpha weights indices).2.2.steps, w.passing) →
      (psi_filter ops mdl nsim alpha weights indices).2.1 =
        loglik_sum ops.logPos ops.divFin nsim (Dbl.fin a)
          (psi_filter ops mdl nsim alpha weights indices).2.2.steps ∧
      (psi_filter ops mdl nsim alpha weights indices).2.2.steps.map (fun w => w.t) =
        List.range ((psi_prelude ops mdl).n + 1)) ∧
    (psi_filter ops mdl nsim alpha weights indices).2.2.sound (psi_prelude ops mdl) := by
  have hinv := psi_run_inv ops (psi_prelude ops mdl) nsim
    (filter_start (ops.psi_initial (psi_prelude ops mdl) nsim alpha) weights indices) rfl
    (psi_prelude ops mdl).n
  unfold psi_filter
  simp only []
  cases hr : psi_run ops (psi_prelude ops mdl) nsim
      (filter_start (ops.psi_initial (psi_prelude ops mdl) nsim alpha) weights indices)
      (psi_prelude ops mdl).n with
  | ok s =>
    rw [hr] at hinv
    obtain ⟨hmap, hpass, hll, hsound⟩ := hinv
    rw [hfin] at hll
    have hnofail : ∀ w ∈ s.steps, ¬ w.failing := by
      intro w hw hf
      obtain ⟨sm, h1, h2⟩ := hf
      have := hpass w hw sm h1
      rw [h2] at this
      exact Bool.false_ne_true this
    have hlen : s.steps.length = (psi_prelude ops mdl).n + 1 := by
      have := congrArg List.length hmap
      simpa using this
    simp only []
    refine ⟨?_, ?_, ?_, ?_, ?_, hsound⟩
    · rintro ⟨w, hw, hf⟩
      exact absurd hf (hnofail w hw)
    · intro h
      right
      by_contra hno
      have hund : ∀ w ∈ s.steps, ¬ w.underflows ops.divFin nsim :=
        fun w hw hu => hno ⟨w, hw, hu⟩
      have hgood : (loglik_sum ops.logPos ops.divFin nsim (Dbl.fin a) s.steps).good :=
        loglik_sum_good ops.logPos ops.divFin nsim s.steps (Dbl.fin a) (Or.inr ⟨a, rfl⟩)
          hpass hund
      rw [hll] at h
      exact absurd h (Dbl.good_ne_ninf _ hgood)
    · intro w hw hf
      exact absurd hf (hnofail w hw)
    · rw [hlen]
      exact hmap
    · intro _
      exact ⟨hll, hmap⟩
  | error s =>
    rw [hr] at hinv
    obtain ⟨⟨init, w0, hsteps, hfail, hinit⟩, hmap, -, hsound⟩ := hinv
    have hw0 : w0 ∈ s.steps := by
      rw [hsteps]
      exact List.mem_append_right _ (List.mem_singleton_self w0)
    simp only []
    refine ⟨fun _ => trivial, fun _ => Or.inl ⟨w0, hw0, hfail⟩, ?_, hmap, ?_, hsound⟩
    · intro w hw hf
      rw [hsteps] at hw ⊢
      rcases List.mem_append.mp hw with hold | hlast
      · obtain ⟨sm, h1, h2⟩ := hf
        have := hinit w hold sm h1
        rw [h2] at this
        exact absurd this Bool.false_ne_true
      · have hvw := List.mem_singleton.mp hlast
        subst hvw
        simp
    · intro hall
      obtain ⟨sm, h1, h2⟩ := hfail
      have := hall w0 hw0 sm h1
      rw [h2] at this
      exact absurd this Bool.false_ne_true

/-- C8 (witness): in the small instance `approx_loglik` is `-5`; every particle has weight
`exp(-inf) = 0` at time 2, so the step at time 2 is a failing one and the filter returns
`-inf` there. -/
theorem psi_filter_returns_witness :
    (psi_prelude toyFilterOps toyModel).approx_loglik = Dbl.fin (-5) ∧
    (psi_filter toyFilterOps toyModel 2 () (fun _ => []) (fun _ => [])).2.2.steps.getLast? =
      some { t := 2, sum_weights := some (Dbl.fin 0) } ∧
    (psi_filter toyFilterOps toyModel 2 () (fun _ => []) (fun _ => [])).2.1 = Dbl.ninf := by
  have hlast : (psi_filter toyFilterOps toyModel 2 () (fun _ => [])
      (fun _ => [])).2.2.steps.getLast? =
      some { t := 2, sum_weights := some (Dbl.fin 0) } := by decide!
  refine ⟨by decide!, hlast, ?_⟩
  apply (psi_filter_returns toyFilterOps toyModel 2 () (fun _ => []) (fun _ => []) (-5)
    (by decide!)).1
  exact ⟨{ t := 2, sum_weights := some (Dbl.fin 0) }, by decide!, Dbl.fin 0, rfl, by decide!⟩

/-! ### Index vectors -/

theorem map_indexOf_eq_range (l : List Nat) (h : l.Nodup) :
    l.map (fun c => l.indexOf c) = List.range l.length := by
  apply List.ext_getElem
  · simp
  · intro i h1 h2
    simp only [List.getElem_map, List.getElem_range]
    have h3 : i < l.length := by simpa using h1
    exact List.indexOf_getElem h i h3

theorem indexOf_lt_of_sorted (l : List Nat) (hs : l.Sorted (· < ·)) (i j : Nat) (hi : i ∈ l)
    (hj : j ∈ l) (hij : i < j) : l.indexOf i < l.indexOf j := by
  have hi2 : l.indexOf i < l.length := List.indexOf_lt_length.mpr hi
  have hj2 : l.indexOf j < l.length := List.indexOf_lt_length.mpr hj
  have gi : l.get ⟨l.indexOf i, hi2⟩ = i := List.indexOf_get hi2
  have gj : l.get ⟨l.indexOf j, hj2⟩ = j := List.indexOf_get hj2
  by_contra hcon
  rcases Nat.lt_or_ge (l.indexOf j) (l.indexOf i) with hlt | hge
  · have hrel : l.get ⟨l.indexOf j, hj2⟩ < l.get ⟨l.indexOf i, hi2⟩ :=
      hs.rel_get_of_lt (by simpa using hlt)
    rw [gi, gj] at hrel
    omega
  · have heq : l.indexOf i = l.indexOf j := by omega
    have : i = j := by
      rw [← gi, ← gj]
      congr 1
      exact Fin.ext heq
    omega

theorem sum_map_filter_of_zero {F : Type} [AddCommMonoid F] (l : List Nat) (q : Nat → Bool)
    (g : Nat → F) (hz : ∀ c, q c = false → g c = 0) :
    (l.map g).sum = ((l.filter q).map g).sum := by
  induction l with
  | nil => rfl
  | cons a t ih =>
    cases hq : q a with
    | true => simp [List.filter_cons, hq, ih]
    | false => simp [List.filter_cons, hq, ih, hz a hq]

theorem sum_range_eq_list_sum {F : Type} [AddCommMonoid F] (n : Nat) (g : Nat → F) :
    Finset.sum (Finset.range n) g = ((List.range n).map g).sum := by
  induction n with
  | zero => simp
  | succ n ih => simp [Finset.sum_range_succ, List.range_succ, ih]

/-- A sum over all columns of terms that vanish outside an index vector is the sum over
the positions of the index vector. -/
theorem sum_over_index_vector {F : Type} [AddCommMonoid F] (n : Nat) (q : Nat → Bool)
    (h : Nat → F) :
    Finset.sum (Finset.range n)
        (fun c =>
          if c ∈ (List.range n).filter q then h (((List.range n).filter q).indexOf c) else 0) =
      Finset.sum (Finset.range ((List.range n).filter q).length) h := by
  have hnd : ((List.range n).filter q).Nodup := (List.nodup_range n).filter q
  rw [sum_range_eq_list_sum, sum_range_eq_list_sum,
    sum_map_filter_of_zero (List.range n) q _ ?_]
  · rw [← map_indexOf_eq_range _ hnd, List.map_map]
    congr 1
    apply List.map_congr_left
    intro c hc
    simp [hc]
  · intro c hc
    have : c ∉ (List.range n).filter q := by
      intro hmem
      have := (List.mem_filter.mp hmem).2
      rw [hc] at this
      exact Bool.false_ne_true this
    simp [this]

/-! ### The factor returned by `psd_chol` -/

/-- Writing a `k x k` lower-triangular factor of the block `x(I, I)` into the zero matrix
at the rows and columns `I` gives a lower-triangular matrix whose product with its
transpose is `x` on the block and whose other rows and columns are zero. -/
theorem scatter_factor {F : Type} [LinearOrderedField F] (n : Nat) (q : Nat → Bool)
    (l x : Mat F)
    (hr : l.n_rows = ((List.range n).filter q).length)
    (hcl : l.n_cols = ((List.range n).filter q).length) (hlow : l.lower)
    (hprod : ∀ a b, a < ((List.range n).filter q).length →
      b < ((List.range n).filter q).length →
      l.mul_transpose a b =
        x.entry (((List.range n).filter q).getD a 0) (((List.range n).filter q).getD b 0)) :
    ∃ L, (Mat.zeros n n).set_submat ((List.range n).filter q) ((List.range n).filter q) l =
        some L ∧
      L.n_rows = n ∧ L.n_cols = n ∧ L.lower ∧
      (∀ i j, i ∈ (List.range n).filter q → j ∈ (List.range n).filter q →
        L.mul_transpose i j = x.entry i j) ∧
      (∀ i, i ∉ (List.range n).filter q → ∀ j, L.entry i j = 0 ∧ L.entry j i = 0) := by
  have hsorted : ((List.range n).filter q).Sorted (· < ·) := (List.sorted_lt_range n).filter q
  have hset : (Mat.zeros n n).set_submat ((List.range n).filter q) ((List.range n).filter q) l =
      some { (Mat.zeros n n : Mat F) with
        entry := fun i j =>
          if i ∈ (List.range n).filter q ∧ j ∈ (List.range n).filter q then
            l.entry (((List.range n).filter q).indexOf i) (((List.range n).filter q).indexOf j)
          else (Mat.zeros n n : Mat F).entry i j } := by
    simp only [Mat.set_submat, hr, hcl, and_self, if_true]
  refine ⟨_, hset, rfl, rfl, ?_, ?_, ?_⟩
  · intro i j hij _
    show (if i ∈ (List.range n).filter q ∧ j ∈ (List.range n).filter q then _ else _) = _
    by_cases hmem : i ∈ (List.range n).filter q ∧ j ∈ (List.range n).filter q
    · rw [if_pos hmem]
      apply hlow _ _ (indexOf_lt_of_sorted _ hsorted i j hmem.1 hmem.2 hij)
      rw [hcl]
      exact List.indexOf_lt_length.mpr hmem.2
    · rw [if_neg hmem]
      rfl
  · intro i j hi hj
    have hi2 := List.indexOf_lt_length.mpr hi
    have hj2 := List.indexOf_lt_length.mpr hj
    have e : ∀ c,
        (if i ∈ (List.range n).filter q ∧ c ∈ (List.range n).filter q then
            l.entry (((List.range n).filter q).indexOf i) (((List.range n).filter q).indexOf c)
          else (Mat.zeros n n : Mat F).entry i c) *
        (if j ∈ (List.range n).filter q ∧ c ∈ (List.range n).filter q then
            l.entry (((List.range n).filter q).indexOf j) (((List.range n).filter q).indexOf c)
          else (Mat.zeros n n : Mat F).entry j c) =
        if c ∈ (List.range n).filter q then
          l.entry (((List.range n).filter q).indexOf i) (((List.range n).filter q).indexOf c) *
            l.entry (((List.range n).filter q).indexOf j) (((List.range n).filter q).indexOf c)
        else 0 := by
      intro c
      by_cases hcm : c ∈ (List.range n).filter q
      · simp [hi, hj, hcm]
      · simp [hcm, Mat.zeros]
    show Finset.sum (Finset.range n) _ = _
    rw [Finset.sum_congr rfl (fun c _ => e c),
      sum_over_index_vector n q (fun d =>
        l.entry (((List.range n).filter q).indexOf i) d *
          l.entry (((List.range n).filter q).indexOf j) d)]
    have h := hprod _ _ hi2 hj2
    unfold Mat.mul_transpose at h
    rw [hcl] at h
    rw [h, List.getD_eq_getElem _ 0 hi2, List.getD_eq_getElem _ 0 hj2,
      List.getElem_indexOf hi2, List.getElem_indexOf hj2]
  · intro i hi j
    constructor
    · show (if i ∈ (List.range n).filter q ∧ j ∈ (List.range n).filter q then _ else _) = _
      rw [if_neg (fun h => hi h.1)]
      rfl
    · show (if j ∈ (List.range n).filter q ∧ i ∈ (List.range n).filter q then _ else _) = _
      rw [if_neg (fun h => hi h.2)]
      rfl

theorem vec_max_diag_some {F : Type} [LinearOrderedField F] (x : Mat F)
    (hsq : x.n_rows = x.n_cols) (hn : 0 < x.n_cols) : ∃ dmax, vec_max x.diag = some dmax := by
  have hlen : x.diag.length = x.n_cols := by simp [Mat.diag, hsq]
  cases h : x.diag with
  | nil =>
    rw [h] at hlen
    simp at hlen
    omega
  | cons a t => exact ⟨_, rfl⟩

/-- C9 (as amended): for a square matrix `x` such that `arma::chol` succeeds on the block
`x(I, I)` of the indices whose diagonal entry exceeds `max(eps, eps * n_cols * max diagonal)`
(or such that `I` is empty), `psd_chol(x)` returns a lower-triangular matrix `L` of the size
of `x` with `L * L^T = x` on the block and with every row and column outside `I` zero. -/
theorem psd_chol_block_factor {F : Type} [LinearOrderedField F]
    (chol : Mat F → Option (Mat F)) (hc : CholContract chol) (eps : F) (x : Mat F)
    (hsq : x.n_rows = x.n_cols) (hn : 0 < x.n_cols)
    (hok : ∀ dmax, vec_max x.diag = some dmax → nonzero_idx eps x dmax ≠ [] →
      ∃ l, chol (x.submat (nonzero_idx eps x dmax) (nonzero_idx eps x dmax)) = some l) :
    ∃ L, psd_chol chol eps x = some L ∧ L.n_rows = x.n_cols ∧ L.n_cols = x.n_cols ∧ L.lower ∧
      (∀ i j, in_block eps x i → in_block eps x j → L.mul_transpose i j = x.entry i j) ∧
      (∀ i, ¬ in_block eps x i → ∀ j, L.entry i j = 0 ∧ L.entry j i = 0) := by
  obtain ⟨dmax, hd⟩ := vec_max_diag_some x hsq hn
  have hmin : min x.n_rows x.n_cols = x.n_cols := by rw [hsq, Nat.min_self]
  have hnz : nonzero_idx eps x dmax =
      (List.range x.n_cols).filter (fun i => decide (chol_threshold eps x dmax < x.entry i i)) := by
    unfold nonzero_idx
    rw [hmin]
  have hblock : ∀ i, in_block eps x i ↔ i ∈ nonzero_idx eps x dmax := by
    intro i
    constructor
    · rintro ⟨d2, h2, hm⟩
      rw [hd] at h2
      rw [Option.some.inj h2]
      exact hm
    · intro hm
      exact ⟨dmax, hd, hm⟩
  unfold psd_chol
  rw [hd]
  simp only []
  by_cases hk : (nonzero_idx eps x dmax).length > 0
  · rw [if_pos hk]
    obtain ⟨l, hl⟩ := hok dmax hd (List.ne_nil_of_length_pos hk)
    rw [hl]
    simp only []
    obtain ⟨c1, c2, c3, -, c5⟩ := hc _ _ hl
    have c1b : l.n_rows = (nonzero_idx eps x dmax).length := c1
    have c2b : l.n_cols = (nonzero_idx eps x dmax).length := c2
    have c5b : ∀ a b, a < (nonzero_idx eps x dmax).length → b < (nonzero_idx eps x dmax).length →
        l.mul_transpose a b =
          x.entry ((nonzero_idx eps x dmax).getD a 0) ((nonzero_idx eps x dmax).getD b 0) :=
      fun a b ha hb => c5 a b ha hb
    rw [hnz] at c1b c2b c5b ⊢
    obtain ⟨L, h1, h2, h3, h4, h5, h6⟩ := scatter_factor x.n_cols _ l x c1b c2b c3 c5b
    refine ⟨L, h1, h2, h3, h4, ?_, ?_⟩
    · intro i j hi hj
      have hi2 := (hblock i).mp hi
      have hj2 := (hblock j).mp hj
      rw [hnz] at hi2 hj2
      exact h5 i j hi2 hj2
    · intro i hi j
      apply h6 i
      intro hmem
      apply hi
      rw [hblock i, hnz]
      exact hmem
  · rw [if_neg hk]
    have hnil : nonzero_idx eps x dmax = [] := by
      cases hl : nonzero_idx eps x dmax with
      | nil => rfl
      | cons a t =>
        rw [hl] at hk
        simp at hk
    refine ⟨_, rfl, rfl, rfl, ?_, ?_, ?_⟩
    · intro i j _ _
      rfl
    · intro i j hi _
      have := (hblock i).mp hi
      rw [hnil] at this
      simp at this
    · intro i _ j
      exact ⟨rfl, rfl⟩

theorem toyChol_contract : CholContract toyChol := by
  intro a l h
  unfold toyChol at h
  split at h
  · rename_i hcond
    obtain ⟨h1, h2, h3⟩ := hcond
    have hl := Option.some.inj h
    subst hl
    refine ⟨h1.symm, h2.symm, ?_, ?_, ?_⟩
    · intro i j hij hj
      have hj1 : j < 1 := hj
      omega
    · intro i hi
      have hi0 : i = 0 := by omega
      subst hi0
      simp
    · intro i j hi hj
      have hi0 : i = 0 := by omega
      have hj0 : j = 0 := by omega
      subst hi0
      subst hj0
      simp [Mat.mul_transpose, h3]
      norm_num
  · simp at h

/-- C9 (witness): `x = diag(4, 0)`, whose block is the 1 x 1 matrix `(4)` with factor `(2)`. -/
theorem psd_chol_block_factor_witness :
    ∃ L, psd_chol toyChol ((1 : ℚ) / 2 ^ 52) diagMat = some L ∧ L.n_rows = diagMat.n_cols ∧
      L.n_cols = diagMat.n_cols ∧ L.lower ∧
      (∀ i j, in_block ((1 : ℚ) / 2 ^ 52) diagMat i → in_block ((1 : ℚ) / 2 ^ 52) diagMat j →
        L.mul_transpose i j = diagMat.entry i j) ∧
      (∀ i, ¬ in_block ((1 : ℚ) / 2 ^ 52) diagMat i → ∀ j, L.entry i j = 0 ∧ L.entry j i = 0) :=
  psd_chol_block_factor toyChol toyChol_contract ((1 : ℚ) / 2 ^ 52) diagMat rfl (by decide)
    (by
      intro dmax hd _
      have h4 : vec_max diagMat.diag = some 4 := by decide!
      rw [h4] at hd
      rw [← Option.some.inj hd]
      have hnz : nonzero_idx ((1 : ℚ) / 2 ^ 52) diagMat 4 = [0] := by decide!
      rw [hnz]
      exact ⟨_, if_pos ⟨rfl, rfl, by decide!⟩⟩)

/-- C9 (counterexample): the 2 x 2 matrix of ones is symmetric and positive semidefinite
and has the eigenvalue 0 (eigenvector `(1, -1)`), both diagonal entries exceed the
threshold, and the block is the whole singular matrix: whatever routine meets the
guarantees of `arma::chol` fails on it, so `psd_chol` returns no matrix. -/
theorem psd_chol_fails_on_singular_block :
    (∀ i j, onesMat.entry i j = onesMat.entry j i) ∧
    (∀ v : Nat → ℚ,
      0 ≤ Finset.sum (Finset.range 2) (fun i =>
        Finset.sum (Finset.range 2) (fun j => v i * onesMat.entry i j * v j))) ∧
    (∀ i, Finset.sum (Finset.range 2)
      (fun j => onesMat.entry i j * (if j = 0 then 1 else -1)) = 0) ∧
    (∀ i, i < 2 → in_block ((1 : ℚ) / 2 ^ 52) onesMat i) ∧
    ∀ chol, CholContract chol → psd_chol chol ((1 : ℚ) / 2 ^ 52) onesMat = none := by
  have hd : vec_max onesMat.diag = some 1 := by decide!
  have hnz : nonzero_idx ((1 : ℚ) / 2 ^ 52) onesMat 1 = [0, 1] := by decide!
  refine ⟨fun _ _ => rfl, ?_, ?_, ?_, ?_⟩
  · intro v
    have e : Finset.sum (Finset.range 2) (fun i =>
        Finset.sum (Finset.range 2) (fun j => v i * onesMat.entry i j * v j)) =
        (v 0 + v 1) * (v 0 + v 1) := by
      simp [Finset.sum_range_succ, onesMat]
      ring
    rw [e]
    exact mul_self_nonneg _
  · intro i
    simp [Finset.sum_range_succ, onesMat]
  · intro i hi
    refine ⟨1, hd, ?_⟩
    rw [hnz]
    interval_cases i <;> simp
  · intro chol hc
    unfold psd_chol
    rw [hd]
    simp only [hnz]
    cases hl : chol (onesMat.submat [0, 1] [0, 1]) with
    | none => simp
    | some l =>
      exfalso
      obtain ⟨-, c2, c3, c4, c5⟩ := hc _ _ hl
      have hcols : l.n_cols = 2 := c2
      have h01 : l.entry 0 1 = 0 := c3 0 1 (by decide) (by rw [hcols]; decide)
      have h11 : 0 < l.entry 1 1 := c4 1 (by decide)
      have e00 := c5 0 0 (by decide) (by decide)
      have e10 := c5 1 0 (by decide) (by decide)
      have e11 := c5 1 1 (by decide) (by decide)
      simp only [Mat.mul_transpose, hcols, Finset.sum_range_succ, Finset.sum_range_zero,
        zero_add, h01, mul_zero, add_zero] at e00 e10 e11
      have v00 : (onesMat.submat [0, 1] [0, 1]).entry 0 0 = 1 := rfl
      have v10 : (onesMat.submat [0, 1] [0, 1]).entry 1 0 = 1 := rfl
      have v11 : (onesMat.submat [0, 1] [0, 1]).entry 1 1 = 1 := rfl
      rw [v00] at e00
      rw [v10] at e10
      rw [v11] at e11
      have hsq : l.entry 1 0 * l.entry 1 0 = 1 := by
        have : l.entry 1 0 * l.entry 1 0 =
            (l.entry 1 0 * l.entry 0 0) * (l.entry 1 0 * l.entry 0 0) := by
          rw [mul_mul_mul_comm, e00, mul_one]
        rw [this, e10, mul_one]
      rw [hsq] at e11
      have hz : l.entry 1 1 * l.entry 1 1 = 0 := by linarith
      have : l.entry 1 1 = 0 := mul_self_eq_zero.mp hz
      rw [this] at h11
      exact lt_irrefl _ h11

/-! ### The posterior values of the correction stage -/

/-- C10: for every stored draw `i`. Whenever `is_correction_psi` or `is_correction_spdk`
returns, `posterior_storage(i) = prior_storage(i) + approx_loglik_storage(i) +
log(weight_storage(i))`, and whenever `is_correction_bsf` returns, `posterior_storage(i) =
prior_storage(i) + log(weight_storage(i))`. In the single-threaded branch
`is_correction_psi` and `is_correction_bsf` always return, and `is_correction_spdk`
returns when the matrix `scales_storage` binds to the vector parameter of the SPDK
samplers; the log-prior and the approximate log-likelihood in the sum are then the ones the
chain held on entry, the weight is the one the state sampler wrote, and `n_stored` and the
stored parameters and repeat counts are as on entry. -/
theorem is_correction_posterior {Θ AL MD : Type} (ops : CorrOps Θ AL MD) (model : MD)
    (nsim_states : Nat) (const_sim : Bool) (n_threads : Nat) (obj : Chain Θ AL) :
    (∀ o, is_correction_psi ops model nsim_states const_sim n_threads obj = some o →
      ∀ i, o.posterior_storage i =
        Dbl.add (Dbl.add (o.prior_storage i) (o.approx_loglik_storage i))
          (Dbl.log ops.logPos (o.weight_storage i))) ∧
    (∀ o, is_correction_spdk ops model nsim_states const_sim n_threads obj = some o →
      ∀ i, o.posterior_storage i =
        Dbl.add (Dbl.add (o.prior_storage i) (o.approx_loglik_storage i))
          (Dbl.log ops.logPos (o.weight_storage i))) ∧
    (∀ o, is_correction_bsf ops model nsim_states const_sim n_threads obj = some o →
      ∀ i, o.posterior_storage i =
        Dbl.add (o.prior_storage i) (Dbl.log ops.logPos (o.weight_storage i))) ∧
    ((n_threads ≤ 1 ∨ ops.openmp = false) →
      (∃ o, is_correction_psi ops model nsim_states const_sim n_threads obj = some o ∧
        o.n_stored = obj.n_stored ∧ o.theta_storage = obj.theta_storage ∧
        o.count_storage = obj.count_storage ∧
        o.weight_storage =
          (if const_sim then
            state_sampler_psi_is2 ops model nsim_states obj.n_stored obj.theta_storage
              obj.alpha_storage obj.weight_storage obj.y_storage obj.H_storage
              obj.scales_storage
          else
            state_sampler_psi_is1 ops model nsim_states obj.n_stored obj.theta_storage
              obj.alpha_storage obj.weight_storage obj.y_storage obj.H_storage
              obj.scales_storage obj.count_storage).2 ∧
        ∀ i, o.posterior_storage i =
          Dbl.add (Dbl.add (obj.prior_storage i) (obj.approx_loglik_storage i))
            (Dbl.log ops.logPos (o.weight_storage i))) ∧
      (∃ o, is_correction_bsf ops model nsim_states const_sim n_threads obj = some o ∧
        o.n_stored = obj.n_stored ∧ o.theta_storage = obj.theta_storage ∧
        o.count_storage = obj.count_storage ∧
        o.weight_storage =
          (if const_sim then
            state_sampler_bsf_is2 ops model nsim_states obj.approx_loglik_storage
              obj.n_stored obj.theta_storage obj.alpha_storage obj.weight_storage
          else
            state_sampler_bsf_is1 ops model nsim_states obj.approx_loglik_storage
              obj.n_stored obj.theta_storage obj.alpha_storage obj.weight_storage
              obj.count_storage).2 ∧
        ∀ i, o.posterior_storage i =
          Dbl.add (obj.prior_storage i) (Dbl.log ops.logPos (o.weight_storage i))) ∧
      (∀ scales, ops.scales_as_vec obj.scales_storage obj.n_stored = some scales →
        ∃ o, is_correction_spdk ops model nsim_states const_sim n_threads obj = some o ∧
          o.n_stored = obj.n_stored ∧ o.theta_storage = obj.theta_storage ∧
          o.count_storage = obj.count_storage ∧
          o.weight_storage =
            (if const_sim then
              state_sampler_spdk_is2 ops model nsim_states obj.n_stored obj.theta_storage
                obj.alpha_storage obj.weight_storage obj.y_storage obj.H_storage scales
            else
              state_sampler_spdk_is1 ops model nsim_states obj.n_stored obj.theta_storage
                obj.alpha_storage obj.weight_storage obj.y_storage obj.H_storage scales
                obj.count_storage).2 ∧
          ∀ i, o.posterior_storage i =
            Dbl.add (Dbl.add (obj.prior_storage i) (obj.approx_loglik_storage i))
              (Dbl.log ops.logPos (o.weight_storage i))) ∧
      (ops.scales_as_vec obj.scales_storage obj.n_stored = none →
        is_correction_spdk ops model nsim_states const_sim n_threads obj = none)) := by
  refine ⟨?_, ?_, ?_, ?_⟩
  · intro o h i
    unfold is_correction_psi at h
    cases hs : psi_stage ops model nsim_states const_sim n_threads obj with
    | none => rw [hs] at h; simp at h
    | some o1 =>
      rw [hs] at h
      have := Option.some.inj h
      subst this
      rfl
  · intro o h i
    unfold is_correction_spdk at h
    cases hs : spdk_stage ops model nsim_states const_sim n_threads obj with
    | none => rw [hs] at h; simp at h
    | some o1 =>
      rw [hs] at h
      have := Option.some.inj h
      subst this
      rfl
  · intro o h i
    unfold is_correction_bsf at h
    cases hs : bsf_stage ops model nsim_states const_sim n_threads obj with
    | none => rw [hs] at h; simp at h
    | some o1 =>
      rw [hs] at h
      have := Option.some.inj h
      subst this
      rfl
  · intro hsingle
    have hcond : ¬ (n_threads > 1 ∧ ops.openmp = true) := by
      rintro ⟨h1, h2⟩
      rcases hsingle with h3 | h3
      · omega
      · rw [h3] at h2
        exact Bool.false_ne_true h2
    refine ⟨?_, ?_, ?_, ?_⟩
    · unfold is_correction_psi psi_stage
      simp only [hcond, if_false]
      exact ⟨_, rfl, rfl, rfl, rfl, rfl, fun _ => rfl⟩
    · unfold is_correction_bsf bsf_stage
      simp only [hcond, if_false]
      exact ⟨_, rfl, rfl, rfl, rfl, rfl, fun _ => rfl⟩
    · intro scales hsc
      unfold is_correction_spdk spdk_stage
      simp only [hcond, if_false, hsc]
      exact ⟨_, rfl, rfl, rfl, rfl, rfl, fun _ => rfl⟩
    · intro hsc
      unfold is_correction_spdk spdk_stage
      simp only [hcond, if_false, hsc]

/-- C10 (witness): one stored draw with log-prior 2 and approximate log-likelihood 7, run
on one thread. The SPDK correction returns with weight 3, whose logarithm is 2 in the
instance, and posterior value `2 + 7 + 2 = 11`; the psi correction returns with weight
`exp(0) = 1`, whose logarithm is 0, and posterior value `2 + 7 + 0 = 9`. -/
theorem is_correction_posterior_witness :
    (∃ o, is_correction_spdk columnCorrOps () 4 true 1 oneDraw = some o ∧
      o.weight_storage 0 = Dbl.fin 3 ∧ o.posterior_storage 0 = Dbl.fin 11) ∧
    (∃ o, is_correction_psi columnCorrOps () 4 true 1 oneDraw = some o ∧
      o.weight_storage 0 = Dbl.fin 1 ∧ o.posterior_storage 0 = Dbl.fin 9) := by
  have h := (is_correction_posterior columnCorrOps () 4 true 1 oneDraw).2.2.2 (Or.inl (le_refl 1))
  constructor
  · obtain ⟨o, h1, -, -, -, hw, hp⟩ := h.2.2.1 (fun t => [Dbl.fin 0].getD t Dbl.nan) rfl
    have hw0 : o.weight_storage 0 = Dbl.fin 3 := by
      rw [hw]
      decide!
    refine ⟨o, h1, hw0, ?_⟩
    rw [hp 0, hw0]
    decide!
  · obtain ⟨o, h1, -, -, -, hw, hp⟩ := h.1
    have hw0 : o.weight_storage 0 = Dbl.fin 1 := by
      rw [hw]
      decide!
    refine ⟨o, h1, hw0, ?_⟩
    rw [hp 0, hw0]
    decide!

/-! ### Claims about the correction stage -/

/-- C11 (evaluation of the code): two single-threaded runs of `is_correction_bsf` on chains
that agree on everything but the stored approximate log-likelihood of draw 0 (0 in the
first, 1 in the second), with the same bootstrap-filter output: the weight is
`exp(loglik - approx_loglik_storage(0))`, and the posterior values of draw 0 differ. -/
theorem is_correction_bsf_depends_on_approx_loglik :
    (is_correction_bsf toyCorrOps () 10 true 1 (toyChain 0)).map
        (fun o => (o.weight_storage 0, o.posterior_storage 0)) =
      some (Dbl.fin 1, Dbl.fin 0) ∧
    (is_correction_bsf toyCorrOps () 10 true 1 (toyChain 1)).map
        (fun o => (o.weight_storage 0, o.posterior_storage 0)) =
      some (Dbl.fin (1 / 2), Dbl.fin (-1 / 2)) := by
  decide!

/-- With at least as many stored draws as workers (and `n_stored < 2^32`) the ranges of the
workers are a partition of `[0, n_stored)` into consecutive non-empty intervals. -/
theorem thread_range_partition (n_stored n_threads tid : Nat) (h2 : 2 ≤ n_threads)
    (hle : n_threads ≤ n_stored) (hlt : n_stored < 4294967296) (htid : tid < n_threads) :
    (thread_range n_stored n_threads tid).1 = tid * (n_stored / n_threads) ∧
    (thread_range n_stored n_threads tid).1 ≤ (thread_range n_stored n_threads tid).2 ∧
    (thread_range n_stored n_threads tid).2 < n_stored ∧
    (tid + 1 < n_threads →
      (thread_range n_stored n_threads (tid + 1)).1 =
        (thread_range n_stored n_threads tid).2 + 1) ∧
    (tid + 1 = n_threads → (thread_range n_stored n_threads tid).2 = n_stored - 1) := by
  have hts : 1 ≤ n_stored / n_threads := (Nat.one_le_div_iff (by omega)).mpr hle
  have hmul : n_threads * (n_stored / n_threads) ≤ n_stored := Nat.mul_div_le _ _
  have hA : (tid + 1) * (n_stored / n_threads) ≤ n_threads * (n_stored / n_threads) :=
    Nat.mul_le_mul_right _ (by omega)
  have hB : (tid + 1) * (n_stored / n_threads) =
      tid * (n_stored / n_threads) + n_stored / n_threads := by ring
  have hlast : usub n_threads 1 = n_threads - 1 := by
    unfold usub
    omega
  have hs1 : (tid * (n_stored / n_threads)) % 4294967296 = tid * (n_stored / n_threads) :=
    Nat.mod_eq_of_lt (by omega)
  have hs2 : ((tid + 1) * (n_stored / n_threads)) % 4294967296 =
      (tid + 1) * (n_stored / n_threads) := Nat.mod_eq_of_lt (by omega)
  have he1 : usub ((tid + 1) * (n_stored / n_threads)) 1 =
      (tid + 1) * (n_stored / n_threads) - 1 := by
    unfold usub
    omega
  have he2 : usub n_stored 1 = n_stored - 1 := by
    unfold usub
    omega
  have hfst : ∀ k, k < n_threads → (thread_range n_stored n_threads k).1 =
      (k * (n_stored / n_threads)) % 4294967296 := by
    intro k _
    unfold thread_range
    simp only []
    split <;> rfl
  by_cases hl : tid = n_threads - 1
  · have hsnd : (thread_range n_stored n_threads tid).2 = n_stored - 1 := by
      unfold thread_range
      simp only [hlast, hl, if_true, he2]
    refine ⟨by rw [hfst tid htid, hs1], ?_, ?_, ?_, ?_⟩
    · rw [hfst tid htid, hs1, hsnd]
      omega
    · rw [hsnd]
      omega
    · intro h
      omega
    · intro _
      exact hsnd
  · have hsnd : (thread_range n_stored n_threads tid).2 =
        (tid + 1) * (n_stored / n_threads) - 1 := by
      unfold thread_range
      simp only [hlast, hl, if_false, hs2, he1]
    have hnext : ((tid + 1) * (n_stored / n_threads)) % 4294967296 =
        (tid + 1) * (n_stored / n_threads) := hs2
    refine ⟨by rw [hfst tid htid, hs1], ?_, ?_, ?_, ?_⟩
    · rw [hfst tid htid, hs1, hsnd]
      omega
    · rw [hsnd]
      omega
    · intro h
      rw [hfst (tid + 1) h, hnext, hsnd]
      omega
    · intro h
      omega

/-- C12 (evaluation of the code): with one stored draw and two workers `thread_size` is 0;
worker 0 gets `start = 0` and `end = 0 - 1 = 2^32 - 1`, worker 1 gets `[0, 0]`: the ranges
overlap and the first one leaves `[0, n_stored)`. -/
theorem thread_range_more_threads_than_draws :
    thread_range 1 2 0 = (0, 4294967295) ∧ thread_range 1 2 1 = (0, 0) := by
  decide

/-! ### Claims about `svm_loglik` -/

theorem Dbl.add_fin_zero (x : Dbl) : Dbl.add x (Dbl.fin 0) = x := by
  cases x <;> simp [Dbl.add]

/-- C19: whenever the result `ll` of `model.approx(init_signal, max_iter, conv_tol)` is not
finite, `svm_loglik` returns `-inf` for every `nsim_states` and calls nothing after
`approx` (no state simulation); when `ll` is finite and `nsim_states <= 1` it returns
`model.log_likelihood(false) + ll`. -/
theorem svm_loglik_result {K SIG CUBE : Type} (ops : SvmOps K SIG CUBE) (model : Svm K)
    (init_signal : SIG) (nsim_states : Nat) :
    ((ops.approx (svm_tuned model nsim_states) init_signal
          (svm_tuned model nsim_states).max_iter
          (svm_tuned model nsim_states).conv_tol).2.isFinite = false →
      svm_loglik ops model init_signal nsim_states = (Dbl.ninf, [SvmCall.approx])) ∧
    ((ops.approx (svm_tuned model nsim_states) init_signal
          (svm_tuned model nsim_states).max_iter
          (svm_tuned model nsim_states).conv_tol).2.isFinite = true →
      nsim_states ≤ 1 →
      (svm_loglik ops model init_signal nsim_states).1 =
        Dbl.add
          (ops.log_likelihood
            (ops.approx (svm_tuned model nsim_states) init_signal
              (svm_tuned model nsim_states).max_iter
              (svm_tuned model nsim_states).conv_tol).1 false)
          (ops.approx (svm_tuned model nsim_states) init_signal
            (svm_tuned model nsim_states).max_iter
            (svm_tuned model nsim_states).conv_tol).2) := by
  constructor
  · intro h
    unfold svm_loglik
    simp only [h, Bool.not_false, if_true]
  · intro h hn
    have hn2 : ¬ nsim_states > 1 := by omega
    unfold svm_loglik
    simp only [h, Bool.not_true, Bool.false_eq_true, if_false, hn2, Dbl.add_fin_zero]

/-- C19 (witness): the surrogate builder returns NaN and 5 state samples are requested;
with the value 2 and one state sample the result is `3 + 2`. -/
theorem svm_loglik_result_witness :
    svm_loglik toySvmOps { max_iter := 50, conv_tol := Dbl.fin (1 / 100), core := Dbl.nan } ()
        5 = (Dbl.ninf, [SvmCall.approx]) ∧
    (svm_loglik toySvmOps { max_iter := 50, conv_tol := Dbl.fin (1 / 100), core := Dbl.fin 2 }
        () 1).1 = Dbl.fin 5 := by
  refine ⟨(svm_loglik_result toySvmOps
      { max_iter := 50, conv_tol := Dbl.fin (1 / 100), core := Dbl.nan } () 5).1 rfl, ?_⟩
  rw [(svm_loglik_result toySvmOps
      { max_iter := 50, conv_tol := Dbl.fin (1 / 100), core := Dbl.fin 2 } () 1).2 rfl
      (by decide)]
  decide!

/-! ### Claims about the interruption of the sampler -/

/-- When an interruption is signalled at a check among the passes `j+1..j+k`, the loop
stops at the first such check, in the state reached by the passes before it. -/
theorem loop_interrupt (ops : Ops Θ U SM M A) (cfg : Config) (draws : Nat → Draw U)
    (st : Sampler Θ SM M A) (k : Nat) :
    ∀ j, (∃ i, j < i ∧ i ≤ j + k ∧ i % 16 = 0 ∧ (draws i).interrupt = true) →
      ∃ i, j < i ∧ i ≤ j + k ∧ i % 16 = 0 ∧ (draws i).interrupt = true ∧
        (∀ i2, j < i2 → i2 < i → ¬ (i2 % 16 = 0 ∧ (draws i2).interrupt = true)) ∧
        loop ops cfg draws k (j + 1) (run_to ops cfg draws st j) =
          .error (run_to ops cfg draws st (i - 1)) := by
  induction k with
  | zero =>
    rintro j ⟨i, h1, h2, -⟩
    omega
  | succ k ih =>
    rintro j ⟨i, h1, h2, h3, h4⟩
    by_cases hc : (j + 1) % 16 = 0 ∧ (draws (j + 1)).interrupt = true
    · refine ⟨j + 1, by omega, by omega, hc.1, hc.2, ?_, ?_⟩
      · intro i2 h5 h6
        omega
      · simp only [loop, hc, and_self, if_true, Nat.add_sub_cancel]
    · have hne : i ≠ j + 1 := by
        intro he
        rw [he] at h3 h4
        exact hc ⟨h3, h4⟩
      obtain ⟨i3, g1, g2, g3, g4, g5, g6⟩ :=
        ih (j + 1) ⟨i, by omega, by omega, h3, h4⟩
      refine ⟨i3, by omega, by omega, g3, g4, ?_, ?_⟩
      · intro i2 h5 h6
        by_cases he : i2 = j + 1
        · rw [he]
          exact hc
        · exact g5 i2 (by omega) h6
      · simp only [loop, hc, if_false]
        exact g6

/-- C17 (as amended): when the interruption check signals cancellation at a pass
`i <= n_iter` with `i mod 16 = 0`, `approx_mcmc` is left at the first such pass by the
exception, in the state reached by the passes before it, and `trim_storage` is not
executed: every storage array keeps the `n_samples` entries it was allocated with. After a
normal completion every storage array has exactly `n_stored` entries. -/
theorem approx_mcmc_interrupt_sizes (ops : Ops Θ U SM M A) (cfg : Config)
    (draws : Nat → Draw U) (model : M) (obj : Members Θ SM) :
    ((∃ i, 1 ≤ i ∧ i ≤ cfg.n_iter ∧ i % 16 = 0 ∧ (draws i).interrupt = true) →
      ∃ i, 1 ≤ i ∧ i ≤ cfg.n_iter ∧ i % 16 = 0 ∧ (draws i).interrupt = true ∧
        (∀ i2, 1 ≤ i2 → i2 < i → ¬ (i2 % 16 = 0 ∧ (draws i2).interrupt = true)) ∧
        approx_mcmc ops cfg draws model obj =
          .error (run_to ops cfg draws (init ops cfg model obj) (i - 1)) ∧
        approx_mcmc_sizes ops cfg draws model obj = allocated_sizes cfg) ∧
    ((∀ i, i % 16 = 0 → (draws i).interrupt = false) →
      ∃ st, approx_mcmc ops cfg draws model obj = .ok st ∧
        approx_mcmc_sizes ops cfg draws model obj =
          trim_storage st.n_stored (allocated_sizes cfg) ∧
        (approx_mcmc_sizes ops cfg draws model obj).theta_storage = st.n_stored ∧
        (approx_mcmc_sizes ops cfg draws model obj).count_storage = st.n_stored ∧
        (approx_mcmc_sizes ops cfg draws model obj).prior_storage = st.n_stored ∧
        (approx_mcmc_sizes ops cfg draws model obj).approx_loglik_storage = st.n_stored ∧
        (approx_mcmc_sizes ops cfg draws model obj).y_storage = st.n_stored ∧
        (approx_mcmc_sizes ops cfg draws model obj).H_storage = st.n_stored ∧
        (approx_mcmc_sizes ops cfg draws model obj).scales_storage = st.n_stored ∧
        (approx_mcmc_sizes ops cfg draws model obj).weight_storage = st.n_stored) := by
  constructor
  · rintro ⟨i, h1, h2, h3, h4⟩
    obtain ⟨i3, g1, g2, g3, g4, g5, g6⟩ :=
      loop_interrupt ops cfg draws (init ops cfg model obj) cfg.n_iter 0
        ⟨i, by omega, by omega, h3, h4⟩
    have e0 : run_to ops cfg draws (init ops cfg model obj) 0 = init ops cfg model obj := rfl
    rw [e0] at g6
    have hrun : approx_mcmc ops cfg draws model obj =
        .error (run_to ops cfg draws (init ops cfg model obj) (i3 - 1)) := by
      unfold approx_mcmc
      rw [g6]
    refine ⟨i3, by omega, by omega, g3, g4, ?_, hrun, ?_⟩
    · intro i2 h5 h6
      exact g5 i2 (by omega) h6
    · unfold approx_mcmc_sizes
      rw [hrun]
  · intro hno
    have hrun := approx_mcmc_no_interrupt ops cfg draws model obj hno
    refine ⟨_, hrun, ?_, ?_, ?_, ?_, ?_, ?_, ?_, ?_, ?_⟩ <;>
    · unfold approx_mcmc_sizes
      rw [hrun]
      try rfl

/-- C17 (witness): 32 iterations without burn-in or thinning, an interruption signalled at
iteration 16. -/
theorem approx_mcmc_interrupt_sizes_witness :
    ∃ i, 1 ≤ i ∧ i ≤ (toyConfig 32 0 1).n_iter ∧ i % 16 = 0 ∧
      (stopDraws i).interrupt = true ∧
      (∀ i2, 1 ≤ i2 → i2 < i → ¬ (i2 % 16 = 0 ∧ (stopDraws i2).interrupt = true)) ∧
      approx_mcmc toyOps (toyConfig 32 0 1) stopDraws 0 toyMembers =
        .error (run_to toyOps (toyConfig 32 0 1) stopDraws
          (init toyOps (toyConfig 32 0 1) 0 toyMembers) (i - 1)) ∧
      approx_mcmc_sizes toyOps (toyConfig 32 0 1) stopDraws 0 toyMembers =
        allocated_sizes (toyConfig 32 0 1) :=
  (approx_mcmc_interrupt_sizes toyOps (toyConfig 32 0 1) stopDraws 0 toyMembers).1
    ⟨16, by decide, by decide, by decide, by decide⟩

/-- C17 (counterexample): 32 iterations without burn-in or thinning, every proposal
accepted, an interruption signalled at iteration 16: the run ends by the exception with
`n_stored = 15`, and every storage array still has its 32 allocated entries. -/
theorem approx_mcmc_interrupted_not_trimmed :
    (approx_mcmc toyOps (toyConfig 32 0 1) stopDraws 0 toyMembers).toBool = false ∧
    (outcome_state (approx_mcmc toyOps (toyConfig 32 0 1) stopDraws 0 toyMembers)).n_stored
      = 15 ∧
    approx_mcmc_sizes toyOps (toyConfig 32 0 1) stopDraws 0 toyMembers =
      { theta_storage := 32, posterior_storage := 32, count_storage := 32,
        alpha_storage := 32, weight_storage := 32, scales_storage := 32, y_storage := 32,
        H_storage := 32, approx_loglik_storage := 32, prior_storage := 32 } := by
  decide!

/-! ### Claims about the psi samplers -/

theorem state_sampler_psi_loop_before {Θ AL MD : Type} (ops : CorrOps Θ AL MD)
    (particles : Nat → Nat) (theta : Nat → Θ) (y H scales : Nat → List Dbl) (k : Nat) :
    ∀ (i : Nat) (model : MD) (out : (Nat → AL) × (Nat → Dbl)) (j : Nat), j < i →
      (state_sampler_psi_loop ops particles theta y H scales k i model out).1 j = out.1 j ∧
      (state_sampler_psi_loop ops particles theta y H scales k i model out).2 j = out.2 j := by
  induction k with
  | zero =>
    intro i model out j _
    exact ⟨rfl, rfl⟩
  | succ k ih =>
    intro i model out j hj
    have hne : j ≠ i := Nat.ne_of_lt hj
    have h := ih (i + 1) (ops.psi_draw model (particles i) (theta i) (y i) (H i) (scales i)).1
      (setSlot out.1 i
          (ops.psi_draw model (particles i) (theta i) (y i) (H i) (scales i)).2.2,
        setSlot out.2 i (Dbl.exp ops.expFin
          (ops.psi_draw model (particles i) (theta i) (y i) (H i) (scales i)).2.1))
      j (by omega)
    simp only [state_sampler_psi_loop]
    rw [h.1, h.2]
    simp [setSlot, hne]

theorem state_sampler_psi_loop_after {Θ AL MD : Type} (ops : CorrOps Θ AL MD)
    (particles : Nat → Nat) (theta : Nat → Θ) (y H scales : Nat → List Dbl) (k : Nat) :
    ∀ (i : Nat) (model : MD) (out : (Nat → AL) × (Nat → Dbl)) (j : Nat), i + k ≤ j →
      (state_sampler_psi_loop ops particles theta y H scales k i model out).1 j = out.1 j ∧
      (state_sampler_psi_loop ops particles theta y H scales k i model out).2 j = out.2 j := by
  induction k with
  | zero =>
    intro i model out j _
    exact ⟨rfl, rfl⟩
  | succ k ih =>
    intro i model out j hj
    have hne : j ≠ i := by omega
    have h := ih (i + 1) (ops.psi_draw model (particles i) (theta i) (y i) (H i) (scales i)).1
      (setSlot out.1 i
          (ops.psi_draw model (particles i) (theta i) (y i) (H i) (scales i)).2.2,
        setSlot out.2 i (Dbl.exp ops.expFin
          (ops.psi_draw model (particles i) (theta i) (y i) (H i) (scales i)).2.1))
      j (by omega)
    simp only [state_sampler_psi_loop]
    rw [h.1, h.2]
    simp [setSlot, hne]

/-- The passes of the psi sampler over the draws `i..i+k-1` serve these draws in order,
one pass each, and the arrays hold the trajectory and weight of each pass at its draw. -/
theorem psi_is1_log_spec {Θ MD AM CUBE AL : Type} (base : CorrOps Θ AL (MD × AM))
    (s : PsiSamplerOps Θ MD AM CUBE AL) (nsim_states : Nat) (theta : Nat → Θ)
    (y H scales : Nat → List Dbl) (counts : Nat → Nat) (k : Nat) :
    ∀ (i : Nat) (st : MD × AM) (out : (Nat → AL) × (Nat → Dbl)),
      (psi_is1_log s nsim_states theta y H scales counts k i st).map (fun r => r.draw) =
        List.range' i k ∧
      ∀ r ∈ psi_is1_log s nsim_states theta y H scales counts k i st,
        r.particles = nsim_states * counts r.draw ∧
        (state_sampler_psi_loop (psi_corr_ops base s) (fun i => nsim_states * counts i) theta
          y H scales k i st out).1 r.draw = r.trajectory ∧
        (state_sampler_psi_loop (psi_corr_ops base s) (fun i => nsim_states * counts i) theta
          y H scales k i st out).2 r.draw = Dbl.exp base.expFin r.value := by
  induction k with
  | zero =>
    intro i st out
    exact ⟨rfl, fun r hr => absurd hr (List.not_mem_nil r)⟩
  | succ k ih =>
    intro i st out
    have hih := ih (i + 1)
      (psi_pass s st i (nsim_states * counts i) (theta i) (y i) (H i) (scales i)).1
      (setSlot out.1 i
          (psi_pass s st i (nsim_states * counts i) (theta i) (y i) (H i)
            (scales i)).2.trajectory,
        setSlot out.2 i (Dbl.exp base.expFin
          (psi_pass s st i (nsim_states * counts i) (theta i) (y i) (H i) (scales i)).2.value))
    have hloop : state_sampler_psi_loop (psi_corr_ops base s)
        (fun i => nsim_states * counts i) theta y H scales (k + 1) i st out =
        state_sampler_psi_loop (psi_corr_ops base s) (fun i => nsim_states * counts i) theta
          y H scales k (i + 1)
          (psi_pass s st i (nsim_states * counts i) (theta i) (y i) (H i) (scales i)).1
          (setSlot out.1 i
              (psi_pass s st i (nsim_states * counts i) (theta i) (y i) (H i)
                (scales i)).2.trajectory,
            setSlot out.2 i (Dbl.exp base.expFin
              (psi_pass s st i (nsim_states * counts i) (theta i) (y i) (H i)
                (scales i)).2.value)) := rfl
    constructor
    · simp only [psi_is1_log, List.map_cons, hih.1, List.range'_succ]
      rfl
    · intro r hr
      simp only [psi_is1_log, List.mem_cons] at hr
      rcases hr with hr | hr
      · subst hr
        have hb := state_sampler_psi_loop_before (psi_corr_ops base s)
          (fun i => nsim_states * counts i) theta y H scales k (i + 1)
          (psi_pass s st i (nsim_states * counts i) (theta i) (y i) (H i) (scales i)).1
          (setSlot out.1 i
              (psi_pass s st i (nsim_states * counts i) (theta i) (y i) (H i)
                (scales i)).2.trajectory,
            setSlot out.2 i (Dbl.exp base.expFin
              (psi_pass s st i (nsim_states * counts i) (theta i) (y i) (H i)
                (scales i)).2.value)) i (Nat.lt_succ_self i)
        rw [hloop]
        refine ⟨rfl, ?_, ?_⟩
        · rw [show (psi_pass s st i (nsim_states * counts i) (theta i) (y i) (H i)
            (scales i)).2.draw = i from rfl, hb.1]
          simp [setSlot]
        · rw [show (psi_pass s st i (nsim_states * counts i) (theta i) (y i) (H i)
            (scales i)).2.draw = i from rfl, hb.2]
          simp [setSlot]
      · rw [hloop]
        exact hih.2 r hr


/-- Every pass recorded by the psi sampler is the body of the loop run for its draw: the
filter runs with `nsim_states * counts(draw)` particles, the weight vector is the column
`n - 1` of the filter weights, one index is drawn from it and that slice is the trajectory. -/
theorem psi_is1_log_mem {Θ MD AM CUBE AL : Type} (s : PsiSamplerOps Θ MD AM CUBE AL)
    (nsim_states : Nat) (theta : Nat → Θ) (y H scales : Nat → List Dbl) (counts : Nat → Nat)
    (k : Nat) :
    ∀ (i : Nat) (st : MD × AM), ∀ r ∈ psi_is1_log s nsim_states theta y H scales counts k i st,
      ∃ st0 : MD × AM,
        r = (psi_pass s st0 r.draw (nsim_states * counts r.draw) (theta r.draw) (y r.draw)
          (H r.draw) (scales r.draw)).2 := by
  induction k with
  | zero =>
    intro i st r hr
    exact absurd hr (List.not_mem_nil r)
  | succ k ih =>
    intro i st r hr
    simp only [psi_is1_log, List.mem_cons] at hr
    rcases hr with hr | hr
    · exact ⟨st, by rw [hr]; rfl⟩
    · exact ih (i + 1) _ r hr

/-- C18 (as amended): `state_sampler_psi_is1` makes one pass per stored draw `i`, in order;
the pass runs the psi filter with `nsim_states * counts(i)` particles, draws ONE index from
the column `n - 1` of the filter weights with `std::discrete_distribution`, and stores that
single trajectory in `alpha.slice(i)` and `exp` of the filter value in `weights(i)`; nothing
else is stored. -/
theorem state_sampler_psi_is1_one_trajectory {Θ MD AM CUBE AL : Type}
    (base : CorrOps Θ AL (MD × AM)) (s : PsiSamplerOps Θ MD AM CUBE AL) (model : MD)
    (nsim_states n_cols : Nat) (theta : Nat → Θ) (alpha : Nat → AL) (weights : Nat → Dbl)
    (y H scales : Nat → List Dbl) (counts : Nat → Nat) :
    (psi_is1_log s nsim_states theta y H scales counts n_cols 0
        (s.approximate_new model)).map (fun r => r.draw) = List.range n_cols ∧
    (∀ r ∈ psi_is1_log s nsim_states theta y H scales counts n_cols 0
        (s.approximate_new model),
      r.particles = nsim_states * counts r.draw ∧
      (∃ st0 : MD × AM,
        r = (psi_pass s st0 r.draw (nsim_states * counts r.draw) (theta r.draw) (y r.draw)
          (H r.draw) (scales r.draw)).2) ∧
      (state_sampler_psi_is1 (psi_corr_ops base s) (s.approximate_new model) nsim_states
        n_cols theta alpha weights y H scales counts).1 r.draw = r.trajectory ∧
      (state_sampler_psi_is1 (psi_corr_ops base s) (s.approximate_new model) nsim_states
        n_cols theta alpha weights y H scales counts).2 r.draw =
          Dbl.exp base.expFin r.value) ∧
    ∀ j, n_cols ≤ j →
      (state_sampler_psi_is1 (psi_corr_ops base s) (s.approximate_new model) nsim_states
        n_cols theta alpha weights y H scales counts).1 j = alpha j ∧
      (state_sampler_psi_is1 (psi_corr_ops base s) (s.approximate_new model) nsim_states
        n_cols theta alpha weights y H scales counts).2 j = weights j := by
  have hspec := psi_is1_log_spec base s nsim_states theta y H scales counts n_cols 0
    (s.approximate_new model) (alpha, weights)
  refine ⟨?_, ?_, ?_⟩
  · rw [hspec.1, List.range_eq_range']
  · intro r hr
    have h := hspec.2 r hr
    exact ⟨h.1, psi_is1_log_mem s nsim_states theta y H scales counts n_cols 0 _ r hr,
      h.2.1, h.2.2⟩
  · intro j hj
    exact state_sampler_psi_loop_after (psi_corr_ops base s) (fun i => nsim_states * counts i)
      theta y H scales n_cols 0 (s.approximate_new model) (alpha, weights) j (by omega)

/-- C18 (counterexample): with one stored draw whose repeat count is 2 and
`nsim_states = 1`, `state_sampler_psi_is1` runs the filter with 2 particles and makes a
single index draw for draw 0: one trajectory is drawn, not `counts(0) = 2`. -/
theorem state_sampler_psi_is1_single_draw :
    (psi_is1_log toyPsiSamplerOps 1 (fun _ => 0) (fun _ => []) (fun _ => []) (fun _ => [])
        (fun _ => 2) 1 0 (toyPsiSamplerOps.approximate_new 0)).map
      (fun r => (r.draw, r.particles, r.w, r.sampled)) = [(0, 2, [Dbl.fin 1, Dbl.fin 1], 0)] ∧
    ((psi_is1_log toyPsiSamplerOps 1 (fun _ => 0) (fun _ => []) (fun _ => []) (fun _ => [])
        (fun _ => 2) 1 0 (toyPsiSamplerOps.approximate_new 0)).filter
      (fun r => decide (r.draw = 0))).length = 1 ∧
    (psi_pass toyPsiSamplerOps (toyPsiSamplerOps.approximate_new 0) 0 (1 * 2) 0 [] [] []).1.1
      = 1 := by
  decide!


/-- C18 (as amended), on the small psi sampler with two stored draws of repeat count 2:
the passes serve the draws 0 and 1, one pass each. -/
theorem state_sampler_psi_is1_one_trajectory_witness :
    (psi_is1_log toyPsiSamplerOps 1 (fun _ => 0) (fun _ => []) (fun _ => []) (fun _ => [])
        (fun _ => 2) 2 0 (toyPsiSamplerOps.approximate_new 0)).map (fun r => r.draw) =
      List.range 2 :=
  (state_sampler_psi_is1_one_trajectory toyPsiCorrOps toyPsiSamplerOps 0 1 2 (fun _ => 0)
    (fun _ => ()) (fun _ => Dbl.zero) (fun _ => []) (fun _ => []) (fun _ => [])
    (fun _ => 2)).1


/-! ### Claims about the parameter update and the approximation flag -/

/-- The approximation flag stays among -1, 0, 1 under `update_model` and `approximate`. -/
theorem approx_state_range {Θ CUBE MAT VEC G : Type} (ops : MngOps Θ CUBE MAT VEC G)
    (new_theta : Θ) (mdl : SsmMng (Core Θ CUBE MAT VEC G))
    (h : mdl.approx_state = -1 ∨ mdl.approx_state = 0 ∨ mdl.approx_state = 1) :
    ((update_model ops new_theta mdl).approx_state = -1 ∨
      (update_model ops new_theta mdl).approx_state = 0) ∧
    ((approximate ops mdl).approx_state = 1) := by
  rcases h with h | h | h <;> simp [update_model, approximate, rebuild_surrogate, h]

/-- The update block of `approximate` copies the system matrices of the model into the
surrogate and sets the flag to 1. -/
theorem rebuild_surrogate_system {Θ CUBE MAT VEC G : Type} (ops : MngOps Θ CUBE MAT VEC G)
    (mdl : SsmMng (Core Θ CUBE MAT VEC G)) :
    (rebuild_surrogate ops mdl).approx_state = 1 ∧
    (rebuild_surrogate ops mdl).core.approx_model.Z = mdl.core.Z ∧
    (rebuild_surrogate ops mdl).core.approx_model.T = mdl.core.T ∧
    (rebuild_surrogate ops mdl).core.approx_model.R = mdl.core.R ∧
    (rebuild_surrogate ops mdl).core.approx_model.a1 = mdl.core.a1 ∧
    (rebuild_surrogate ops mdl).core.approx_model.P1 = mdl.core.P1 ∧
    (rebuild_surrogate ops mdl).core.approx_model.D = mdl.core.D ∧
    (rebuild_surrogate ops mdl).core.approx_model.C = mdl.core.C ∧
    (rebuild_surrogate ops mdl).core.approx_model.RR = mdl.core.RR := by
  unfold rebuild_surrogate
  by_cases hc : ((!mdl.core.local_approx) && decide (mdl.approx_state = 0)) = true
  · simp [hc]
  · simp [hc]

theorem psi_filter_model {K P : Type} (ops : FilterOps K P) (mdl : SsmMng K) (nsim : Nat)
    (alpha : P) (weights : Nat → List Dbl) (indices : Nat → List Nat) :
    (psi_filter ops mdl nsim alpha weights indices).1 = psi_prelude ops mdl := by
  unfold psi_filter
  simp only []
  split <;> rfl

/-- What a rebuild of the surrogate from the model `src` leaves in the model `res`: the
flag is 1, the update block of `approximate` has run once more, and the system matrices of
the surrogate are those of `src`. -/
theorem rebuild_surrogate_effect {Θ CUBE MAT VEC G : Type} (ops : MngOps Θ CUBE MAT VEC G)
    (mdl : SsmMng (Core Θ CUBE MAT VEC G)) :
    (rebuild_surrogate ops mdl).approx_state = 1 ∧
    (rebuild_surrogate ops mdl).core.rebuilds = mdl.core.rebuilds + 1 ∧
    (rebuild_surrogate ops mdl).core.theta = mdl.core.theta ∧
    (rebuild_surrogate ops mdl).core.approx_model.Z = mdl.core.Z ∧
    (rebuild_surrogate ops mdl).core.approx_model.T = mdl.core.T ∧
    (rebuild_surrogate ops mdl).core.approx_model.R = mdl.core.R ∧
    (rebuild_surrogate ops mdl).core.approx_model.a1 = mdl.core.a1 ∧
    (rebuild_surrogate ops mdl).core.approx_model.P1 = mdl.core.P1 ∧
    (rebuild_surrogate ops mdl).core.approx_model.D = mdl.core.D ∧
    (rebuild_surrogate ops mdl).core.approx_model.C = mdl.core.C ∧
    (rebuild_surrogate ops mdl).core.approx_model.RR = mdl.core.RR := by
  unfold rebuild_surrogate
  by_cases hc : ((!mdl.core.local_approx) && decide (mdl.approx_state = 0)) = true
  · simp [hc]
  · simp [hc]

/-- The statements under `if(approx_state != 1)`, run on a model whose flag is below 1,
rebuild the surrogate from the model. -/
theorem refresh_approx_effect {Θ CUBE MAT VEC G P : Type} (ops : MngOps Θ CUBE MAT VEC G)
    (base : FilterOps (Core Θ CUBE MAT VEC G) P) (mdl : SsmMng (Core Θ CUBE MAT VEC G))
    (hlt : mdl.approx_state < 1) :
    (refresh_approx (mng_filter_ops base ops) mdl).approx_state = 1 ∧
    (refresh_approx (mng_filter_ops base ops) mdl).core.rebuilds = mdl.core.rebuilds + 1 ∧
    (refresh_approx (mng_filter_ops base ops) mdl).core.theta = mdl.core.theta ∧
    (refresh_approx (mng_filter_ops base ops) mdl).core.approx_model.Z = mdl.core.Z ∧
    (refresh_approx (mng_filter_ops base ops) mdl).core.approx_model.T = mdl.core.T ∧
    (refresh_approx (mng_filter_ops base ops) mdl).core.approx_model.R = mdl.core.R ∧
    (refresh_approx (mng_filter_ops base ops) mdl).core.approx_model.a1 = mdl.core.a1 ∧
    (refresh_approx (mng_filter_ops base ops) mdl).core.approx_model.P1 = mdl.core.P1 ∧
    (refresh_approx (mng_filter_ops base ops) mdl).core.approx_model.D = mdl.core.D ∧
    (refresh_approx (mng_filter_ops base ops) mdl).core.approx_model.C = mdl.core.C ∧
    (refresh_approx (mng_filter_ops base ops) mdl).core.approx_model.RR = mdl.core.RR := by
  have h := rebuild_surrogate_effect ops
    { mdl with core := { mdl.core with mode_estimate := mdl.core.initial_mode } }
  have e : (refresh_approx (mng_filter_ops base ops) mdl).core =
      (rebuild_surrogate ops
        { mdl with core := { mdl.core with mode_estimate := mdl.core.initial_mode } }).core := by
    simp only [refresh_approx, mng_filter_ops, approximate, hlt, if_true]
  have e2 : (refresh_approx (mng_filter_ops base ops) mdl).approx_state =
      (rebuild_surrogate ops
        { mdl with core := { mdl.core with mode_estimate := mdl.core.initial_mode } }).approx_state := by
    simp only [refresh_approx, mng_filter_ops, approximate, hlt, if_true]
  rw [e, e2]
  exact h

/-- C13 (counterexample): the small model instance with a built surrogate (flag 1) gets
the parameter 7 by `update_model`, which sets the flag to 0; the next call of
`log_likelihood` with `method = 2` (bootstrap filter) and `nsim = 2` returns with the flag
still 0, the update block of `approximate` not run and the surrogate as it was: this call
does not rebuild the surrogate. -/
theorem log_likelihood_bsf_keeps_stale_surrogate :
    (update_model toyMngOps 7 (toyMng 1)).approx_state = 0 ∧
    (log_likelihood (mng_filter_ops toyMngFilterOps toyMngOps) (fun _ _ => ()) 2 2
      (update_model toyMngOps 7 (toyMng 1)) () (fun _ => []) (fun _ => [])).model.approx_state
      = 0 ∧
    (log_likelihood (mng_filter_ops toyMngFilterOps toyMngOps) (fun _ _ => ()) 2 2
      (update_model toyMngOps 7 (toyMng 1)) () (fun _ => [])
      (fun _ => [])).model.core.rebuilds = (toyMng 1).core.rebuilds ∧
    (log_likelihood (mng_filter_ops toyMngFilterOps toyMngOps) (fun _ _ => ()) 2 2
      (update_model toyMngOps 7 (toyMng 1)) () (fun _ => [])
      (fun _ => [])).model.core.approx_model = (toyMng 1).core.approx_model :=
  ⟨rfl, rfl, rfl, rfl⟩

/-- C13 (amended): after `update_model(new_theta)`, from each value -1, 0, 1 of the
approximation flag, `theta` is `new_theta` and the flag is not 1 (-1 stays -1, 1 becomes
0). The next call of `approximate`, the next `psi_filter`, and the next `log_likelihood`
other than its bootstrap branch (that is, with `nsim = 0` or `method != 2`) rebuild the
surrogate: the model they leave has the flag 1, the update block of `approximate` has run
once more, the parameter is still `new_theta`, and the system matrices of the surrogate
are those of the updated model. The bootstrap branch of `log_likelihood` (`method = 2`,
`nsim > 0`) leaves the model as `update_model` left it. -/
theorem update_model_invalidates {Θ CUBE MAT VEC G P : Type} (ops : MngOps Θ CUBE MAT VEC G)
    (base : FilterOps (Core Θ CUBE MAT VEC G) P)
    (simulate_states : SsmMng (Core Θ CUBE MAT VEC G) → Nat → P) (new_theta : Θ)
    (mdl : SsmMng (Core Θ CUBE MAT VEC G))
    (hflag : mdl.approx_state = -1 ∨ mdl.approx_state = 0 ∨ mdl.approx_state = 1) :
    (update_model ops new_theta mdl).core.theta = new_theta ∧
    (update_model ops new_theta mdl).approx_state ≠ 1 ∧
    (mdl.approx_state = -1 → (update_model ops new_theta mdl).approx_state = -1) ∧
    (mdl.approx_state = 1 → (update_model ops new_theta mdl).approx_state = 0) ∧
    (update_model ops new_theta mdl).core.rebuilds = mdl.core.rebuilds ∧
    (update_model ops new_theta mdl).core.Z = (ops.update_fn new_theta).Z.getD mdl.core.Z ∧
    (update_model ops new_theta mdl).core.T = (ops.update_fn new_theta).T.getD mdl.core.T ∧
    (∀ res : SsmMng (Core Θ CUBE MAT VEC G),
      (res = approximate ops (update_model ops new_theta mdl) ∨
        (∃ nsim alpha weights indices,
          res = (psi_filter (mng_filter_ops base ops) (update_model ops new_theta mdl) nsim
            alpha weights indices).1) ∨
        (∃ method nsim alpha weights indices, (nsim = 0 ∨ method ≠ 2) ∧
          res = (log_likelihood (mng_filter_ops base ops) simulate_states method nsim
            (update_model ops new_theta mdl) alpha weights indices).model)) →
      res.approx_state = 1 ∧
      res.core.rebuilds = mdl.core.rebuilds + 1 ∧
      res.core.theta = new_theta ∧
      res.core.approx_model.Z = (update_model ops new_theta mdl).core.Z ∧
      res.core.approx_model.T = (update_model ops new_theta mdl).core.T ∧
      res.core.approx_model.R = (update_model ops new_theta mdl).core.R ∧
      res.core.approx_model.a1 = (update_model ops new_theta mdl).core.a1 ∧
      res.core.approx_model.P1 = (update_model ops new_theta mdl).core.P1 ∧
      res.core.approx_model.D = (update_model ops new_theta mdl).core.D ∧
      res.core.approx_model.C = (update_model ops new_theta mdl).core.C ∧
      res.core.approx_model.RR = (update_model ops new_theta mdl).core.RR) ∧
    (∀ nsim alpha weights indices, 0 < nsim →
      (log_likelihood (mng_filter_ops base ops) simulate_states 2 nsim
        (update_model ops new_theta mdl) alpha weights indices).model =
        update_model ops new_theta mdl) := by
  have hne : (update_model ops new_theta mdl).approx_state ≠ 1 := by
    rcases hflag with h | h | h <;> simp [update_model, h]
  have hlt : (update_model ops new_theta mdl).approx_state < 1 := by
    rcases hflag with h | h | h <;> simp [update_model, h]
  have hreb : (update_model ops new_theta mdl).core.rebuilds = mdl.core.rebuilds := rfl
  have hth : (update_model ops new_theta mdl).core.theta = new_theta := rfl
  have hrefresh := refresh_approx_effect ops base (update_model ops new_theta mdl) hlt
  rw [hreb, hth] at hrefresh
  have hrefresh1 : (refresh_approx (mng_filter_ops base ops)
      (update_model ops new_theta mdl)).approx_state = 1 := hrefresh.1
  refine ⟨rfl, hne, ?_, ?_, rfl, rfl, rfl, ?_, ?_⟩
  · intro h
    simp [update_model, h]
  · intro h
    simp [update_model, h]
  · intro res hres
    rcases hres with h | ⟨nsim, alpha, weights, indices, h⟩ |
      ⟨method, nsim, alpha, weights, indices, hm, h⟩
    · have e : approximate ops (update_model ops new_theta mdl) =
          rebuild_surrogate ops (update_model ops new_theta mdl) := by
        simp only [approximate, hlt, if_true]
      rw [h, e]
      have hr := rebuild_surrogate_effect ops (update_model ops new_theta mdl)
      rw [hreb, hth] at hr
      exact hr
    · have e : (psi_filter (mng_filter_ops base ops) (update_model ops new_theta mdl) nsim
          alpha weights indices).1 =
          refresh_approx (mng_filter_ops base ops) (update_model ops new_theta mdl) := by
        rw [psi_filter_model]
        simp only [psi_prelude, refresh_approx, hne, ne_eq, not_false_eq_true, if_true]
      rw [h, e]
      exact hrefresh
    · have e : (log_likelihood (mng_filter_ops base ops) simulate_states method nsim
          (update_model ops new_theta mdl) alpha weights indices).model =
          refresh_approx (mng_filter_ops base ops) (update_model ops new_theta mdl) := by
        by_cases hn : nsim > 0
        · have hm2 : method ≠ 2 := by
            rcases hm with h0 | h2
            · omega
            · exact h2
          by_cases h1 : method = 1
          · subst h1
            have e1 : log_likelihood (mng_filter_ops base ops) simulate_states 1 nsim
                (update_model ops new_theta mdl) alpha weights indices =
                loglik_tail (mng_filter_ops base ops) simulate_states 1 nsim
                  (refresh_approx (mng_filter_ops base ops) (update_model ops new_theta mdl))
                  alpha weights indices := by
              simp [log_likelihood, hn, hne]
            rw [e1]
            simp only [loglik_tail, if_true]
            rw [psi_filter_model]
            simp only [psi_prelude, hrefresh1, ne_eq, not_true_eq_false, if_false]
          · have e1 : log_likelihood (mng_filter_ops base ops) simulate_states method nsim
                (update_model ops new_theta mdl) alpha weights indices =
                loglik_tail (mng_filter_ops base ops) simulate_states method nsim
                  (refresh_approx (mng_filter_ops base ops) (update_model ops new_theta mdl))
                  alpha weights indices := by
              simp [log_likelihood, hn, hne, hm2]
            rw [e1]
            simp only [loglik_tail, h1, if_false]
        · simp only [log_likelihood, hn, hne, ne_eq, not_false_eq_true, if_true, if_false]
      rw [h, e]
      exact hrefresh
  · intro nsim alpha weights indices hn
    simp [log_likelihood, hn]

/-- C13 (witness): on the small model instance with a built surrogate (flag 1), after the
update the parameter is 7 and the flag is 0; the next `approximate` leaves the flag 1, has
run the update block once, and the mode loop has written the surrogate once. -/
theorem update_model_invalidates_witness :
    ((toyMng 1).approx_state = -1 ∨ (toyMng 1).approx_state = 0 ∨
      (toyMng 1).approx_state = 1) ∧
    (update_model toyMngOps 7 (toyMng 1)).core.theta = 7 ∧
    (update_model toyMngOps 7 (toyMng 1)).approx_state = 0 ∧
    (approximate toyMngOps (update_model toyMngOps 7 (toyMng 1))).approx_state = 1 ∧
    (approximate toyMngOps (update_model toyMngOps 7 (toyMng 1))).core.rebuilds = 0 + 1 ∧
    (approximate toyMngOps (update_model toyMngOps 7 (toyMng 1))).core.approx_model.rest = 1 :=
  ⟨Or.inr (Or.inr rfl),
    (update_model_invalidates toyMngOps toyMngFilterOps (fun _ _ => ()) 7 (toyMng 1)
      (Or.inr (Or.inr rfl))).1,
    (update_model_invalidates toyMngOps toyMngFilterOps (fun _ _ => ()) 7 (toyMng 1)
      (Or.inr (Or.inr rfl))).2.2.2.1 rfl,
    ((update_model_invalidates toyMngOps toyMngFilterOps (fun _ _ => ()) 7 (toyMng 1)
      (Or.inr (Or.inr rfl))).2.2.2.2.2.2.2.1 _ (Or.inl rfl)).1,
    ((update_model_invalidates toyMngOps toyMngFilterOps (fun _ _ => ()) 7 (toyMng 1)
      (Or.inr (Or.inr rfl))).2.2.2.2.2.2.2.1 _ (Or.inl rfl)).2.1,
    by decide⟩


/-! ### Claims about the numerical kernels -/

theorem laplace_row_static {F : Type} [LinearOrderedField F] (fn : MathFns F)
    (signal : Nat → Nat → F) (d : MngData F) (k : Nat) :
    (laplace_row fn signal d k).distribution = d.distribution ∧
    (laplace_row fn signal d k).y = d.y ∧ (laplace_row fn signal d k).u = d.u ∧
    (laplace_row fn signal d k).phi = d.phi ∧ (laplace_row fn signal d k).p = d.p := by
  unfold laplace_row
  split <;> simp

theorem laplace_row_other {F : Type} [LinearOrderedField F] (fn : MathFns F)
    (signal : Nat → Nat → F) (d : MngData F) (k i t : Nat) (h : i ≠ k) :
    (laplace_row fn signal d k).approx_HH i i t = d.approx_HH i i t ∧
    (laplace_row fn signal d k).approx_y i t = d.approx_y i t := by
  unfold laplace_row
  split <;> simp [h]

theorem laplace_row_congr {F : Type} [LinearOrderedField F] (fn : MathFns F)
    (signal : Nat → Nat → F) (d e : MngData F) (i t : Nat)
    (h1 : e.distribution = d.distribution) (h2 : e.y = d.y) (h3 : e.u = d.u)
    (h4 : e.phi = d.phi) (h5 : e.approx_HH i i t = d.approx_HH i i t)
    (h6 : e.approx_y i t = d.approx_y i t) :
    (laplace_row fn signal e i).approx_HH i i t = (laplace_row fn signal d i).approx_HH i i t ∧
    (laplace_row fn signal e i).approx_y i t = (laplace_row fn signal d i).approx_y i t := by
  unfold laplace_row
  rw [h1]
  split <;> simp [h2, h3, h4, h5, h6]

/-- After the passes `0..k-1` of the loop of `laplace_iter`, row `i < k` holds what the
pass for `i` computes from the model, and the rows from `k` on are untouched. -/
theorem laplace_rows {F : Type} [LinearOrderedField F] (fn : MathFns F)
    (signal : Nat → Nat → F) (d : MngData F) (k : Nat) :
    ((List.range k).foldl (laplace_row fn signal) d).distribution = d.distribution ∧
    ((List.range k).foldl (laplace_row fn signal) d).y = d.y ∧
    ((List.range k).foldl (laplace_row fn signal) d).u = d.u ∧
    ((List.range k).foldl (laplace_row fn signal) d).phi = d.phi ∧
    ∀ i t,
      ((List.range k).foldl (laplace_row fn signal) d).approx_HH i i t =
        (if i < k then (laplace_row fn signal d i).approx_HH i i t else d.approx_HH i i t) ∧
      ((List.range k).foldl (laplace_row fn signal) d).approx_y i t =
        (if i < k then (laplace_row fn signal d i).approx_y i t else d.approx_y i t) := by
  induction k with
  | zero => simp
  | succ k ih =>
    rw [List.range_succ, List.foldl_append]
    simp only [List.foldl_cons, List.foldl_nil]
    obtain ⟨h1, h2, h3, h4, h5⟩ := ih
    have hs := laplace_row_static fn signal ((List.range k).foldl (laplace_row fn signal) d) k
    refine ⟨hs.1.trans h1, hs.2.1.trans h2, hs.2.2.1.trans h3, hs.2.2.2.1.trans h4, ?_⟩
    intro i t
    by_cases hik : i = k
    · subst hik
      have h5i := h5 i t
      simp only [lt_irrefl, if_false] at h5i
      have hc := laplace_row_congr fn signal d
        ((List.range i).foldl (laplace_row fn signal) d) i t h1 h2 h3 h4 h5i.1 h5i.2
      simp only [Nat.lt_succ_self, if_true]
      exact hc
    · have ho := laplace_row_other fn signal
        ((List.range k).foldl (laplace_row fn signal) d) k i t hik
      rw [ho.1, ho.2]
      have h5i := h5 i t
      by_cases hlt : i < k
      · have hlt2 : i < k + 1 := by omega
        simp only [hlt, hlt2, if_true] at h5i ⊢
        exact h5i
      · have hlt2 : ¬ i < k + 1 := by omega
        simp only [hlt, hlt2, if_false] at h5i ⊢
        exact h5i

/-- The pseudo-variance and pseudo-observation that `laplace_iter` leaves for a coordinate
`i < p` are the ones computed by the pass of its loop for `i`. -/
theorem laplace_iter_row {F : Type} [LinearOrderedField F] (fn : MathFns F) (d : MngData F)
    (signal : Nat → Nat → F) (i t : Nat) (hi : i < d.p) :
    (laplace_iter fn d signal).approx_HH i i t = (laplace_row fn signal d i).approx_HH i i t ∧
    (laplace_iter fn d signal).approx_y i t = (laplace_row fn signal d i).approx_y i t := by
  have h := (laplace_rows fn signal d d.p).2.2.2.2 i t
  simp only [hi, if_true] at h
  exact h


/-! ### Derivatives of the log-densities -/

theorem poisson_deriv (a u : ℝ) :
    deriv (fun s => a * s - u * Real.exp s) = fun s => a - u * Real.exp s := by
  funext s
  have h : HasDerivAt (fun s => a * s - u * Real.exp s) (a * 1 - u * Real.exp s) s :=
    ((hasDerivAt_id s).const_mul a).sub ((Real.hasDerivAt_exp s).const_mul u)
  rw [h.deriv, mul_one]

theorem poisson_deriv2 (a u s : ℝ) :
    deriv (deriv (fun s => a * s - u * Real.exp s)) s = -(u * Real.exp s) := by
  rw [poisson_deriv]
  have h : HasDerivAt (fun s => a - u * Real.exp s) (0 - u * Real.exp s) s :=
    (hasDerivAt_const s a).sub ((Real.hasDerivAt_exp s).const_mul u)
  rw [h.deriv, zero_sub]

theorem binomial_deriv (a u : ℝ) :
    deriv (fun s => a * s - u * Real.log (1 + Real.exp s)) =
      fun s => a - u * (Real.exp s / (1 + Real.exp s)) := by
  funext s
  have hpos : (1 + Real.exp s) ≠ 0 := ne_of_gt (by positivity)
  have h : HasDerivAt (fun s => a * s - u * Real.log (1 + Real.exp s))
      (a * 1 - u * (Real.exp s / (1 + Real.exp s))) s :=
    ((hasDerivAt_id s).const_mul a).sub
      ((((Real.hasDerivAt_exp s).const_add 1).log hpos).const_mul u)
  rw [h.deriv, mul_one]

theorem binomial_deriv2 (a u s : ℝ) :
    deriv (deriv (fun s => a * s - u * Real.log (1 + Real.exp s))) s =
      -(u * Real.exp s / (1 + Real.exp s) ^ 2) := by
  rw [binomial_deriv]
  have hpos : (1 + Real.exp s) ≠ 0 := ne_of_gt (by positivity)
  have h : HasDerivAt (fun s => a - u * (Real.exp s / (1 + Real.exp s)))
      (0 - u * ((Real.exp s * (1 + Real.exp s) - Real.exp s * Real.exp s) /
        (1 + Real.exp s) ^ 2)) s :=
    (hasDerivAt_const s a).sub
      (((Real.hasDerivAt_exp s).div ((Real.hasDerivAt_exp s).const_add 1) hpos).const_mul u)
  have he : Real.exp s * (1 + Real.exp s) - Real.exp s * Real.exp s = Real.exp s := by ring
  rw [h.deriv, he, zero_sub, mul_div_assoc]

theorem sv_deriv (c : ℝ) :
    deriv (fun s => -(1 / 2) * (s + c * Real.exp (-s))) =
      fun s => -(1 / 2) * (1 - c * Real.exp (-s)) := by
  funext s
  have h : HasDerivAt (fun s => -(1 / 2) * (s + c * Real.exp (-s)))
      (-(1 / 2) * (1 + c * (Real.exp (-s) * -1))) s :=
    ((hasDerivAt_id s).add (((hasDerivAt_neg s).exp).const_mul c)).const_mul (-(1 / 2))
  rw [h.deriv]
  ring

theorem sv_deriv2 (c s : ℝ) :
    deriv (deriv (fun s => -(1 / 2) * (s + c * Real.exp (-s)))) s =
      -(1 / 2) * (c * Real.exp (-s)) := by
  rw [sv_deriv]
  have h : HasDerivAt (fun s => -(1 / 2) * (1 - c * Real.exp (-s)))
      (-(1 / 2) * (0 - c * (Real.exp (-s) * -1))) s :=
    ((hasDerivAt_const s (1 : ℝ)).sub (((hasDerivAt_neg s).exp).const_mul c)).const_mul
      (-(1 / 2))
  rw [h.deriv]
  ring

theorem negbin_deriv (a u phi : ℝ) (hu : 0 < u) (hphi : 0 < phi) :
    deriv (fun s => a * s - (a + phi) * Real.log (phi + u * Real.exp s)) =
      fun s => a - (a + phi) * (u * Real.exp s / (phi + u * Real.exp s)) := by
  funext s
  have hpos : (phi + u * Real.exp s) ≠ 0 := ne_of_gt (by positivity)
  have h : HasDerivAt (fun s => a * s - (a + phi) * Real.log (phi + u * Real.exp s))
      (a * 1 - (a + phi) * (u * Real.exp s / (phi + u * Real.exp s))) s :=
    ((hasDerivAt_id s).const_mul a).sub
      ((((((Real.hasDerivAt_exp s).const_mul u).const_add phi)).log hpos).const_mul (a + phi))
  rw [h.deriv, mul_one]

theorem negbin_deriv2 (a u phi s : ℝ) (hu : 0 < u) (hphi : 0 < phi) :
    deriv (deriv (fun s => a * s - (a + phi) * Real.log (phi + u * Real.exp s))) s =
      -((a + phi) * phi * u * Real.exp s / (phi + u * Real.exp s) ^ 2) := by
  rw [negbin_deriv a u phi hu hphi]
  have hpos : (phi + u * Real.exp s) ≠ 0 := ne_of_gt (by positivity)
  have h : HasDerivAt (fun s => a - (a + phi) * (u * Real.exp s / (phi + u * Real.exp s)))
      (0 - (a + phi) * ((u * Real.exp s * (phi + u * Real.exp s) -
        u * Real.exp s * (u * Real.exp s)) / (phi + u * Real.exp s) ^ 2)) s :=
    (hasDerivAt_const s a).sub
      (((((Real.hasDerivAt_exp s).const_mul u)).div
        (((Real.hasDerivAt_exp s).const_mul u).const_add phi) hpos).const_mul (a + phi))
  rw [h.deriv]
  field_simp
  ring


/-- C15: for a Poisson coordinate (tag 1) and a binomial coordinate (tag 2) with `u > 0`,
and for a stochastic-volatility coordinate (tag 0) with `|y| >= 1e-4` (and `phi != 0`, so
that its log-density is defined), `laplace_iter` leaves at every time step the
pseudo-variance `HH = -1 / l''(s)` and the pseudo-observation `y~ = s + HH * l'(s)`, with
`s` the signal of that coordinate and time and `l` the log-density of the coordinate. -/
theorem laplace_iter_second_order (fn : MathFns ℝ) (hfn : RealFns fn) (d : MngData ℝ)
    (signal : Nat → Nat → ℝ) (i t : Nat) (hi : i < d.p) :
    (d.distribution i = 1 → 0 < d.u i t →
      (laplace_iter fn d signal).approx_HH i i t =
        -1 / deriv (deriv (fun s => d.y i t * s - d.u i t * Real.exp s)) (signal i t) ∧
      (laplace_iter fn d signal).approx_y i t =
        signal i t + (laplace_iter fn d signal).approx_HH i i t *
          deriv (fun s => d.y i t * s - d.u i t * Real.exp s) (signal i t)) ∧
    (d.distribution i = 2 → 0 < d.u i t →
      (laplace_iter fn d signal).approx_HH i i t =
        -1 / deriv (deriv (fun s => d.y i t * s - d.u i t * Real.log (1 + Real.exp s)))
          (signal i t) ∧
      (laplace_iter fn d signal).approx_y i t =
        signal i t + (laplace_iter fn d signal).approx_HH i i t *
          deriv (fun s => d.y i t * s - d.u i t * Real.log (1 + Real.exp s)) (signal i t)) ∧
    (d.distribution i = 0 → 1 / 10000 ≤ |d.y i t| → d.phi i ≠ 0 →
      (laplace_iter fn d signal).approx_HH i i t =
        -1 / deriv (deriv (fun s => -(1 / 2) * (s + (d.y i t / d.phi i) ^ 2 * Real.exp (-s))))
          (signal i t) ∧
      (laplace_iter fn d signal).approx_y i t =
        signal i t + (laplace_iter fn d signal).approx_HH i i t *
          deriv (fun s => -(1 / 2) * (s + (d.y i t / d.phi i) ^ 2 * Real.exp (-s)))
            (signal i t)) := by
  obtain ⟨hexp, -, -, -⟩ := hfn
  have hrow := laplace_iter_row fn d signal i t hi
  have he : Real.exp (signal i t) ≠ 0 := ne_of_gt (Real.exp_pos _)
  refine ⟨?_, ?_, ?_⟩
  · intro htag hu
    have hu0 : d.u i t ≠ 0 := ne_of_gt hu
    rw [hrow.1, hrow.2, poisson_deriv2, poisson_deriv]
    simp only [laplace_row, htag, hexp, and_self, if_true]
    constructor
    · field_simp
      try ring
    · field_simp
      ring
  · intro htag hu
    have hu0 : d.u i t ≠ 0 := ne_of_gt hu
    have h1 : (1 + Real.exp (signal i t)) ≠ 0 := ne_of_gt (by positivity)
    rw [hrow.1, hrow.2, binomial_deriv2, binomial_deriv]
    simp only [laplace_row, htag, hexp, and_self, if_true]
    constructor
    · field_simp
      try ring
    · field_simp
      ring
  · intro htag hy hphi
    have hy0 : d.y i t ≠ 0 := by
      intro h0
      rw [h0, abs_zero] at hy
      norm_num at hy
    have hnlt : ¬ |d.y i t| < 1 / 10000 := not_lt.mpr hy
    have hen : Real.exp (-signal i t) = (Real.exp (signal i t))⁻¹ := Real.exp_neg _
    rw [hrow.1, hrow.2, sv_deriv2, sv_deriv]
    simp only [laplace_row, htag, hexp, and_self, if_true, hnlt, if_false, hen]
    constructor
    · field_simp
      try ring
    · field_simp
      ring


/-- C15 on models with one coordinate and signal 0: a Poisson coordinate (y = 3, u = 2), a
binomial coordinate (y = 3, u = 5) and a stochastic-volatility coordinate (y = 1,
phi = 2). -/
theorem laplace_iter_second_order_witness :
    RealFns ⟨Real.exp, Real.log, fun x => Real.log (1 + x), Real.sqrt⟩ ∧
    0 < (oneCoord 1 (3 : ℝ) 2 1).p ∧ (0 : ℝ) < 2 ∧ (1 : ℝ) / 10000 ≤ |1| ∧
    (laplace_iter ⟨Real.exp, Real.log, fun x => Real.log (1 + x), Real.sqrt⟩
        (oneCoord 1 (3 : ℝ) 2 1) (fun _ _ => 0)).approx_HH 0 0 0 =
      -1 / deriv (deriv (fun s => 3 * s - 2 * Real.exp s)) 0 ∧
    (laplace_iter ⟨Real.exp, Real.log, fun x => Real.log (1 + x), Real.sqrt⟩
        (oneCoord 2 (3 : ℝ) 5 1) (fun _ _ => 0)).approx_HH 0 0 0 =
      -1 / deriv (deriv (fun s => 3 * s - 5 * Real.log (1 + Real.exp s))) 0 ∧
    (laplace_iter ⟨Real.exp, Real.log, fun x => Real.log (1 + x), Real.sqrt⟩
        (oneCoord 0 (1 : ℝ) 1 2) (fun _ _ => 0)).approx_HH 0 0 0 =
      -1 / deriv (deriv (fun s => -(1 / 2) * (s + ((1 : ℝ) / 2) ^ 2 * Real.exp (-s)))) 0 :=
  ⟨⟨rfl, rfl, rfl, rfl⟩, Nat.one_pos, by norm_num, by norm_num,
    ((laplace_iter_second_order ⟨Real.exp, Real.log, fun x => Real.log (1 + x), Real.sqrt⟩
      ⟨rfl, rfl, rfl, rfl⟩ (oneCoord 1 (3 : ℝ) 2 1) (fun _ _ => 0) 0 0 Nat.one_pos).1 rfl
      (show (0 : ℝ) < 2 by norm_num)).1,
    ((laplace_iter_second_order ⟨Real.exp, Real.log, fun x => Real.log (1 + x), Real.sqrt⟩
      ⟨rfl, rfl, rfl, rfl⟩ (oneCoord 2 (3 : ℝ) 5 1) (fun _ _ => 0) 0 0 Nat.one_pos).2.1 rfl
      (show (0 : ℝ) < 5 by norm_num)).1,
    ((laplace_iter_second_order ⟨Real.exp, Real.log, fun x => Real.log (1 + x), Real.sqrt⟩
      ⟨rfl, rfl, rfl, rfl⟩ (oneCoord 0 (1 : ℝ) 1 2) (fun _ _ => 0) 0 0 Nat.one_pos).2.2 rfl
      (show (1 : ℝ) / 10000 ≤ |1| by norm_num) (show (2 : ℝ) ≠ 0 by norm_num)).1⟩


/-- C16 (as amended): for a negative-binomial coordinate (tag 3) with `u > 0` and
`phi > 0`, `laplace_iter` leaves at every time step the pseudo-variance
`HH = 1 / phi + 1 / (u * exp(s))`: this is `-1 / l''(s)` with `y` replaced by its
conditional mean `u * exp(s)`, and it equals `-1 / l''(s)` exactly when `y = u * exp(s)`;
the pseudo-observation is `y~ = s + HH * l'(s)`. -/
theorem laplace_iter_negbin (fn : MathFns ℝ) (hfn : RealFns fn) (d : MngData ℝ)
    (signal : Nat → Nat → ℝ) (i t : Nat) (hi : i < d.p) (htag : d.distribution i = 3)
    (hu : 0 < d.u i t) (hphi : 0 < d.phi i) :
    (laplace_iter fn d signal).approx_HH i i t =
      1 / d.phi i + 1 / (d.u i t * Real.exp (signal i t)) ∧
    (laplace_iter fn d signal).approx_HH i i t =
      -1 / deriv (deriv (fun s => d.u i t * Real.exp (signal i t) * s -
        (d.u i t * Real.exp (signal i t) + d.phi i) *
          Real.log (d.phi i + d.u i t * Real.exp s))) (signal i t) ∧
    ((laplace_iter fn d signal).approx_HH i i t =
        -1 / deriv (deriv (fun s => d.y i t * s -
          (d.y i t + d.phi i) * Real.log (d.phi i + d.u i t * Real.exp s))) (signal i t) ↔
      d.y i t = d.u i t * Real.exp (signal i t)) ∧
    (laplace_iter fn d signal).approx_y i t =
      signal i t + (laplace_iter fn d signal).approx_HH i i t *
        deriv (fun s => d.y i t * s -
          (d.y i t + d.phi i) * Real.log (d.phi i + d.u i t * Real.exp s)) (signal i t) := by
  obtain ⟨hexp, -, -, -⟩ := hfn
  have hrow := laplace_iter_row fn d signal i t hi
  have hE : 0 < Real.exp (signal i t) := Real.exp_pos _
  have he : Real.exp (signal i t) ≠ 0 := ne_of_gt hE
  have hu0 : d.u i t ≠ 0 := ne_of_gt hu
  have hphi0 : d.phi i ≠ 0 := ne_of_gt hphi
  have hsum : 0 < d.phi i + d.u i t * Real.exp (signal i t) := by positivity
  have hsum0 : d.phi i + d.u i t * Real.exp (signal i t) ≠ 0 := ne_of_gt hsum
  have hsum1 : d.u i t * Real.exp (signal i t) + d.phi i ≠ 0 := by
    rw [add_comm]
    exact hsum0
  have hHH : (laplace_iter fn d signal).approx_HH i i t =
      (d.phi i + d.u i t * Real.exp (signal i t)) /
        (d.phi i * d.u i t * Real.exp (signal i t)) := by
    rw [hrow.1]
    simp only [laplace_row, htag, hexp, and_self, if_true]
    field_simp
    ring
  have hy : (laplace_iter fn d signal).approx_y i t =
      signal i t + d.y i t / (d.u i t * Real.exp (signal i t)) - 1 := by
    rw [hrow.2]
    simp only [laplace_row, htag, hexp, if_true]
    field_simp
    ring
  refine ⟨?_, ?_, ?_, ?_⟩
  · rw [hHH]
    field_simp
    ring
  · rw [hHH, negbin_deriv2 _ _ _ _ hu hphi]
    field_simp
    ring
  · rw [hHH, negbin_deriv2 _ _ _ _ hu hphi]
    constructor
    · intro h
      by_cases ha : d.y i t + d.phi i = 0
      · rw [ha] at h
        simp only [zero_mul, zero_div, neg_zero, div_zero] at h
        have hpos : 0 < (d.phi i + d.u i t * Real.exp (signal i t)) /
            (d.phi i * d.u i t * Real.exp (signal i t)) := by positivity
        rw [h] at hpos
        exact absurd hpos (lt_irrefl 0)
      · field_simp at h
        have hk : (d.phi i + d.u i t * Real.exp (signal i t)) *
            (d.phi i * d.u i t * Real.exp (signal i t)) ≠ 0 := by positivity
        have hmul : (d.phi i + d.u i t * Real.exp (signal i t)) *
              (d.phi i * d.u i t * Real.exp (signal i t)) * (d.y i t + d.phi i) =
            (d.phi i + d.u i t * Real.exp (signal i t)) *
              (d.phi i * d.u i t * Real.exp (signal i t)) *
              (d.phi i + d.u i t * Real.exp (signal i t)) := by
          linear_combination h
        have := mul_left_cancel₀ hk hmul
        linarith
    · intro h
      rw [h]
      field_simp
      ring
  · rw [hHH, hy, negbin_deriv _ _ _ hu hphi]
    field_simp
    ring


/-- C16 (as amended) on a model with one negative-binomial coordinate (y = 2, u = 1,
phi = 1) and signal 0. -/
theorem laplace_iter_negbin_witness :
    RealFns ⟨Real.exp, Real.log, fun x => Real.log (1 + x), Real.sqrt⟩ ∧
    0 < (oneCoord 3 (2 : ℝ) 1 1).p ∧ (oneCoord 3 (2 : ℝ) 1 1).distribution 0 = 3 ∧
    (0 : ℝ) < 1 ∧
    (laplace_iter ⟨Real.exp, Real.log, fun x => Real.log (1 + x), Real.sqrt⟩
        (oneCoord 3 (2 : ℝ) 1 1) (fun _ _ => 0)).approx_HH 0 0 0 =
      1 / 1 + 1 / (1 * Real.exp 0) :=
  ⟨⟨rfl, rfl, rfl, rfl⟩, Nat.one_pos, rfl, one_pos,
    (laplace_iter_negbin ⟨Real.exp, Real.log, fun x => Real.log (1 + x), Real.sqrt⟩
      ⟨rfl, rfl, rfl, rfl⟩ (oneCoord 3 (2 : ℝ) 1 1) (fun _ _ => 0) 0 0 Nat.one_pos rfl
      (show (0 : ℝ) < 1 from one_pos) (show (0 : ℝ) < 1 from one_pos)).1⟩

/-- C16 (counterexample): for a negative-binomial coordinate with y = 0, u = 1, phi = 1 and
signal 0, `laplace_iter` leaves the pseudo-variance 2, while `-1 / l''(0)` is 4. -/
theorem laplace_iter_negbin_not_second_order :
    (laplace_iter ⟨Real.exp, Real.log, fun x => Real.log (1 + x), Real.sqrt⟩
        (oneCoord 3 (0 : ℝ) 1 1) (fun _ _ => 0)).approx_HH 0 0 0 = 2 ∧
    -1 / deriv (deriv (fun s => (0 : ℝ) * s - (0 + 1) * Real.log (1 + 1 * Real.exp s))) 0 =
      4 := by
  constructor
  · rw [(laplace_iter_row _ _ _ 0 0 Nat.one_pos).1]
    simp only [laplace_row, oneCoord, and_self, if_true, Real.exp_zero]
    norm_num
  · rw [negbin_deriv2 0 1 1 0 one_pos one_pos]
    simp only [Real.exp_zero]
    norm_num


/-- With one coordinate (`p = 1`, a mode estimate of one row) `update_scales` leaves the
stated sum in `scales(t)`: `mode_estimate(t)` is then the element (0, t). -/
theorem update_scales_univariate {F : Type} [LinearOrderedField F] (fn : MathFns F)
    (d : MngData F) (t : Nat) (ht : t < d.n) (hp : d.p = 1)
    (hr : d.mode_estimate.n_rows = 1) :
    (update_scales fn d).scales t = claimed_scales fn d t := by
  have hlin : d.mode_estimate.lin t = d.mode_estimate.entry 0 t := by
    simp [Mat.lin, hr, Nat.mod_one]
  by_cases hf : d.y_finite 0 t = true
  · simp only [update_scales, claimed_scales, ht, hp, if_true, List.range_succ, List.range_zero,
      List.nil_append, List.foldl_cons, List.foldl_nil, scales_step, hf, List.filter_cons,
      List.filter_nil, List.map_cons, List.map_nil, List.sum_cons, List.sum_nil, zero_add,
      add_zero]
    congr 1
    unfold scales_switch obs_term
    rw [hlin]
  · simp only [update_scales, claimed_scales, ht, hp, if_true, List.range_succ, List.range_zero,
      List.nil_append, List.foldl_cons, List.foldl_nil, scales_step, hf, List.filter_cons,
      List.filter_nil, List.map_nil, List.sum_nil, if_false, Bool.false_eq_true]

/-- C14 (evaluation): on the model with two binomial coordinates, whatever the functions
of `<cmath>` are, `update_scales` leaves in `scales(1)` the stated sum plus 2: for both
coordinates the binomial case multiplies `y(i,1)` by `mode_estimate(1)`, the element
(1, 0) of the 2 x 2 mode matrix (value 1), where the stated sum has `mode_estimate(i,1)`
(value 0). -/
theorem update_scales_binomial_linear_index (F : Type) [LinearOrderedField F]
    (fn : MathFns F) :
    (twoBinomial F).mode_estimate.lin 1 = 1 ∧
    (twoBinomial F).mode_estimate.entry 0 1 = 0 ∧
    (twoBinomial F).mode_estimate.entry 1 1 = 0 ∧
    (update_scales fn (twoBinomial F)).scales 1 = claimed_scales fn (twoBinomial F) 1 + 2 ∧
    (update_scales fn (twoBinomial F)).scales 1 ≠ claimed_scales fn (twoBinomial F) 1 := by
  have h : (update_scales fn (twoBinomial F)).scales 1 =
      claimed_scales fn (twoBinomial F) 1 + 2 := by
    simp [update_scales, claimed_scales, scales_step, scales_switch, obs_term, twoBinomial,
      Mat.lin, List.range_succ]
    ring
  refine ⟨?_, ?_, ?_, h, ?_⟩
  · simp [twoBinomial, Mat.lin]
  · simp [twoBinomial]
  · simp [twoBinomial]
  · rw [h]
    intro h2
    have h3 : (2 : F) = 0 := by linear_combination h2
    exact absurd h3 two_ne_zero


/-! ### The log-weights of the particles -/

theorem log_weights_inner {F : Type} [LinearOrderedField F] (fn : MathFns F) (d : MngData F)
    (t : Nat) (alpha : Cube F) (i : Nat) (l : List Nat) :
    ∀ (w : Nat → F) (k : Nat),
      (l.foldl (log_weights_step fn d t alpha i) w) k =
        w k +
          (if k = i then
            ((l.filter (fun j => d.y_finite j t)).map
              (fun j => obs_term fn d j t (simsignal d t alpha i j))).sum
          else 0) +
          ((l.filter (fun j => d.y_finite j t)).map (fun j =>
            1 / 2 * ((d.approx_y j t - simsignal d t alpha i j) / d.approx_H j j t) ^ 2)).sum := by
  induction l with
  | nil =>
    intro w k
    simp
  | cons j l ih =>
    intro w k
    rw [List.foldl_cons, ih]
    by_cases hf : d.y_finite j t = true
    · by_cases hk : k = i
      · subst hk
        simp only [log_weights_step, hf, if_true, setSlot, List.filter_cons, List.map_cons,
          List.sum_cons]
        ring
      · simp only [log_weights_step, hf, if_true, setSlot, hk, if_false, List.filter_cons,
          List.map_cons, List.sum_cons]
        ring
    · simp only [log_weights_step, hf, List.filter_cons, if_false, Bool.false_eq_true]

theorem log_obs_density_inner {F : Type} [LinearOrderedField F] (fn : MathFns F)
    (d : MngData F) (t : Nat) (alpha : Cube F) (i : Nat) (l : List Nat) :
    ∀ (w : Nat → F) (k : Nat),
      (l.foldl (log_obs_density_step fn d t alpha i) w) k =
        w k +
          (if k = i then
            ((l.filter (fun j => d.y_finite j t)).map
              (fun j => obs_term fn d j t (simsignal d t alpha i j))).sum
          else 0) := by
  induction l with
  | nil =>
    intro w k
    simp
  | cons j l ih =>
    intro w k
    rw [List.foldl_cons, ih]
    by_cases hf : d.y_finite j t = true
    · by_cases hk : k = i
      · subst hk
        simp only [log_obs_density_step, hf, if_true, setSlot, List.filter_cons, List.map_cons,
          List.sum_cons]
        ring
      · simp only [log_obs_density_step, hf, if_true, setSlot, hk, if_false, List.filter_cons,
          add_zero]
    · simp only [log_obs_density_step, hf, List.filter_cons, if_false, Bool.false_eq_true]

/-- After the passes of the particles `0..m-1`, element `k` of the vector of `log_weights`
holds the log-density terms of particle `k` (once its pass has run) plus the quadratic
terms of ALL the particles served so far. -/
theorem log_weights_outer {F : Type} [LinearOrderedField F] (fn : MathFns F) (d : MngData F)
    (t : Nat) (alpha : Cube F) (m : Nat) :
    ∀ k : Nat,
      ((List.range m).foldl
        (fun weights i => (List.range d.p).foldl (log_weights_step fn d t alpha i) weights)
        (fun _ => 0)) k =
        (if k < m then
          (((List.range d.p).filter (fun j => d.y_finite j t)).map
            (fun j => obs_term fn d j t (simsignal d t alpha k j))).sum
        else 0) +
          ((List.range m).map (fun i => surrogate_term d t alpha i)).sum := by
  induction m with
  | zero =>
    intro k
    simp
  | succ m ih =>
    intro k
    rw [List.range_succ, List.foldl_append]
    simp only [List.foldl_cons, List.foldl_nil, List.map_append, List.map_cons, List.map_nil,
      List.sum_append, List.sum_cons, List.sum_nil, add_zero]
    rw [log_weights_inner, ih]
    by_cases hk : k = m
    · subst hk
      simp only [lt_irrefl, if_false, Nat.lt_succ_self, if_true, surrogate_term]
      ring
    · by_cases hlt : k < m
      · have hlt2 : k < m + 1 := by omega
        simp only [hlt, hlt2, hk, if_true, if_false, surrogate_term]
        ring
      · have hlt2 : ¬ k < m + 1 := by omega
        simp only [hlt, hlt2, hk, if_false, surrogate_term]
        ring

theorem log_obs_density_outer {F : Type} [LinearOrderedField F] (fn : MathFns F)
    (d : MngData F) (t : Nat) (alpha : Cube F) (m : Nat) :
    ∀ k : Nat,
      ((List.range m).foldl
        (fun weights i => (List.range d.p).foldl (log_obs_density_step fn d t alpha i) weights)
        (fun _ => 0)) k =
        (if k < m then
          (((List.range d.p).filter (fun j => d.y_finite j t)).map
            (fun j => obs_term fn d j t (simsignal d t alpha k j))).sum
        else 0) := by
  induction m with
  | zero =>
    intro k
    simp
  | succ m ih =>
    intro k
    rw [List.range_succ, List.foldl_append]
    simp only [List.foldl_cons, List.foldl_nil]
    rw [log_obs_density_inner, ih]
    by_cases hk : k = m
    · subst hk
      simp only [lt_irrefl, if_false, Nat.lt_succ_self, if_true, zero_add]
    · by_cases hlt : k < m
      · have hlt2 : k < m + 1 := by omega
        simp only [hlt, hlt2, hk, if_true, if_false, add_zero]
      · have hlt2 : ¬ k < m + 1 := by omega
        simp only [hlt, hlt2, hk, if_false, add_zero]

/-- What `log_weights` returns for particle `i`: its log-density plus the quadratic terms
of every particle of the cube. -/
theorem log_weights_value {F : Type} [LinearOrderedField F] (fn : MathFns F) (d : MngData F)
    (t : Nat) (alpha : Cube F) (i : Nat) :
    log_weights fn d t alpha i =
      log_obs_density fn d t alpha i +
        ((List.range alpha.n_slices).map (fun k => surrogate_term d t alpha k)).sum := by
  unfold log_weights log_obs_density
  rw [log_weights_outer, log_obs_density_outer]


/-- With a single particle `log_weights` returns the stated value. -/
theorem log_weights_single_particle {F : Type} [LinearOrderedField F] (fn : MathFns F)
    (d : MngData F) (t : Nat) (alpha : Cube F) (h : alpha.n_slices = 1) :
    log_weights fn d t alpha 0 =
      log_obs_density fn d t alpha 0 + surrogate_term d t alpha 0 := by
  rw [log_weights_value, h]
  simp [List.range_succ]

/-- C20 (evaluation): with one Poisson coordinate (y = u = 1, pseudo-observation 0,
standard deviation 1) and two particles in the states 0 and 1, whatever the functions of
`<cmath>` are, `log_weights(0, alpha)(0)` is the stated value for particle 0 plus 1/2, the
quadratic term of particle 1; it changes when only the state of particle 1 changes. -/
theorem log_weights_adds_other_particles (F : Type) [LinearOrderedField F] (fn : MathFns F) :
    log_weights fn (oneCoord 1 1 1 1) 0 (twoParticles 0 1) 0 =
      log_obs_density fn (oneCoord 1 1 1 1) 0 (twoParticles 0 1) 0 +
        surrogate_term (oneCoord 1 1 1 1) 0 (twoParticles 0 1) 0 + 1 / 2 ∧
    log_weights fn (oneCoord 1 1 1 1) 0 (twoParticles (0 : F) 1) 0 ≠
      log_obs_density fn (oneCoord 1 1 1 1) 0 (twoParticles 0 1) 0 +
        surrogate_term (oneCoord 1 1 1 1) 0 (twoParticles 0 1) 0 ∧
    log_weights fn (oneCoord 1 1 1 1) 0 (twoParticles (0 : F) 1) 0 ≠
      log_weights fn (oneCoord 1 1 1 1) 0 (twoParticles 0 0) 0 := by
  have h1 : log_weights fn (oneCoord 1 1 1 1) 0 (twoParticles (0 : F) 1) 0 =
      -fn.exp 0 + 1 / 2 := by
    simp [log_weights, log_weights_step, List.range_succ, oneCoord, twoParticles, simsignal,
      obs_term, Mat.zeros, setSlot]
  have h2 : log_weights fn (oneCoord 1 1 1 1) 0 (twoParticles (0 : F) 0) 0 = -fn.exp 0 := by
    simp [log_weights, log_weights_step, List.range_succ, oneCoord, twoParticles, simsignal,
      obs_term, Mat.zeros, setSlot]
  have h3 : log_obs_density fn (oneCoord 1 1 1 1) 0 (twoParticles (0 : F) 1) 0 +
      surrogate_term (oneCoord 1 1 1 1) 0 (twoParticles 0 1) 0 = -fn.exp 0 := by
    simp [log_obs_density, log_obs_density_step, surrogate_term, List.range_succ, oneCoord,
      twoParticles, simsignal, obs_term, Mat.zeros, setSlot]
  have hhalf : (1 / 2 : F) ≠ 0 := by norm_num
  refine ⟨?_, ?_, ?_⟩
  · rw [h1, h3]
  · rw [h1, h3]
    intro h
    exact hhalf (by linear_combination h)
  · rw [h1, h2]
    intro h
    exact hhalf (by linear_combination h)


/-! ### The repeat counts never underflow -/

/-- In the run from a fresh sampler the increment of `count_storage(n_stored - 1)` is never
reached with `n_stored = 0`, every increment is made on a slot below `n_stored`, and every
stored repeat count that lies inside the arrays is at least 1. -/
theorem run_counts_positive (ops : Ops Θ U SM M A) (cfg : Config) (draws : Nat → Draw U)
    (st : Sampler Θ SM M A) (h0 : st.n_stored = 0) (hc0 : st.counts = 0)
    (ha0 : st.accesses = []) (hthin : 1 ≤ cfg.n_thin) (k : Nat) :
    Access.underflow ∉ (run_to ops cfg draws st k).accesses ∧
    (∀ s, Access.bump s ∈ (run_to ops cfg draws st k).accesses →
      s < (run_to ops cfg draws st k).n_stored) ∧
    (∀ j, j < (run_to ops cfg draws st k).n_stored → j < n_samples cfg →
      1 ≤ (run_to ops cfg draws st k).count_storage j) := by
  induction k with
  | zero =>
    have e : run_to ops cfg draws st 0 = st := rfl
    rw [e, ha0, h0]
    refine ⟨List.not_mem_nil _, fun s hs => absurd hs (List.not_mem_nil _), ?_⟩
    intro j hj
    omega
  | succ k ih =>
    obtain ⟨ih1, ih2, ih3⟩ := ih
    have hinv := run_invariant ops cfg draws st h0 hc0 hthin k
    have e : run_to ops cfg draws st (k + 1) =
        iteration ops cfg (k + 1) (draws (k + 1)) (run_to ops cfg draws st k) := rfl
    rw [e]
    by_cases ht : thinned cfg (k + 1)
    · by_cases hc : (iteration ops cfg (k + 1) (draws (k + 1))
          (run_to ops cfg draws st k)).counts ≤ cfg.n_thin
      · by_cases hcap : (run_to ops cfg draws st k).n_stored < n_samples cfg
        · have hap := iteration_append ops cfg (k + 1) (draws (k + 1))
            (run_to ops cfg draws st k) ht hc hcap
          obtain ⟨a1, a2, -, -, -, -, -, -, a9⟩ := hap
          rw [a1, a2, a9]
          refine ⟨?_, ?_, ?_⟩
          · intro hmem
            rcases List.mem_append.mp hmem with h | h
            · exact ih1 h
            · simp at h
          · intro s hs
            rcases List.mem_append.mp hs with h | h
            · have := ih2 s h
              omega
            · simp at h
          · intro j hj hjc
            by_cases hj2 : j = (run_to ops cfg draws st k).n_stored
            · simp [setSlot, hj2]
            · have hj3 : j < (run_to ops cfg draws st k).n_stored := by omega
              simp only [setSlot, hj2, if_false]
              exact ih3 j hj3 hjc
        · have hov := iteration_overflow ops cfg (k + 1) (draws (k + 1))
            (run_to ops cfg draws st k) ht hc hcap
          obtain ⟨a1, a2, -, -, -, -, -, -, a9, -⟩ := hov
          rw [a1, a2, a9]
          refine ⟨?_, ?_, ?_⟩
          · intro hmem
            rcases List.mem_append.mp hmem with h | h
            · exact ih1 h
            · simp at h
          · intro s hs
            rcases List.mem_append.mp hs with h | h
            · have := ih2 s h
              omega
            · simp at h
          · intro j hj hjc
            have hj3 : j < (run_to ops cfg draws st k).n_stored := by omega
            exact ih3 j hj3 hjc
      · have hn : (run_to ops cfg draws st k).n_stored ≠ 0 := by
          by_cases hk : cfg.n_burnin < k
          · exact hinv.2.1 hk
          · exfalso
            apply hc
            rw [iteration_counts, (hinv.1 (Nat.le_of_not_lt hk)).1]
            have hb : cfg.n_burnin < k + 1 := ht.1
            simp [hb]
            exact hthin
        by_cases hcap : (run_to ops cfg draws st k).n_stored ≤ n_samples cfg
        · have hb := iteration_bump ops cfg (k + 1) (draws (k + 1))
            (run_to ops cfg draws st k) ht hc hn hcap
          obtain ⟨b1, b2, -, -, -, -, -, -, b9⟩ := hb
          rw [b1, b2, b9]
          refine ⟨?_, ?_, ?_⟩
          · intro hmem
            rcases List.mem_append.mp hmem with h | h
            · exact ih1 h
            · simp at h
          · intro s hs
            rcases List.mem_append.mp hs with h | h
            · exact ih2 s h
            · simp at h
              omega
          · intro j hj hjc
            by_cases hj2 : j = (run_to ops cfg draws st k).n_stored - 1
            · simp [setSlot, hj2]
            · simp only [setSlot, hj2, if_false]
              exact ih3 j hj hjc
        · have hb := iteration_bump_overflow ops cfg (k + 1) (draws (k + 1))
            (run_to ops cfg draws st k) ht hc hn hcap
          obtain ⟨b1, b2, b9⟩ := hb
          rw [b1, b2, b9]
          refine ⟨?_, ?_, ?_⟩
          · intro hmem
            rcases List.mem_append.mp hmem with h | h
            · exact ih1 h
            · simp at h
          · intro s hs
            rcases List.mem_append.mp hs with h | h
            · exact ih2 s h
            · simp at h
              omega
          · intro j hj hjc
            exact ih3 j hj hjc
    · have hs := iteration_skip ops cfg (k + 1) (draws (k + 1)) (run_to ops cfg draws st k) ht
      rw [hs.1, hs.2.1, hs.2.2]
      exact ⟨ih1, ih2, ih3⟩

/-- Whatever the interruption checks do, `k` further passes of the loop leave in the state
reached by some number of uninterrupted passes. -/
theorem loop_outcome_run (ops : Ops Θ U SM M A) (cfg : Config) (draws : Nat → Draw U)
    (st : Sampler Θ SM M A) (k : Nat) :
    ∀ j, ∃ m, j ≤ m ∧ m ≤ j + k ∧
      outcome_state (loop ops cfg draws k (j + 1) (run_to ops cfg draws st j)) =
        run_to ops cfg draws st m := by
  induction k with
  | zero =>
    intro j
    exact ⟨j, le_refl j, le_refl j, rfl⟩
  | succ k ih =>
    intro j
    by_cases hc : (j + 1) % 16 = 0 ∧ (draws (j + 1)).interrupt = true
    · refine ⟨j, le_refl j, by omega, ?_⟩
      simp only [loop, hc, and_self, if_true, outcome_state]
    · obtain ⟨m, h1, h2, h3⟩ := ih (j + 1)
      refine ⟨m, by omega, by omega, ?_⟩
      simp only [loop, hc, if_false]
      exact h3


theorem run_burnin_accesses (ops : Ops Θ U SM M A) (cfg : Config) (draws : Nat → Draw U)
    (st : Sampler Θ SM M A) (ha0 : st.accesses = []) (k : Nat) (hk : k ≤ cfg.n_burnin) :
    (run_to ops cfg draws st k).accesses = [] ∧
    (run_to ops cfg draws st k).count_storage = st.count_storage := by
  induction k with
  | zero => exact ⟨ha0, rfl⟩
  | succ k ih =>
    have hs := iteration_skip ops cfg (k + 1) (draws (k + 1)) (run_to ops cfg draws st k)
      (not_thinned_burnin cfg (k + 1) hk)
    have e : run_to ops cfg draws st (k + 1) =
        iteration ops cfg (k + 1) (draws (k + 1)) (run_to ops cfg draws st k) := rfl
    rw [e, hs.2.1, hs.2.2]
    exact ih (by omega)

/-- The repeat counts in a run from a fresh sampler object (`n_stored = 0`) with
`n_thin >= 1`, for every sequence of draws (hence every accept/reject sequence): when the
arrays have at least one slot, the first post-burn-in pass appends entry 0 with repeat
count 1; at every stage of the loop the increment `count_storage(n_stored - 1)++` has never
been reached with `n_stored = 0`, every increment was made on a slot below `n_stored`, and
every stored repeat count inside the arrays is at least 1; the same holds for the state in
which `approx_mcmc` is left, by return or by interruption. -/
theorem counts_never_underflow (ops : Ops Θ U SM M A) (cfg : Config)
    (draws : Nat → Draw U) (model : M) (obj : Members Θ SM) (h0 : obj.n_stored = 0)
    (hthin : 1 ≤ cfg.n_thin) :
    (0 < n_samples cfg →
      (run_to ops cfg draws (init ops cfg model obj) (cfg.n_burnin + 1)).accesses =
        [Access.store 0] ∧
      (run_to ops cfg draws (init ops cfg model obj) (cfg.n_burnin + 1)).n_stored = 1 ∧
      (run_to ops cfg draws (init ops cfg model obj) (cfg.n_burnin + 1)).count_storage 0 = 1) ∧
    (∀ k,
      Access.underflow ∉ (run_to ops cfg draws (init ops cfg model obj) k).accesses ∧
      (∀ s, Access.bump s ∈ (run_to ops cfg draws (init ops cfg model obj) k).accesses →
        s < (run_to ops cfg draws (init ops cfg model obj) k).n_stored) ∧
      (∀ j, j < (run_to ops cfg draws (init ops cfg model obj) k).n_stored →
        j < n_samples cfg →
        1 ≤ (run_to ops cfg draws (init ops cfg model obj) k).count_storage j)) ∧
    Access.underflow ∉ (outcome_state (approx_mcmc ops cfg draws model obj)).accesses ∧
    (∀ j, j < (outcome_state (approx_mcmc ops cfg draws model obj)).n_stored →
      j < n_samples cfg →
      1 ≤ (outcome_state (approx_mcmc ops cfg draws model obj)).count_storage j) := by
  have hn0 : (init ops cfg model obj).n_stored = 0 := h0
  have hc0 : (init ops cfg model obj).counts = 0 := rfl
  have ha0 : (init ops cfg model obj).accesses = [] := rfl
  have hall := run_counts_positive ops cfg draws (init ops cfg model obj) hn0 hc0 ha0 hthin
  refine ⟨?_, hall, ?_⟩
  · intro hcap
    have hinv := run_invariant ops cfg draws (init ops cfg model obj) hn0 hc0 hthin
      cfg.n_burnin
    have hb := run_burnin_accesses ops cfg draws (init ops cfg model obj) ha0 cfg.n_burnin
      (le_refl _)
    have hcnt : (iteration ops cfg (cfg.n_burnin + 1) (draws (cfg.n_burnin + 1))
        (run_to ops cfg draws (init ops cfg model obj) cfg.n_burnin)).counts ≤ cfg.n_thin := by
      rw [iteration_counts, (hinv.1 (le_refl _)).1]
      simp
      exact hthin
    have hfree : (run_to ops cfg draws (init ops cfg model obj) cfg.n_burnin).n_stored <
        n_samples cfg := by
      rw [(hinv.1 (le_refl _)).2]
      exact hcap
    have hap := iteration_append ops cfg (cfg.n_burnin + 1) (draws (cfg.n_burnin + 1))
      (run_to ops cfg draws (init ops cfg model obj) cfg.n_burnin) (thinned_first cfg) hcnt
      hfree
    obtain ⟨a1, a2, -, -, -, -, -, -, a9⟩ := hap
    have e : run_to ops cfg draws (init ops cfg model obj) (cfg.n_burnin + 1) =
        iteration ops cfg (cfg.n_burnin + 1) (draws (cfg.n_burnin + 1))
          (run_to ops cfg draws (init ops cfg model obj) cfg.n_burnin) := rfl
    rw [e, a1, a2, a9, hb.1, (hinv.1 (le_refl _)).2]
    refine ⟨rfl, rfl, ?_⟩
    simp [setSlot]
  · obtain ⟨m, -, -, hm⟩ := loop_outcome_run ops cfg draws (init ops cfg model obj) cfg.n_iter 0
    have e0 : run_to ops cfg draws (init ops cfg model obj) 0 = init ops cfg model obj := rfl
    rw [e0] at hm
    have hout : (outcome_state (approx_mcmc ops cfg draws model obj)).accesses =
          (run_to ops cfg draws (init ops cfg model obj) m).accesses ∧
        (outcome_state (approx_mcmc ops cfg draws model obj)).n_stored =
          (run_to ops cfg draws (init ops cfg model obj) m).n_stored ∧
        (outcome_state (approx_mcmc ops cfg draws model obj)).count_storage =
          (run_to ops cfg draws (init ops cfg model obj) m).count_storage := by
      unfold approx_mcmc
      cases hl : loop ops cfg draws cfg.n_iter (0 + 1) (init ops cfg model obj) with
      | ok s =>
        rw [hl] at hm
        simp only [outcome_state] at hm
        subst hm
        exact ⟨rfl, rfl, rfl⟩
      | error s =>
        rw [hl] at hm
        simp only [outcome_state] at hm
        subst hm
        exact ⟨rfl, rfl, rfl⟩
    rw [hout.1, hout.2.1, hout.2.2]
    exact ⟨(hall m).1, (hall m).2.2⟩

/-- The repeat counts on a small instance: 7 iterations, burn-in 2, thinning 2, every
proposal rejected. -/
theorem counts_never_underflow_instance :
    toyMembers.n_stored = 0 ∧ 1 ≤ (toyConfig 7 2 2).n_thin ∧
    (run_to toyOps (toyConfig 7 2 2) downDraws (init toyOps (toyConfig 7 2 2) 0 toyMembers)
      ((toyConfig 7 2 2).n_burnin + 1)).accesses = [Access.store 0] ∧
    Access.underflow ∉
      (outcome_state (approx_mcmc toyOps (toyConfig 7 2 2) downDraws 0 toyMembers)).accesses :=
  ⟨rfl, by decide,
    ((counts_never_underflow toyOps (toyConfig 7 2 2) downDraws 0 toyMembers rfl
      (by decide)).1 (by decide)).1,
    (counts_never_underflow toyOps (toyConfig 7 2 2) downDraws 0 toyMembers rfl
      (by decide)).2.2.1⟩

/-- C29 (evaluation of the code): with `n_iter = 3`, `n_burnin = 1`, `n_thin = 3` the
arrays have `n_samples = floor(2 / 3) = 0` slots. The first post-burn-in pass `i = 2`
writes slot 0, which is outside the arrays, whatever the proposal does: no entry is
appended to them, although `n_stored` becomes 1; and `approx_mcmc` returns with
`n_stored = 1` and arrays without a slot, so the stored entry has no repeat count. -/
theorem approx_mcmc_first_append_outside :
    n_samples (toyConfig 3 1 3) = 0 ∧
    (∀ draws : Nat → Draw ℤ,
      (run_to toyOps (toyConfig 3 1 3) draws (init toyOps (toyConfig 3 1 3) 0 toyMembers)
        ((toyConfig 3 1 3).n_burnin + 1)).accesses = [Access.store 0] ∧
      (run_to toyOps (toyConfig 3 1 3) draws (init toyOps (toyConfig 3 1 3) 0 toyMembers)
        ((toyConfig 3 1 3).n_burnin + 1)).n_stored = 1) ∧
    Access.within (n_samples (toyConfig 3 1 3)) (Access.store 0) = false ∧
    (∃ st, approx_mcmc toyOps (toyConfig 3 1 3) stayDraws 0 toyMembers = .ok st ∧
      st.n_stored = 1 ∧ st.accesses = [Access.store 0]) := by
  refine ⟨by decide, ?_, by decide, ?_⟩
  · intro draws
    have hinv := run_invariant toyOps (toyConfig 3 1 3) draws
      (init toyOps (toyConfig 3 1 3) 0 toyMembers) rfl rfl (by decide) 1
    have hb := run_burnin_accesses toyOps (toyConfig 3 1 3) draws
      (init toyOps (toyConfig 3 1 3) 0 toyMembers) rfl 1 (le_refl _)
    have hcnt : (iteration toyOps (toyConfig 3 1 3) 2 (draws 2)
        (run_to toyOps (toyConfig 3 1 3) draws
          (init toyOps (toyConfig 3 1 3) 0 toyMembers) 1)).counts ≤ (toyConfig 3 1 3).n_thin := by
      rw [iteration_counts, (hinv.1 (le_refl _)).1]
      have h3 : (toyConfig 3 1 3).n_thin = 3 := rfl
      rw [h3]
      split <;> decide
    have hfull : ¬ (run_to toyOps (toyConfig 3 1 3) draws
        (init toyOps (toyConfig 3 1 3) 0 toyMembers) 1).n_stored < n_samples (toyConfig 3 1 3) := by
      rw [(hinv.1 (le_refl _)).2]
      decide
    have hov := iteration_overflow toyOps (toyConfig 3 1 3) 2 (draws 2)
      (run_to toyOps (toyConfig 3 1 3) draws (init toyOps (toyConfig 3 1 3) 0 toyMembers) 1)
      (by decide) hcnt hfull
    obtain ⟨a1, -, -, -, -, -, -, -, a9, -⟩ := hov
    have e : run_to toyOps (toyConfig 3 1 3) draws (init toyOps (toyConfig 3 1 3) 0 toyMembers)
        ((toyConfig 3 1 3).n_burnin + 1) =
        iteration toyOps (toyConfig 3 1 3) 2 (draws 2)
          (run_to toyOps (toyConfig 3 1 3) draws
            (init toyOps (toyConfig 3 1 3) 0 toyMembers) 1) := rfl
    rw [e, a1, a9, hb.1, (hinv.1 (le_refl _)).2]
    exact ⟨rfl, rfl⟩
  · refine ⟨_, approx_mcmc_no_interrupt toyOps (toyConfig 3 1 3) stayDraws 0 toyMembers
      (fun _ _ => rfl), ?_, ?_⟩ <;> decide!


/-! ### Fixed points of the linearization -/

theorem foldl_max_spec {F : Type} [LinearOrder F] (l : List F) :
    ∀ a : F,
      (l.foldl (fun acc v => if acc < v then v else acc) a = a ∨
        l.foldl (fun acc v => if acc < v then v else acc) a ∈ l) ∧
      a ≤ l.foldl (fun acc v => if acc < v then v else acc) a ∧
      ∀ x ∈ l, x ≤ l.foldl (fun acc v => if acc < v then v else acc) a := by
  induction l with
  | nil =>
    intro a
    exact ⟨Or.inl rfl, le_refl a, fun x hx => absurd hx (List.not_mem_nil x)⟩
  | cons b l ih =>
    intro a
    rw [List.foldl_cons]
    obtain ⟨h1, h2, h3⟩ := ih (if a < b then b else a)
    have hab : a ≤ (if a < b then b else a) ∧ b ≤ (if a < b then b else a) := by
      by_cases h : a < b
      · simp only [h, if_true]
        exact ⟨le_of_lt h, le_refl b⟩
      · simp only [h, if_false]
        exact ⟨le_refl a, not_lt.mp h⟩
    refine ⟨?_, le_trans hab.1 h2, ?_⟩
    · rcases h1 with h | h
      · by_cases hlt : a < b
        · right
          rw [h]
          simp [hlt]
        · left
          rw [h]
          simp [hlt]
      · right
        exact List.mem_cons_of_mem _ h
    · intro x hx
      rcases List.mem_cons.mp hx with hx | hx
      · rw [hx]
        exact le_trans hab.2 h2
      · exact h3 x hx

/-- The maximum of a non-empty vector exists, is one of its elements and bounds them all. -/
theorem vec_max_spec {F : Type} [LinearOrder F] (w : List F) (hw : w ≠ []) :
    ∃ mx, vec_max w = some mx ∧ mx ∈ w ∧ ∀ x ∈ w, x ≤ mx := by
  cases w with
  | nil => exact absurd rfl hw
  | cons a l =>
    obtain ⟨h1, h2, h3⟩ := foldl_max_spec l a
    refine ⟨_, rfl, ?_, ?_⟩
    · rcases h1 with h | h
      · rw [h]
        exact List.mem_cons_self a l
      · exact List.mem_cons_of_mem _ h
    · intro x hx
      rcases List.mem_cons.mp hx with hx | hx
      · rw [hx]
        exact h2
      · exact h3 x hx

theorem sum_map_exp_sub (w : List ℝ) (mx : ℝ) :
    (w.map (fun x => Real.exp (x - mx))).sum = (w.map Real.exp).sum * Real.exp (-mx) := by
  induction w with
  | nil => simp
  | cons a l ih =>
    simp only [List.map_cons, List.sum_cons, ih]
    rw [sub_eq_add_neg, Real.exp_add]
    ring

theorem sum_map_exp_pos (w : List ℝ) (hw : w ≠ []) : 0 < (w.map Real.exp).sum := by
  cases w with
  | nil => exact absurd rfl hw
  | cons a l =>
    simp only [List.map_cons, List.sum_cons]
    have h1 : 0 < Real.exp a := Real.exp_pos a
    have h2 : 0 ≤ (l.map Real.exp).sum :=
      List.sum_nonneg (fun x hx => by
        obtain ⟨y, -, rfl⟩ := List.mem_map.mp hx
        exact le_of_lt (Real.exp_pos y))
    linarith


/-- C21: over the reals, for every non-empty vector `w` of log-densities and `nsim >= 1`,
the weighting stage of `bsf_filter` finds the maximum of `w`, and the term it adds to
`loglik`, `max_weight + log(sum_i exp(w_i - max_weight) / nsim)`, equals the unstabilized
value `log((1 / nsim) * sum_i exp(w_i))`. -/
theorem bsf_increment_unstabilized (fn : MathFns ℝ) (hfn : RealFns fn) (nsim : Nat)
    (w : List ℝ) (hw : w ≠ []) (hn : 0 < nsim) :
    ∃ r, bsf_weighing fn nsim w = some r ∧ r.max_weight ∈ w ∧ (∀ x ∈ w, x ≤ r.max_weight) ∧
      r.increment = r.max_weight +
        Real.log ((w.map (fun x => Real.exp (x - r.max_weight))).sum / (nsim : ℝ)) ∧
      r.increment = unstabilized_increment fn nsim w := by
  obtain ⟨hexp, hlog, -, -⟩ := hfn
  obtain ⟨mx, h1, h2, h3⟩ := vec_max_spec w hw
  have hS : 0 < (w.map Real.exp).sum := sum_map_exp_pos w hw
  have hnR : (0 : ℝ) < (nsim : ℝ) := Nat.cast_pos.mpr hn
  have hE : 0 < Real.exp (-mx) := Real.exp_pos _
  have hr : bsf_weighing fn nsim w = some
      { max_weight := mx
        weights := w.map (fun x => fn.exp (x - mx))
        sum_weights := (w.map (fun x => fn.exp (x - mx))).sum
        positive := decide ((w.map (fun x => fn.exp (x - mx))).sum > 0)
        normalized_weights :=
          (w.map (fun x => fn.exp (x - mx))).map
            (fun x => x / (w.map (fun x => fn.exp (x - mx))).sum)
        increment := mx + fn.log ((w.map (fun x => fn.exp (x - mx))).sum / (nsim : ℝ)) } := by
    simp only [bsf_weighing, h1]
  refine ⟨_, hr, h2, h3, ?_, ?_⟩
  · simp only [hexp, hlog]
  · simp only [unstabilized_increment, hexp, hlog]
    rw [sum_map_exp_sub, Real.log_div (ne_of_gt (mul_pos hS hE)) (ne_of_gt hnR),
      Real.log_mul (ne_of_gt hS) (ne_of_gt hE), Real.log_exp,
      Real.log_mul (ne_of_gt (one_div_pos.mpr hnR)) (ne_of_gt hS), one_div, Real.log_inv]
    ring

/-- C21 on the vector (0, 1) with two particles. -/
theorem bsf_increment_unstabilized_witness :
    RealFns ⟨Real.exp, Real.log, fun x => Real.log (1 + x), Real.sqrt⟩ ∧
    ([0, 1] : List ℝ) ≠ [] ∧ 0 < 2 ∧
    ∃ r, bsf_weighing ⟨Real.exp, Real.log, fun x => Real.log (1 + x), Real.sqrt⟩ 2
        ([0, 1] : List ℝ) = some r ∧
      r.increment =
        unstabilized_increment ⟨Real.exp, Real.log, fun x => Real.log (1 + x), Real.sqrt⟩ 2
          [0, 1] :=
  ⟨⟨rfl, rfl, rfl, rfl⟩, List.cons_ne_nil _ _, Nat.succ_pos 1,
    (bsf_increment_unstabilized ⟨Real.exp, Real.log, fun x => Real.log (1 + x), Real.sqrt⟩
      ⟨rfl, rfl, rfl, rfl⟩ 2 [0, 1] (List.cons_ne_nil _ _) (Nat.succ_pos 1)).elim
      (fun r h => ⟨r, h.1, h.2.2.2.2⟩)⟩

/-- C22: over the reals, for every non-empty vector `w` of log-densities of the `nsim`
particles, the weighting stage of `bsf_filter` stores weights in (0, 1], one of them equal
to 1; their sum is in [1, nsim], the test `sum_weights > 0.0` succeeds (no `return -inf`),
and the normalized weights are non-negative and sum to 1. -/
theorem bsf_weights_unit_interval (fn : MathFns ℝ) (hfn : RealFns fn) (nsim : Nat)
    (w : List ℝ) (hw : w ≠ []) (hlen : w.length = nsim) :
    ∃ r, bsf_weighing fn nsim w = some r ∧
      r.weights = w.map (fun x => Real.exp (x - r.max_weight)) ∧
      r.weights.length = nsim ∧
      (∀ x ∈ r.weights, 0 < x ∧ x ≤ 1) ∧ (1 : ℝ) ∈ r.weights ∧
      r.sum_weights = r.weights.sum ∧ 1 ≤ r.sum_weights ∧ r.sum_weights ≤ (nsim : ℝ) ∧
      r.positive = true ∧
      r.normalized_weights = r.weights.map (fun x => x / r.sum_weights) ∧
      (∀ x ∈ r.normalized_weights, 0 ≤ x) ∧ r.normalized_weights.sum = 1 := by
  obtain ⟨hexp, -, -, -⟩ := hfn
  obtain ⟨mx, h1, h2, h3⟩ := vec_max_spec w hw
  have hmem : ∀ x ∈ w.map (fun x => Real.exp (x - mx)), 0 < x ∧ x ≤ 1 := by
    intro x hx
    obtain ⟨y, hy, rfl⟩ := List.mem_map.mp hx
    refine ⟨Real.exp_pos _, ?_⟩
    rw [← Real.exp_zero]
    exact Real.exp_le_exp.mpr (by linarith [h3 y hy])
  have hone : (1 : ℝ) ∈ w.map (fun x => Real.exp (x - mx)) :=
    List.mem_map.mpr ⟨mx, h2, by simp⟩
  have hge : (1 : ℝ) ≤ (w.map (fun x => Real.exp (x - mx))).sum :=
    List.single_le_sum (fun x hx => le_of_lt (hmem x hx).1) 1 hone
  have hle : (w.map (fun x => Real.exp (x - mx))).sum ≤ (nsim : ℝ) := by
    have h := List.sum_le_card_nsmul (w.map (fun x => Real.exp (x - mx))) 1
      (fun x hx => (hmem x hx).2)
    rw [List.length_map, hlen, nsmul_eq_mul, mul_one] at h
    exact h
  have hpos : 0 < (w.map (fun x => Real.exp (x - mx))).sum := by linarith
  have hr : bsf_weighing fn nsim w = some
      { max_weight := mx
        weights := w.map (fun x => fn.exp (x - mx))
        sum_weights := (w.map (fun x => fn.exp (x - mx))).sum
        positive := decide ((w.map (fun x => fn.exp (x - mx))).sum > 0)
        normalized_weights :=
          (w.map (fun x => fn.exp (x - mx))).map
            (fun x => x / (w.map (fun x => fn.exp (x - mx))).sum)
        increment := mx + fn.log ((w.map (fun x => fn.exp (x - mx))).sum / (nsim : ℝ)) } := by
    simp only [bsf_weighing, h1]
  refine ⟨_, hr, ?_, ?_, ?_, ?_, rfl, ?_, ?_, ?_, rfl, ?_, ?_⟩
  · simp only [hexp]
  · simp only [List.length_map, hlen]
  · simp only [hexp]
    exact hmem
  · simp only [hexp]
    exact hone
  · simp only [hexp]
    exact hge
  · simp only [hexp]
    exact hle
  · simp only [hexp]
    exact decide_eq_true hpos
  · simp only [hexp]
    intro x hx
    obtain ⟨y, hy, rfl⟩ := List.mem_map.mp hx
    exact div_nonneg (le_of_lt (hmem y hy).1) (le_of_lt hpos)
  · simp only [hexp]
    have hdiv : ∀ l : List ℝ, ∀ s : ℝ, (l.map (fun x => x / s)).sum = l.sum / s := by
      intro l s
      induction l with
      | nil => simp
      | cons a l ih =>
        simp only [List.map_cons, List.sum_cons, ih]
        ring
    rw [hdiv]
    exact div_self (ne_of_gt hpos)

/-- C22 on the vector (0, 1) with two particles. -/
theorem bsf_weights_unit_interval_witness :
    RealFns ⟨Real.exp, Real.log, fun x => Real.log (1 + x), Real.sqrt⟩ ∧
    ([0, 1] : List ℝ) ≠ [] ∧ ([0, 1] : List ℝ).length = 2 ∧
    ∃ r, bsf_weighing ⟨Real.exp, Real.log, fun x => Real.log (1 + x), Real.sqrt⟩ 2
        ([0, 1] : List ℝ) = some r ∧
      r.positive = true ∧ r.normalized_weights.sum = 1 :=
  ⟨⟨rfl, rfl, rfl, rfl⟩, List.cons_ne_nil _ _, rfl,
    (bsf_weights_unit_interval ⟨Real.exp, Real.log, fun x => Real.log (1 + x), Real.sqrt⟩
      ⟨rfl, rfl, rfl, rfl⟩ 2 [0, 1] (List.cons_ne_nil _ _) rfl).elim
      (fun r h => ⟨r, h.1, h.2.2.2.2.2.2.2.2.1, h.2.2.2.2.2.2.2.2.2.2.2⟩)⟩


/-! ### The global approximation -/

/-- C24: when `local_approx` is false and `approx_state` is 0, `approximate` keeps the
pseudo-observations and pseudo-variances of the surrogate (`approx_model.y`, `H`, `HH`),
sets `mode_estimate` to the signal of one smoother pass of the surrogate with the current
system matrices, sets `approx_state` to 1, and its result does not depend on the mode
loop, the only caller of `laplace_iter`. -/
theorem approximate_global_no_relinearization {Θ CUBE MAT VEC G : Type}
    (ops : MngOps Θ CUBE MAT VEC G) (mdl : SsmMng (Core Θ CUBE MAT VEC G))
    (hl : mdl.core.local_approx = false) (hs : mdl.approx_state = 0) :
    (approximate ops mdl).core.approx_model.rest = mdl.core.approx_model.rest ∧
    (approximate ops mdl).core.mode_estimate =
      ops.smoothed_mode
        { mdl.core with
          approx_model :=
            { mdl.core.approx_model with
              Z := mdl.core.Z
              T := mdl.core.T
              R := mdl.core.R
              a1 := mdl.core.a1
              P1 := mdl.core.P1
              D := mdl.core.D
              C := mdl.core.C
              RR := mdl.core.RR } } ∧
    (approximate ops mdl).approx_state = 1 ∧
    (∀ mode_loop : Core Θ CUBE MAT VEC G → G × MAT,
      approximate { ops with mode_loop := mode_loop } mdl = approximate ops mdl) := by
  have hlt : mdl.approx_state < 1 := by
    rw [hs]
    decide
  refine ⟨?_, ?_, ?_, ?_⟩
  · simp [approximate, rebuild_surrogate, hlt, hl, hs]
  · simp [approximate, rebuild_surrogate, hlt, hl, hs]
  · simp [approximate, rebuild_surrogate, hlt]
  · intro mode_loop
    simp [approximate, rebuild_surrogate, hlt, hl, hs]

/-- C24 on the small model instance, switched to the global approximation, with flag 0:
the count of mode-loop runs kept in the pseudo-data stays 0. -/
theorem approximate_global_no_relinearization_witness :
    ({ toyMng 0 with
        core := { (toyMng 0).core with local_approx := false } } :
      SsmMng (Core ℤ Unit Unit Unit Nat)).core.local_approx = false ∧
    (approximate toyMngOps
      { toyMng 0 with core := { (toyMng 0).core with local_approx := false } }).core.approx_model.rest
        = 0 ∧
    (approximate toyMngOps
      { toyMng 0 with core := { (toyMng 0).core with local_approx := false } }).approx_state
        = 1 :=
  ⟨rfl,
    (approximate_global_no_relinearization toyMngOps
      { toyMng 0 with core := { (toyMng 0).core with local_approx := false } } rfl rfl).1,
    (approximate_global_no_relinearization toyMngOps
      { toyMng 0 with core := { (toyMng 0).core with local_approx := false } } rfl rfl).2.2.1⟩


/-! ### The mode iteration -/

theorem Dbl.le_of_not_gt (a b : Dbl) (ha : a ≠ Dbl.nan) (hb : b ≠ Dbl.nan)
    (h : Dbl.gt a b = false) : Dbl.le a b = true := by
  cases a <;> cases b <;> simp_all [Dbl.gt, Dbl.lt, Dbl.le]

theorem Dbl.not_gt_of_le (a b : Dbl) (h : Dbl.le a b = true) : Dbl.gt a b = false := by
  cases a <;> cases b <;> simp_all [Dbl.gt, Dbl.lt, Dbl.le]

/-- With fuel for the passes that remain the loop returns; it stops at the first state in
which the condition fails, after at most `max_iter - i` further passes. -/
theorem mode_while_spec {ST : Type} (pass : ST → ST × Dbl) (max_iter : Nat) (conv_tol : Dbl)
    (fuel : Nat) :
    ∀ s : ModeLoop ST, max_iter - s.i ≤ fuel → s.inv conv_tol →
      ∃ r, mode_while pass max_iter conv_tol fuel s = some r ∧ r.inv conv_tol ∧
        s.i ≤ r.i ∧ (s.i ≤ max_iter → r.i ≤ max_iter) ∧
        ¬ (r.i < max_iter ∧ Dbl.gt r.diff conv_tol = true) ∧
        r.state = (fun x => (pass x).1)^[r.i - s.i] s.state ∧
        (¬ (s.i < max_iter ∧ Dbl.gt s.diff conv_tol = true) → r = s) := by
  induction fuel with
  | zero =>
    intro s hf hinv
    have hc : ¬ (s.i < max_iter ∧ Dbl.gt s.diff conv_tol = true) := by
      rintro ⟨h1, -⟩
      omega
    refine ⟨s, by simp only [mode_while, hc, if_false], hinv, le_refl _, fun h => h, hc, ?_,
      fun _ => rfl⟩
    simp
  | succ fuel ih =>
    intro s hf hinv
    by_cases hc : s.i < max_iter ∧ Dbl.gt s.diff conv_tol = true
    · have hinv2 : ModeLoop.inv conv_tol
          ({ i := s.i + 1, diff := (pass s.state).2, state := (pass s.state).1,
             diffs := s.diffs ++ [(pass s.state).2] } : ModeLoop ST) := by
        obtain ⟨i1, i2, i3⟩ := hinv
        refine ⟨by simp [i1], ?_, ?_⟩
        · intro d hd
          simp only [List.dropLast_concat] at hd
          by_cases hne : s.diffs = []
          · rw [hne] at hd
            exact absurd hd (List.not_mem_nil d)
          · have hlast := i3 hne
            have hsplit := List.dropLast_append_getLast? s.diff hlast
            rw [← hsplit] at hd
            rcases List.mem_append.mp hd with h | h
            · exact i2 d h
            · simp only [List.mem_singleton] at h
              rw [h]
              exact hc.2
        · intro _
          simp
      obtain ⟨r, h1, h2, h3, h4, h5, h6, -⟩ := ih _ (by simp only []; omega) hinv2
      simp only [] at h3 h4 h6
      refine ⟨r, by simp only [mode_while, hc, and_self, if_true]; exact h1, h2, by omega,
        fun _ => h4 (by omega), h5, ?_, fun h => absurd hc h⟩
      rw [h6]
      have hsub : r.i - s.i = (r.i - (s.i + 1)) + 1 := by omega
      rw [hsub, Function.iterate_succ_apply]
    · refine ⟨s, by simp only [mode_while, hc, if_false], hinv, le_refl _, fun h => h, hc, ?_,
        fun _ => rfl⟩
      simp


/-- C25 (as amended): with fuel for `max_iter` passes the mode iteration returns, for every
pass function, tolerance and start: it has run `i <= max_iter` passes (none when
`max_iter = 0`, the state is then unchanged), the state is the one after `i` passes, every
mean squared change before the last exceeded `conv_tol` (the loop stops after the first
pass whose change does not), and on exit `i = max_iter` or the last value of `diff` does
not exceed `conv_tol`: when neither `diff` nor `conv_tol` is NaN it is at most
`conv_tol`. -/
theorem mode_iteration_terminates {ST : Type} (pass : ST → ST × Dbl) (max_iter : Nat)
    (conv_tol : Dbl) (fuel : Nat) (st : ST) (hfuel : max_iter ≤ fuel) :
    ∃ r, mode_iteration pass max_iter conv_tol fuel st = some r ∧
      r.i ≤ max_iter ∧ r.diffs.length = r.i ∧
      r.state = (fun x => (pass x).1)^[r.i] st ∧
      (max_iter = 0 → r.i = 0 ∧ r.state = st) ∧
      (∀ d ∈ r.diffs.dropLast, Dbl.gt d conv_tol = true) ∧
      (r.diffs ≠ [] → r.diffs.getLast? = some r.diff) ∧
      (r.i = max_iter ∨ Dbl.gt r.diff conv_tol = false) ∧
      (r.i < max_iter → r.diff ≠ Dbl.nan → conv_tol ≠ Dbl.nan →
        Dbl.le r.diff conv_tol = true) := by
  have hinv0 : ModeLoop.inv conv_tol
      ({ i := 0, diff := Dbl.add conv_tol (Dbl.fin 1), state := st, diffs := [] } :
        ModeLoop ST) :=
    ⟨rfl, fun d hd => absurd hd (List.not_mem_nil d), fun h => absurd rfl h⟩
  obtain ⟨r, h1, h2, -, h4, h5, h6, -⟩ :=
    mode_while_spec pass max_iter conv_tol fuel _ (by simp only []; omega) hinv0
  simp only [Nat.sub_zero] at h6
  have hle : r.i ≤ max_iter := h4 (Nat.zero_le _)
  have hexit : r.i = max_iter ∨ Dbl.gt r.diff conv_tol = false := by
    by_cases hlt : r.i < max_iter
    · right
      cases hg : Dbl.gt r.diff conv_tol with
      | false => rfl
      | true => exact absurd ⟨hlt, hg⟩ h5
    · left
      omega
  refine ⟨r, h1, hle, h2.1, h6, ?_, h2.2.1, h2.2.2, hexit, ?_⟩
  · intro h0
    have hi : r.i = 0 := by omega
    refine ⟨hi, ?_⟩
    rw [h6, hi]
    rfl
  · intro hlt hd hc
    rcases hexit with h | h
    · omega
    · exact Dbl.le_of_not_gt _ _ hd hc h

/-- C25 (as amended) on the counter whose change drops to 0 in the third pass, with
`max_iter = 10` and `conv_tol = 0.01`. -/
theorem mode_iteration_terminates_witness :
    10 ≤ 10 ∧
    ∃ r, mode_iteration toyPass 10 (Dbl.fin (1 / 100)) 10 0 = some r ∧ r.i ≤ 10 ∧
      r.diffs.length = r.i ∧ (r.i = 10 ∨ Dbl.gt r.diff (Dbl.fin (1 / 100)) = false) :=
  ⟨le_refl 10,
    (mode_iteration_terminates toyPass 10 (Dbl.fin (1 / 100)) 10 0 (le_refl 10)).elim
      (fun r h => ⟨r, h.1, h.2.1, h.2.2.1, h.2.2.2.2.2.2.2.1⟩)⟩

/-- C25 (counterexample): when the mean squared change of the first pass is NaN, the
iteration with `max_iter = 5` and `conv_tol = 0.01` stops after one pass: fewer than
`max_iter` passes were run and the last change is not at most `conv_tol`. -/
theorem mode_iteration_stops_on_nan :
    (mode_iteration nanPass 5 (Dbl.fin (1 / 100)) 5 0).map (fun r => (r.i, r.diff, r.state)) =
      some (1, Dbl.nan, 1) ∧
    Dbl.le Dbl.nan (Dbl.fin (1 / 100)) = false := by
  decide!


/-! ### The buffers of the workers -/

/-- With `2 <= n_threads <= n_stored < 2^32`, every worker but the last serves exactly
`thread_size` draws, and the last one serves `thread_size + n_stored mod n_threads`: its
buffers have as many slots as it has draws exactly when `n_threads` divides `n_stored`. -/
theorem worker_plan_sizes (n_stored n_threads tid : Nat) (h2 : 2 ≤ n_threads)
    (hle : n_threads ≤ n_stored) (hlt : n_stored < 4294967296) (htid : tid < n_threads) :
    (worker_plan n_stored n_threads tid).buffer_slots = n_stored / n_threads ∧
    (tid + 1 < n_threads →
      (worker_plan n_stored n_threads tid).piece_cols = n_stored / n_threads) ∧
    (tid + 1 = n_threads →
      (worker_plan n_stored n_threads tid).piece_cols =
        n_stored / n_threads + n_stored % n_threads) := by
  have hp := thread_range_partition n_stored n_threads tid h2 hle hlt htid
  obtain ⟨p1, p2, p3, p4, p5⟩ := hp
  refine ⟨rfl, ?_, ?_⟩
  · intro hnext
    have hq := (thread_range_partition n_stored n_threads (tid + 1) h2 hle hlt hnext).1
    have h4 := p4 hnext
    show (thread_range n_stored n_threads tid).2 + 1 - (thread_range n_stored n_threads tid).1
      = n_stored / n_threads
    rw [← h4, hq, p1]
    have : (tid + 1) * (n_stored / n_threads) =
        tid * (n_stored / n_threads) + n_stored / n_threads := by ring
    omega
  · intro hlast
    have h5 := p5 hlast
    show (thread_range n_stored n_threads tid).2 + 1 - (thread_range n_stored n_threads tid).1
      = n_stored / n_threads + n_stored % n_threads
    rw [h5, p1]
    have hdm := Nat.div_add_mod n_stored n_threads
    have hmul : n_threads * (n_stored / n_threads) =
        tid * (n_stored / n_threads) + n_stored / n_threads := by
      rw [← hlast]
      ring
    have hpos : 1 ≤ n_stored := by omega
    omega

/-- C26 (evaluation of the code): with 3 stored draws and 2 workers, worker 1 has the
range [1, 2], so its piece of the parameter matrix has 2 columns, while its buffers
`alpha_piece` and `weights_piece` have `thread_size = 1` slot; the sampler, run over the
2 columns, writes slot 1 of `weights_piece`. -/
theorem worker_buffer_too_small :
    worker_plan 3 2 1 = { start := 1, stop := 2, piece_cols := 2, buffer_slots := 1 } ∧
    (state_sampler_bsf_is2 toyCorrOps () 10 (fun _ => Dbl.fin 0)
        (worker_plan 3 2 1).piece_cols (fun _ => 0) (fun _ => ()) (fun _ => Dbl.nan)).2 1 =
      Dbl.fin 1 := by
  decide!


/-! ### The arguments of the bootstrap workers -/

/-- C27 (evaluation of the code): two stored draws with parameters (5), (6) and stored
approximate log-likelihoods 1, 2, two workers, a bootstrap filter whose log-likelihood is
the first parameter. The single-threaded sampler gives draw 0 the weight
`exp(5 - 1)`; worker 0 runs the filter at the parameter vector (1), the stored
log-likelihood, and subtracts 5, the parameter: its weight is `exp(1 - 5)`. -/
theorem bsf_worker_swaps_arguments :
    (state_sampler_bsf_is2 headCorrOps () 10 twoDraws.approx_loglik_storage 2
        twoDraws.theta_storage (fun _ => ()) (fun _ => Dbl.nan)).2 0 =
      Dbl.exp toyExp (Dbl.sub (Dbl.fin 5) (Dbl.fin 1)) ∧
    (bsf_worker headCorrOps (fun m _ => m) () 10 true 2 0 twoDraws (fun _ => ())
        (fun _ => Dbl.nan)).map (fun out => out.2 0) =
      some (Dbl.exp toyExp (Dbl.sub (Dbl.fin 1) (Dbl.fin 5))) ∧
    Dbl.exp toyExp (Dbl.sub (Dbl.fin 5) (Dbl.fin 1)) = Dbl.fin 5 ∧
    Dbl.exp toyExp (Dbl.sub (Dbl.fin 1) (Dbl.fin 5)) = Dbl.fin (1 / 5) := by
  decide!


/-! ### The columns written by the filters -/

/-- The last pass of the loop of `bsf_filter`, `t = n - 1`, writes column `n - 1` of
`indices`, propagates the particles to column `n` and fills column `n` of `weights` with
ones. -/
theorem bsf_iter_last {K P : Type} (ops : FilterOps K P) (mdl : SsmMng K) (nsim t : Nat)
    (st : FilterState P) (ht : t + 1 = mdl.n) :
    ∃ s, bsf_iter ops mdl nsim t st = .ok s ∧
      s.indices t = ops.stratified_sample t st.normalized_weights nsim ∧
      s.alpha = ops.bsf_propagate mdl nsim t
        (ops.stratified_sample t st.normalized_weights nsim) st.alpha ∧
      s.weights (t + 1) = ones nsim := by
  have hnot : ¬ (t < mdl.n - 1 ∧ n_nonfinite mdl (t + 1) < mdl.p) := by
    rintro ⟨h, -⟩
    omega
  have h : bsf_iter ops mdl nsim t st = .ok (skip_weighting ops.divFin nsim (t + 1)
      { st with
        indices := setSlot st.indices t (ops.stratified_sample t st.normalized_weights nsim)
        alpha := ops.bsf_propagate mdl nsim t
          (ops.stratified_sample t st.normalized_weights nsim) st.alpha }) := by
    simp only [bsf_iter, hnot, if_false]
  refine ⟨_, h, ?_, ?_, ?_⟩ <;> simp [skip_weighting, setSlot]

/-- The last pass of the loop of `psi_filter` writes the same columns. -/
theorem psi_iter_last {K P : Type} (ops : FilterOps K P) (mdl : SsmMng K) (nsim t : Nat)
    (st : FilterState P) (ht : t + 1 = mdl.n) :
    ∃ s, psi_iter ops mdl nsim t st = .ok s ∧
      s.indices t = ops.stratified_sample t st.normalized_weights nsim ∧
      s.alpha = ops.psi_propagate mdl nsim t
        (ops.stratified_sample t st.normalized_weights nsim) st.alpha ∧
      s.weights (t + 1) = ones nsim := by
  have hnot : ¬ (t < mdl.n - 1 ∧ n_nonfinite mdl (t + 1) < mdl.p) := by
    rintro ⟨h, -⟩
    omega
  have h : psi_iter ops mdl nsim t st = .ok (skip_weighting ops.divFin nsim (t + 1)
      { st with
        indices := setSlot st.indices t (ops.stratified_sample t st.normalized_weights nsim)
        alpha := ops.psi_propagate mdl nsim t
          (ops.stratified_sample t st.normalized_weights nsim) st.alpha }) := by
    simp only [psi_iter, hnot, if_false]
  refine ⟨_, h, ?_, ?_, ?_⟩ <;> simp [skip_weighting, setSlot]

/-! ### The columns written by the filters -/

theorem bsf_first_frame {K P : Type} (ops : FilterOps K P) (mdl : SsmMng K) (nsim : Nat)
    (st : FilterState P) :
    (∀ j, 0 < j → (outcome_state (bsf_first ops mdl nsim st)).weights j = st.weights j) ∧
    (outcome_state (bsf_first ops mdl nsim st)).indices = st.indices := by
  unfold bsf_first
  constructor
  · intro j hj
    have hne : j ≠ 0 := Nat.pos_iff_ne_zero.mp hj
    simp only []
    split_ifs <;> simp [outcome_state, skip_weighting, setSlot, hne]
  · simp only []
    split_ifs <;> simp [outcome_state, skip_weighting]

theorem psi_first_frame {K P : Type} (ops : FilterOps K P) (mdl : SsmMng K) (nsim : Nat)
    (st : FilterState P) :
    (∀ j, 0 < j → (outcome_state (psi_first ops mdl nsim st)).weights j = st.weights j) ∧
    (outcome_state (psi_first ops mdl nsim st)).indices = st.indices := by
  unfold psi_first
  constructor
  · intro j hj
    have hne : j ≠ 0 := Nat.pos_iff_ne_zero.mp hj
    simp only []
    split_ifs <;> simp [outcome_state, skip_weighting, setSlot, hne]
  · simp only []
    split_ifs <;> simp [outcome_state, skip_weighting]

theorem bsf_iter_frame {K P : Type} (ops : FilterOps K P) (mdl : SsmMng K) (nsim t : Nat)
    (st : FilterState P) :
    (∀ j, j ≠ t + 1 → (outcome_state (bsf_iter ops mdl nsim t st)).weights j = st.weights j) ∧
    (∀ j, j ≠ t → (outcome_state (bsf_iter ops mdl nsim t st)).indices j = st.indices j) := by
  unfold bsf_iter
  constructor
  · intro j hj
    simp only []
    split_ifs <;> simp [outcome_state, skip_weighting, setSlot, hj]
  · intro j hj
    simp only []
    split_ifs <;> simp [outcome_state, skip_weighting, setSlot, hj]

theorem psi_iter_frame {K P : Type} (ops : FilterOps K P) (mdl : SsmMng K) (nsim t : Nat)
    (st : FilterState P) :
    (∀ j, j ≠ t + 1 → (outcome_state (psi_iter ops mdl nsim t st)).weights j = st.weights j) ∧
    (∀ j, j ≠ t → (outcome_state (psi_iter ops mdl nsim t st)).indices j = st.indices j) := by
  unfold psi_iter
  constructor
  · intro j hj
    simp only []
    split_ifs <;> simp [outcome_state, skip_weighting, setSlot, hj]
  · intro j hj
    simp only []
    split_ifs <;> simp [outcome_state, skip_weighting, setSlot, hj]

/-- After the stage of column 0 and `k` passes of the loop, however the run ends,
`bsf_filter` has left the weight columns beyond `k` and the ancestor-index columns from `k`
on as they were. -/
theorem bsf_run_frame {K P : Type} (ops : FilterOps K P) (mdl : SsmMng K) (nsim : Nat)
    (st : FilterState P) (k : Nat) :
    (∀ j, k < j → (outcome_state (bsf_run ops mdl nsim st k)).weights j = st.weights j) ∧
    (∀ j, k ≤ j → (outcome_state (bsf_run ops mdl nsim st k)).indices j = st.indices j) := by
  induction k with
  | zero =>
    have h := bsf_first_frame ops mdl nsim st
    have e0 : bsf_run ops mdl nsim st 0 = bsf_first ops mdl nsim st := rfl
    rw [e0]
    exact ⟨h.1, fun j _ => by rw [h.2]⟩
  | succ k ih =>
    cases hr : bsf_run ops mdl nsim st k with
    | error e =>
      have e1 : bsf_run ops mdl nsim st (k + 1) = .error e := by
        simp only [bsf_run, hr]
      rw [hr] at ih
      rw [e1]
      exact ⟨fun j hj => ih.1 j (by omega), fun j hj => ih.2 j (by omega)⟩
    | ok s =>
      have e1 : bsf_run ops mdl nsim st (k + 1) = bsf_iter ops mdl nsim k s := by
        simp only [bsf_run, hr]
      rw [hr] at ih
      have hi := bsf_iter_frame ops mdl nsim k s
      rw [e1]
      constructor
      · intro j hj
        rw [hi.1 j (by omega)]
        exact ih.1 j (by omega)
      · intro j hj
        rw [hi.2 j (by omega)]
        exact ih.2 j (by omega)

/-- The same for `psi_filter`. -/
theorem psi_run_frame {K P : Type} (ops : FilterOps K P) (mdl : SsmMng K) (nsim : Nat)
    (st : FilterState P) (k : Nat) :
    (∀ j, k < j → (outcome_state (psi_run ops mdl nsim st k)).weights j = st.weights j) ∧
    (∀ j, k ≤ j → (outcome_state (psi_run ops mdl nsim st k)).indices j = st.indices j) := by
  induction k with
  | zero =>
    have h := psi_first_frame ops mdl nsim st
    have e0 : psi_run ops mdl nsim st 0 = psi_first ops mdl nsim st := rfl
    rw [e0]
    exact ⟨h.1, fun j _ => by rw [h.2]⟩
  | succ k ih =>
    cases hr : psi_run ops mdl nsim st k with
    | error e =>
      have e1 : psi_run ops mdl nsim st (k + 1) = .error e := by
        simp only [psi_run, hr]
      rw [hr] at ih
      rw [e1]
      exact ⟨fun j hj => ih.1 j (by omega), fun j hj => ih.2 j (by omega)⟩
    | ok s =>
      have e1 : psi_run ops mdl nsim st (k + 1) = psi_iter ops mdl nsim k s := by
        simp only [psi_run, hr]
      rw [hr] at ih
      have hi := psi_iter_frame ops mdl nsim k s
      rw [e1]
      constructor
      · intro j hj
        rw [hi.1 j (by omega)]
        exact ih.1 j (by omega)
      · intro j hj
        rw [hi.2 j (by omega)]
        exact ih.2 j (by omega)

theorem bsf_filter_state {K P : Type} (ops : FilterOps K P) (mdl : SsmMng K) (nsim : Nat)
    (alpha : P) (weights : Nat → List Dbl) (indices : Nat → List Nat) :
    (bsf_filter ops mdl nsim alpha weights indices).2 =
      outcome_state (bsf_run ops mdl nsim
        (filter_start (ops.bsf_initial mdl nsim alpha) weights indices) mdl.n) := by
  unfold bsf_filter
  split <;> simp [outcome_state, *]

theorem psi_filter_state {K P : Type} (ops : FilterOps K P) (mdl : SsmMng K) (nsim : Nat)
    (alpha : P) (weights : Nat → List Dbl) (indices : Nat → List Nat) :
    (psi_filter ops mdl nsim alpha weights indices).2.2 =
      outcome_state (psi_run ops (psi_prelude ops mdl) nsim
        (filter_start (ops.psi_initial (psi_prelude ops mdl) nsim alpha) weights indices)
        (psi_prelude ops mdl).n) := by
  unfold psi_filter
  simp only []
  split <;> simp [outcome_state, *]

/-- C23 (counterexample): a model with `n = 2` time steps and 2 particles, arrays whose
columns are all unwritten at the call. Both filters return with the particle columns 0, 1
and 2 written, column 2 of `weights` filled with ones and column 1 of `indices` written:
one column more than the particle and weight columns `0..n-1` and the ancestor-index
columns `0..n-2` of the claim. -/
theorem filters_write_one_column_more :
    (bsf_filter traceFilterOps traceModel 2 [] (fun _ => []) (fun _ => [])).2.alpha =
      [0, 1, 2] ∧
    (bsf_filter traceFilterOps traceModel 2 [] (fun _ => []) (fun _ => [])).2.weights 2 =
      [Dbl.fin 1, Dbl.fin 1] ∧
    (bsf_filter traceFilterOps traceModel 2 [] (fun _ => []) (fun _ => [])).2.indices 1 =
      [0, 1] ∧
    (psi_filter traceFilterOps traceModel 2 [] (fun _ => []) (fun _ => [])).2.2.alpha =
      [0, 1, 2] ∧
    (psi_filter traceFilterOps traceModel 2 [] (fun _ => []) (fun _ => [])).2.2.weights 2 =
      [Dbl.fin 1, Dbl.fin 1] ∧
    (psi_filter traceFilterOps traceModel 2 [] (fun _ => []) (fun _ => [])).2.2.indices 1 =
      [0, 1] := by
  decide!


/-- C23 (amended): `bsf_filter` and `psi_filter` leave every weight column beyond `n` and
every ancestor-index column from `n` on as it was at the call, however the run ends; and
in a run that reaches the last pass `t = n - 1` of the loop (`n >= 1`) that pass writes the
resampling indices into ancestor-index column `n - 1`, propagates the particles (which
writes particle column `n`), and fills weight column `n` with `nsim` ones. The filters
write the particle and weight columns `0..n` and the ancestor-index columns `0..n-1`. -/
theorem filters_columns_written {K P : Type} (ops : FilterOps K P) (mdl : SsmMng K)
    (nsim : Nat) (alpha : P) (weights : Nat → List Dbl) (indices : Nat → List Nat) :
    (∀ j, mdl.n < j → (bsf_filter ops mdl nsim alpha weights indices).2.weights j = weights j) ∧
    (∀ j, mdl.n ≤ j → (bsf_filter ops mdl nsim alpha weights indices).2.indices j = indices j) ∧
    (∀ j, (psi_prelude ops mdl).n < j →
      (psi_filter ops mdl nsim alpha weights indices).2.2.weights j = weights j) ∧
    (∀ j, (psi_prelude ops mdl).n ≤ j →
      (psi_filter ops mdl nsim alpha weights indices).2.2.indices j = indices j) ∧
    (∀ t prev, t + 1 = mdl.n →
      bsf_run ops mdl nsim (filter_start (ops.bsf_initial mdl nsim alpha) weights indices) t =
        .ok prev →
      (bsf_filter ops mdl nsim alpha weights indices).2.indices t =
        ops.stratified_sample t prev.normalized_weights nsim ∧
      (bsf_filter ops mdl nsim alpha weights indices).2.alpha =
        ops.bsf_propagate mdl nsim t (ops.stratified_sample t prev.normalized_weights nsim)
          prev.alpha ∧
      (bsf_filter ops mdl nsim alpha weights indices).2.weights (t + 1) =
        List.replicate nsim (Dbl.fin 1)) ∧
    (∀ t prev, t + 1 = (psi_prelude ops mdl).n →
      psi_run ops (psi_prelude ops mdl) nsim
          (filter_start (ops.psi_initial (psi_prelude ops mdl) nsim alpha) weights indices) t =
        .ok prev →
      (psi_filter ops mdl nsim alpha weights indices).2.2.indices t =
        ops.stratified_sample t prev.normalized_weights nsim ∧
      (psi_filter ops mdl nsim alpha weights indices).2.2.alpha =
        ops.psi_propagate (psi_prelude ops mdl) nsim t
          (ops.stratified_sample t prev.normalized_weights nsim) prev.alpha ∧
      (psi_filter ops mdl nsim alpha weights indices).2.2.weights (t + 1) =
        List.replicate nsim (Dbl.fin 1)) := by
  have hb := bsf_run_frame ops mdl nsim
    (filter_start (ops.bsf_initial mdl nsim alpha) weights indices) mdl.n
  have hp := psi_run_frame ops (psi_prelude ops mdl) nsim
    (filter_start (ops.psi_initial (psi_prelude ops mdl) nsim alpha) weights indices)
    (psi_prelude ops mdl).n
  rw [← bsf_filter_state] at hb
  rw [← psi_filter_state] at hp
  refine ⟨hb.1, hb.2, hp.1, hp.2, ?_, ?_⟩
  · intro t prev ht hprev
    obtain ⟨s, hs, h1, h2, h3⟩ := bsf_iter_last ops mdl nsim t prev ht
    have hrun : bsf_run ops mdl nsim
        (filter_start (ops.bsf_initial mdl nsim alpha) weights indices) mdl.n = .ok s := by
      rw [← ht]
      simp only [bsf_run, hprev]
      exact hs
    rw [bsf_filter_state, hrun]
    exact ⟨h1, h2, h3⟩
  · intro t prev ht hprev
    obtain ⟨s, hs, h1, h2, h3⟩ := psi_iter_last ops (psi_prelude ops mdl) nsim t prev ht
    have hrun : psi_run ops (psi_prelude ops mdl) nsim
        (filter_start (ops.psi_initial (psi_prelude ops mdl) nsim alpha) weights indices)
        (psi_prelude ops mdl).n = .ok s := by
      rw [← ht]
      simp only [psi_run, hprev]
      exact hs
    rw [psi_filter_state, hrun]
    exact ⟨h1, h2, h3⟩

/-- C23 (witness): on the model with `n = 2` time steps and 2 particles, the run of
`bsf_filter` reaches the last pass `t = 1`, which writes the indices `[0, 1]` into
ancestor-index column 1 and ones into weight column 2; weight column 3 and ancestor-index
column 2 stay as unwritten as they were. -/
theorem filters_columns_written_witness :
    (∃ prev, bsf_run traceFilterOps traceModel 2
        (filter_start (traceFilterOps.bsf_initial traceModel 2 []) (fun _ => []) (fun _ => []))
        1 = .ok prev) ∧
    (bsf_filter traceFilterOps traceModel 2 [] (fun _ => []) (fun _ => [])).2.indices 1 =
      [0, 1] ∧
    (bsf_filter traceFilterOps traceModel 2 [] (fun _ => []) (fun _ => [])).2.weights 2 =
      [Dbl.fin 1, Dbl.fin 1] ∧
    (bsf_filter traceFilterOps traceModel 2 [] (fun _ => []) (fun _ => [])).2.weights 3 = [] ∧
    (bsf_filter traceFilterOps traceModel 2 [] (fun _ => []) (fun _ => [])).2.indices 2 = [] := by
  have h := filters_columns_written traceFilterOps traceModel 2 [] (fun _ => []) (fun _ => [])
  have hb : (bsf_run traceFilterOps traceModel 2
      (filter_start (traceFilterOps.bsf_initial traceModel 2 []) (fun _ => []) (fun _ => []))
      1).toBool = true := by decide!
  cases hr : bsf_run traceFilterOps traceModel 2
      (filter_start (traceFilterOps.bsf_initial traceModel 2 []) (fun _ => []) (fun _ => []))
      1 with
  | error e =>
    rw [hr] at hb
    exact absurd hb (by simp [Except.toBool])
  | ok prev =>
    obtain ⟨h1, -, h3⟩ := h.2.2.2.2.1 1 prev rfl hr
    refine ⟨⟨prev, rfl⟩, ?_, h3, h.1 3 (by decide), h.2.1 2 (by decide)⟩
    rw [h1]
    rfl


/-! ### The slices read at a time step -/

/-- The signal of a particle at time `t` depends on the cube `Z` through its slice `t`
only, the slice listed in `obs_slice_reads t`. -/
theorem simsignal_reads_slice {F : Type} [LinearOrderedField F] (d : MngData F)
    (Z2 : Nat → Mat F) (t : Nat) (alpha : Cube F) (i j : Nat) (h : Z2 t = d.Z t) :
    simsignal { d with Z := Z2 } t alpha i j = simsignal d t alpha i j := by
  simp only [simsignal, h]

/-- With a single slice of `Z`, `approximate` reads slice 0 at every time step. -/
theorem approximate_slice_in_range (dims : SliceDims) (t : Nat) (h : dims.Z = 1) :
    (approximate_slice_reads dims t).all (SliceRead.in_range dims) = true := by
  simp [approximate_slice_reads, SliceDims.Ztv, SliceRead.in_range, h]

/-- C28 (evaluation of the code): for a time-invariant model (one slice of `Z`, `T`, `R`,
so `Ztv = Ttv = Rtv = 0`) with `n = 2`, at time step 1 `log_obs_density` and `log_weights`
read slice 1 of `Z`, and pass 1 of `bsf_filter` reads slice 1 of `T` and of `R`: none of
them exists; pass 0 of `bsf_filter` already reads slice 1 of `Z` through
`log_obs_density(1, alpha)`. `approximate` reads slice `Ztv * 1 = 0`. -/
theorem time_invariant_slices_out_of_range :
    invariantDims.Ztv = 0 ∧ invariantDims.Ttv = 0 ∧ invariantDims.Rtv = 0 ∧
    obs_slice_reads 1 = [SliceRead.Z 1] ∧
    (obs_slice_reads 1).all (SliceRead.in_range invariantDims) = false ∧
    bsf_pass_slice_reads 2 true 0 = [SliceRead.T 0, SliceRead.R 0, SliceRead.Z 1] ∧
    (bsf_pass_slice_reads 2 true 0).all (SliceRead.in_range invariantDims) = false ∧
    bsf_pass_slice_reads 2 true 1 = [SliceRead.T 1, SliceRead.R 1] ∧
    (bsf_pass_slice_reads 2 true 1).any (SliceRead.in_range invariantDims) = false ∧
    approximate_slice_reads invariantDims 1 = [SliceRead.Z 0] ∧
    (approximate_slice_reads invariantDims 1).all (SliceRead.in_range invariantDims) = true := by
  decide

end Bssm
